import Mathlib

/-!
# Mingo: a shallow embedding of the lexer, bytecode compiler and stack VM

The definitions below follow the Go sources package by package
(`internal/code`, `internal/object`, `internal/compiler`, `internal/vm`,
`internal/token`, `internal/lexer`).  Bytes are natural numbers below 256,
Go `int` values that are never negative are natural numbers, `int64` payloads
are integers reduced with `wrapInt64`, and a Go run-time panic is a separate
`crash` outcome.
-/

namespace Mingo

/-! ## internal/code -/

namespace code

/-- Instruction streams are byte sequences (`type Instructions []byte`). -/
abbrev Instructions := List Nat

/-- An opcode is one byte (`type Opcode byte`). -/
abbrev Opcode := Nat

abbrev OpConstant : Opcode := 0
abbrev OpAdd : Opcode := 1
abbrev OpSub : Opcode := 2
abbrev OpMul : Opcode := 3
abbrev OpDiv : Opcode := 4
abbrev OpTrue : Opcode := 5
abbrev OpFalse : Opcode := 6
abbrev OpNull : Opcode := 7
abbrev OpEqual : Opcode := 8
abbrev OpNotEqual : Opcode := 9
abbrev OpGreaterThan : Opcode := 10
abbrev OpLessThan : Opcode := 11
abbrev OpGreaterEqual : Opcode := 12
abbrev OpLessEqual : Opcode := 13
abbrev OpBang : Opcode := 14
abbrev OpMinus : Opcode := 15
abbrev OpPop : Opcode := 16
abbrev OpJump : Opcode := 17
abbrev OpJumpNotTruthy : Opcode := 18
abbrev OpGetGlobal : Opcode := 19
abbrev OpSetGlobal : Opcode := 20
abbrev OpGetLocal : Opcode := 21
abbrev OpSetLocal : Opcode := 22
abbrev OpCall : Opcode := 23
abbrev OpReturnValue : Opcode := 24
abbrev OpReturn : Opcode := 25
abbrev OpPrint : Opcode := 26

structure Definition where
  Name : String
  OperandWidths : List Nat
deriving DecidableEq, Repr

/-- The `definitions` map, as its list of entries. -/
def definitionsTable : List (Opcode × Definition) :=
  [ (OpConstant, ⟨"OpConstant", [2]⟩),
    (OpAdd, ⟨"OpAdd", []⟩),
    (OpSub, ⟨"OpSub", []⟩),
    (OpMul, ⟨"OpMul", []⟩),
    (OpDiv, ⟨"OpDiv", []⟩),
    (OpTrue, ⟨"OpTrue", []⟩),
    (OpFalse, ⟨"OpFalse", []⟩),
    (OpNull, ⟨"OpNull", []⟩),
    (OpEqual, ⟨"OpEqual", []⟩),
    (OpNotEqual, ⟨"OpNotEqual", []⟩),
    (OpGreaterThan, ⟨"OpGreaterThan", []⟩),
    (OpLessThan, ⟨"OpLessThan", []⟩),
    (OpGreaterEqual, ⟨"OpGreaterEqual", []⟩),
    (OpLessEqual, ⟨"OpLessEqual", []⟩),
    (OpBang, ⟨"OpBang", []⟩),
    (OpMinus, ⟨"OpMinus", []⟩),
    (OpPop, ⟨"OpPop", []⟩),
    (OpJump, ⟨"OpJump", [2]⟩),
    (OpJumpNotTruthy, ⟨"OpJumpNotTruthy", [2]⟩),
    (OpGetGlobal, ⟨"OpGetGlobal", [2]⟩),
    (OpSetGlobal, ⟨"OpSetGlobal", [2]⟩),
    (OpGetLocal, ⟨"OpGetLocal", [1]⟩),
    (OpSetLocal, ⟨"OpSetLocal", [1]⟩),
    (OpCall, ⟨"OpCall", [1]⟩),
    (OpReturnValue, ⟨"OpReturnValue", []⟩),
    (OpReturn, ⟨"OpReturn", []⟩),
    (OpPrint, ⟨"OpPrint", []⟩) ]

/-- Map access `definitions[op]`: `none` when the key is absent. -/
def definitions (op : Opcode) : Option Definition :=
  definitionsTable.lookup op

/-- One operand written into the instruction at its declared width:
`PutUint16(ins[offset:], uint16(o))` for width 2 (high byte first),
`ins[offset] = byte(o)` for width 1, and zero bytes left untouched for any
other width. -/
def putOperand (width o : Nat) : List Nat :=
  if width = 2 then [o / 256 % 256, o % 256]
  else if width = 1 then [o % 256]
  else List.replicate width 0

/-- The operand loop of `Make` over a zero-filled buffer.  With fewer operands
than declared widths the remaining bytes stay zero; with more operands than
widths the Go code indexes `def.OperandWidths[i]` out of range and panics
(`none`). -/
def putOperands : List Nat → List Nat → Option (List Nat)
  | widths, [] => some (List.replicate widths.sum 0)
  | [], _ :: _ => none
  | w :: ws, o :: os =>
    match putOperands ws os with
    | some rest => some (putOperand w o ++ rest)
    | none => none

/-- `Make(op, operands...)`: the empty slice for an undefined opcode, otherwise
the opcode byte followed by the operands; `none` is a run-time panic. -/
def Make (op : Opcode) (operands : List Nat) : Option (List Nat) :=
  match definitions op with
  | none => some []
  | some d =>
    match putOperands d.OperandWidths operands with
    | some bytes => some (op :: bytes)
    | none => none

/-- `Lookup`: the definition of the opcode, or the error `opcode %d undefined`. -/
def Lookup (op : Opcode) : Except String Definition :=
  match definitions op with
  | some d => .ok d
  | none => .error ("opcode " ++ toString op ++ " undefined")

/-- The loop of `ReadOperands` over the operand widths, from byte offset
`offset` of `ins`: the operands read and the offset reached.  Width 2 reads
`binary.BigEndian.Uint16(ins[offset:])`, width 1 reads `ins[offset]`, any other
width leaves the operand 0; a read past the end of `ins` panics (`none`). -/
def readOperandsFrom : List Nat → Instructions → Nat → Option (List Nat × Nat)
  | [], _, offset => some ([], offset)
  | width :: ws, ins, offset =>
    if width = 2 then
      match ins.get? offset, ins.get? (offset + 1) with
      | some hi, some lo =>
        match readOperandsFrom ws ins (offset + width) with
        | some (rest, off) => some ((hi <<< 8 ||| lo) :: rest, off)
        | none => none
      | _, _ => none
    else if width = 1 then
      match ins.get? offset with
      | some b =>
        match readOperandsFrom ws ins (offset + width) with
        | some (rest, off) => some (b :: rest, off)
        | none => none
      | none => none
    else
      match readOperandsFrom ws ins (offset + width) with
      | some (rest, off) => some (0 :: rest, off)
      | none => none

/-- `ReadOperands(def, ins)`: the operands and the number of bytes read. -/
def ReadOperands (d : Definition) (ins : Instructions) : Option (List Nat × Nat) :=
  readOperandsFrom d.OperandWidths ins 0

/-- The verb `%04d` of `fmt` for a number that is not negative: decimal,
padded with zeros on the left to at least 4 digits. -/
def pad4 (i : Nat) : String :=
  String.mk (List.replicate (4 - (toString i).length) '0') ++ toString i

/-- `Instructions.fmtInstruction`. -/
def fmtInstruction (d : Definition) (operands : List Nat) : String :=
  if operands.length ≠ d.OperandWidths.length then
    "ERROR: operand len " ++ toString operands.length ++ " does not match defined "
      ++ toString d.OperandWidths.length
  else
    match operands with
    | [] => d.Name
    | [a] => d.Name ++ " " ++ toString a
    | [a, b] => d.Name ++ " " ++ toString a ++ " " ++ toString b
    | _ => "ERROR: unhandled operand count for " ++ d.Name

/-- What a call of `Instructions.String` comes to: the string it returns, a Go
run-time panic, or an exhausted budget of loop iterations of the embedding. -/
inductive StringResult where
  | done (s : String)
  | crash (msg : String)
  | outOfFuel
deriving DecidableEq, Repr

/-- The loop `for i < len(ins)` of `Instructions.String`, with the text
written to `out` so far and a budget of iterations.  On an undefined opcode
the source writes the error line and continues without advancing `i`. -/
def stringLoop : Nat → Instructions → Nat → String → StringResult
  | 0, _, _, _ => .outOfFuel
  | fuel + 1, ins, i, out =>
    match ins.get? i with
    | none => .done out
    | some op =>
      match Lookup op with
      | .error err => stringLoop fuel ins i (out ++ ("ERROR: " ++ err ++ "\n"))
      | .ok d =>
        match ReadOperands d (ins.drop (i + 1)) with
        | none => .crash "index out of range"
        | some (operands, read) =>
          stringLoop fuel ins (i + 1 + read)
            (out ++ (pad4 i ++ " " ++ fmtInstruction d operands ++ "\n"))

/-- `Instructions.String`, with a budget of loop iterations. -/
def Instructions.String (fuel : Nat) (ins : Instructions) : StringResult :=
  stringLoop fuel ins 0 ""

end code

/-! ## internal/object -/

namespace object

/-- The four run-time values.  `Integer.Value` is an `int64`, kept as an
integer in the range of `wrapInt64`. -/
inductive Object where
  | Integer (Value : Int)
  | Boolean (Value : Bool)
  | Null
  | CompiledFunction (Instructions : List Nat) (NumLocals : Nat) (NumParameters : Nat)
deriving DecidableEq, Repr

end object

/-! ## internal/compiler: symbol table -/

namespace compiler

open code object

/-- The scope tag is a string type in the source (`type SymbolScope string`). -/
abbrev SymbolScope := String

abbrev GlobalScope : SymbolScope := "GLOBAL"
abbrev LocalScope : SymbolScope := "LOCAL"

structure Symbol where
  Name : String
  Index : Nat
  Scope : SymbolScope
deriving DecidableEq, Repr

/-- A frame of the symbol-table chain.  `root` is a table whose `Outer`
pointer is nil, `enclosed` one whose `Outer` is the given table.  The Go map
`store` is kept as an association list with one entry per key. -/
inductive SymbolTable where
  | root (store : List (String × Symbol)) (numDefs : Nat)
  | enclosed (Outer : SymbolTable) (store : List (String × Symbol)) (numDefs : Nat)
deriving DecidableEq, Repr

namespace SymbolTable

def store : SymbolTable → List (String × Symbol)
  | root st _ => st
  | enclosed _ st _ => st

def numDefs : SymbolTable → Nat
  | root _ n => n
  | enclosed _ _ n => n

def Outer : SymbolTable → Option SymbolTable
  | root _ _ => none
  | enclosed o _ _ => some o

/-- Map assignment `store[name] = sym`. -/
def storeSet (st : List (String × Symbol)) (name : String) (sym : Symbol) :
    List (String × Symbol) :=
  (name, sym) :: st.filter (fun e => e.1 != name)

/-- `Define`: the new symbol and the updated frame. -/
def Define (s : SymbolTable) (name : String) : Symbol × SymbolTable :=
  match s with
  | root st n =>
    let sym : Symbol := ⟨name, n, GlobalScope⟩
    (sym, root (storeSet st name sym) (n + 1))
  | enclosed o st n =>
    let sym : Symbol := ⟨name, n, LocalScope⟩
    (sym, enclosed o (storeSet st name sym) (n + 1))

/-- `Resolve`: looks the name up in this frame, then walks outward; on failure
the zero `Symbol` and `false`. -/
def Resolve : SymbolTable → String → Symbol × Bool
  | root st _, name =>
    match st.lookup name with
    | some sym => (sym, true)
    | none => (⟨"", 0, ""⟩, false)
  | enclosed o st _, name =>
    match st.lookup name with
    | some sym => (sym, true)
    | none => Resolve o name

def NewEnclosed (s : SymbolTable) : SymbolTable :=
  enclosed s [] 0

/-- The frames of the chain, innermost first. -/
def chain : SymbolTable → List SymbolTable
  | root st n => [root st n]
  | enclosed o st n => enclosed o st n :: chain o

/-- The frame itself stores the name. -/
def definesName (s : SymbolTable) (name : String) : Bool :=
  (s.store.lookup name).isSome

end SymbolTable

def NewSymbolTable : SymbolTable :=
  SymbolTable.root [] 0

end compiler

/-! ## internal/ast -/

namespace ast

/-- Modelled from the spec: the syntax tree of package `internal/ast`, whose
source is not part of the repository snapshot.  The constructors are the node
types that `Compiler.Compile` switches on, with the fields it reads
(identifiers are kept as their `Value` strings, tokens are left out).  `Nil`
stands for an absent node (a nil `ast.Node`). -/
inductive Node where
  | Program (Statements : List Node)
  | ExpressionStatement (Expression : Node)
  | IntegerLiteral (Value : Int)
  | Boolean (Value : Bool)
  | PrefixExpression (Operator : String) (Right : Node)
  | InfixExpression (Left : Node) (Operator : String) (Right : Node)
  | LetStatement (Name : String) (Value : Node)
  | Identifier (Value : String)
  | AssignmentStatement (Name : String) (Value : Node)
  | BlockStatement (Statements : List Node)
  | IfExpression (Condition : Node) (Consequence : Node) (Alternative : Option Node)
  | WhileStatement (Condition : Node) (Body : Node)
  | FunctionLiteral (Parameters : List String) (Body : Node)
  | FunctionStatement (Name : String) (Parameters : List String) (Body : Node)
  | CallExpression (Function : Node) (Arguments : List Node)
  | ReturnStatement (ReturnValue : Option Node)
  | PrintStatement (Value : Node)
  | Nil

end ast

/-! ## internal/compiler: compiler -/

namespace compiler

open code object ast

structure Compiler where
  instructions : Instructions
  constants : List Object
  symTable : SymbolTable
deriving DecidableEq, Repr

/-- What a compiler method leaves behind: a value with the mutated compiler,
a returned `error` with the compiler as the failing call left it, or a Go
run-time panic (`crash`). -/
inductive Result (α : Type) where
  | ok (a : α) (c : Compiler)
  | error (msg : String) (c : Compiler)
  | crash (msg : String)
deriving DecidableEq, Repr

/-- A method with receiver `c *Compiler`. -/
abbrev CompilerM (α : Type) := Compiler → Result α

def CompilerM.pure {α : Type} (a : α) : CompilerM α :=
  fun c => .ok a c

def CompilerM.bind {α β : Type} (m : CompilerM α) (f : α → CompilerM β) : CompilerM β :=
  fun c =>
    match m c with
    | .ok a c1 => f a c1
    | .error msg c1 => .error msg c1
    | .crash msg => .crash msg

instance : Monad CompilerM where
  pure := CompilerM.pure
  bind := CompilerM.bind

/-- The statement `return fmt.Errorf(...)`. -/
def fail {α : Type} (msg : String) : CompilerM α :=
  fun c => .error msg c

/-- A Go run-time panic. -/
def crash {α : Type} (msg : String) : CompilerM α :=
  fun _ => .crash msg

def New : Compiler :=
  { instructions := [], constants := [], symTable := NewSymbolTable }

/-- `NewWithState` with a non-nil symbol table and constants. -/
def NewWithState (sym : SymbolTable) (consts : List Object) : Compiler :=
  { instructions := [], constants := consts, symTable := sym }

/-- `len(c.instructions)`. -/
def lenInstructions : CompilerM Nat :=
  fun c => .ok c.instructions.length c

def emit (op : Opcode) (operands : List Nat) : CompilerM Nat :=
  fun c =>
    match Make op operands with
    | none => .crash "index out of range"
    | some ins => .ok c.instructions.length { c with instructions := c.instructions ++ ins }

def addConstant (obj : Object) : CompilerM Nat :=
  fun c => .ok c.constants.length { c with constants := c.constants ++ [obj] }

/-- The loop `c.instructions[pos+i] = newIns[i]`; `none` when an index is out
of range. -/
def overwrite : List Nat → Nat → List Nat → Option (List Nat)
  | ins, _, [] => some ins
  | ins, pos, b :: bs =>
    if pos < ins.length then overwrite (ins.set pos b) (pos + 1) bs else none

def replaceInstruction (pos : Nat) (newIns : List Nat) : CompilerM Unit :=
  fun c =>
    match overwrite c.instructions pos newIns with
    | none => .crash "index out of range"
    | some ins => .ok () { c with instructions := ins }

def replaceOperand (pos : Nat) (operand : Nat) : CompilerM Unit :=
  fun c =>
    match c.instructions.get? pos with
    | none => .crash "index out of range"
    | some op =>
      match Make op [operand] with
      | none => .crash "index out of range"
      | some newIns => replaceInstruction pos newIns c

/-- `c.symTable.Define(name)`. -/
def define (name : String) : CompilerM Symbol :=
  fun c => .ok (c.symTable.Define name).1 { c with symTable := (c.symTable.Define name).2 }

/-- `c.symTable.Resolve(name)`. -/
def resolve (name : String) : CompilerM (Symbol × Bool) :=
  fun c => .ok (c.symTable.Resolve name) c

/-- The loop `for _, p := range n.Parameters { c.symTable.Define(p.Value) }`. -/
def defineParameters : List String → CompilerM Unit
  | [] => pure ()
  | p :: ps => do
    let _ ← define p
    defineParameters ps

/-- The `switch sym.Scope` that follows a `Define` or `Resolve` for a store. -/
def emitSet (sym : Symbol) : CompilerM Unit := do
  if sym.Scope = GlobalScope then
    let _ ← emit OpSetGlobal [sym.Index]
  else if sym.Scope = LocalScope then
    let _ ← emit OpSetLocal [sym.Index]

/-- The `switch sym.Scope` of the `Identifier` case. -/
def emitGet (sym : Symbol) : CompilerM Unit := do
  if sym.Scope = GlobalScope then
    let _ ← emit OpGetGlobal [sym.Index]
  else if sym.Scope = LocalScope then
    let _ ← emit OpGetLocal [sym.Index]

/-- Function entry: `outer := c.symTable; c.symTable = outer.NewEnclosed()`
and the parameter loop; returns `outer`. -/
def enterFunction (params : List String) : CompilerM SymbolTable :=
  fun c =>
    match defineParameters params { c with symTable := c.symTable.NewEnclosed } with
    | .ok _ c1 => .ok c.symTable c1
    | .error msg c1 => .error msg c1
    | .crash msg => .crash msg

/-- Function exit, from `c.emit(code.OpReturn)` on: the function object takes
the whole current buffer, the buffer is set to `code.Instructions{}`, the
symbol table to `outer`, and `OpConstant idx` is emitted. -/
def leaveFunction (outer : SymbolTable) (numParameters : Nat) : CompilerM Unit := do
  let _ ← emit OpReturn []
  let fn ← (fun c => Result.ok
    (Object.CompiledFunction c.instructions c.symTable.numDefs numParameters) c)
  (fun c => Result.ok () { c with instructions := [], symTable := outer })
  let idx ← addConstant fn
  let _ ← emit OpConstant [idx]

mutual
/-- `Compiler.Compile`. -/
def Compile : Node → CompilerM Unit
  | .Program stmts => CompileAll stmts
  | .ExpressionStatement e => do
    Compile e
    let _ ← emit OpPop []
  | .IntegerLiteral v => do
    let constIdx ← addConstant (Object.Integer v)
    let _ ← emit OpConstant [constIdx]
  | .Boolean v => do
    if v then
      let _ ← emit OpTrue []
    else
      let _ ← emit OpFalse []
  | .PrefixExpression op right => do
    Compile right
    if op = "!" then
      let _ ← emit OpBang []
    else if op = "-" then
      let _ ← emit OpMinus []
    else
      fail ("unknown operator " ++ op.quote)
  | .InfixExpression left op right =>
    if op = "<" ∨ op = "<=" then do
      Compile right
      Compile left
      if op = "<" then
        let _ ← emit OpGreaterThan []
      else
        let _ ← emit OpGreaterEqual []
    else do
      Compile left
      Compile right
      if op = "+" then
        let _ ← emit OpAdd []
      else if op = "-" then
        let _ ← emit OpSub []
      else if op = "*" then
        let _ ← emit OpMul []
      else if op = "/" then
        let _ ← emit OpDiv []
      else if op = ">" then
        let _ ← emit OpGreaterThan []
      else if op = ">=" then
        let _ ← emit OpGreaterEqual []
      else if op = "==" then
        let _ ← emit OpEqual []
      else if op = "!=" then
        let _ ← emit OpNotEqual []
      else
        fail ("unknown operator " ++ op.quote)
  | .LetStatement name value => do
    Compile value
    let sym ← define name
    emitSet sym
  | .Identifier name => do
    let (sym, ok) ← resolve name
    if !ok then
      fail ("undefined variable " ++ name)
    else
      emitGet sym
  | .AssignmentStatement name value => do
    Compile value
    let (sym, ok) ← resolve name
    if !ok then
      fail ("undefined variable " ++ name)
    else
      emitSet sym
  | .BlockStatement stmts => CompileAll stmts
  | .IfExpression cond cons alt => do
    Compile cond
    let jumpNotTruthyPos ← emit OpJumpNotTruthy [9999]
    Compile cons
    let jumpPos ← emit OpJump [9999]
    let afterConsequence ← lenInstructions
    replaceOperand jumpNotTruthyPos afterConsequence
    CompileAlternative alt
    let afterAlternative ← lenInstructions
    replaceOperand jumpPos afterAlternative
  | .WhileStatement cond body => do
    let loopStart ← lenInstructions
    Compile cond
    let exitJumpPos ← emit OpJumpNotTruthy [9999]
    Compile body
    let _ ← emit OpJump [loopStart]
    let afterLoop ← lenInstructions
    replaceOperand exitJumpPos afterLoop
  | .FunctionLiteral params body => do
    let outer ← enterFunction params
    Compile body
    leaveFunction outer params.length
  | .FunctionStatement name params body => do
    -- `c.Compile(lit)` for the literal built from the statement
    let outer ← enterFunction params
    Compile body
    leaveFunction outer params.length
    let sym ← define name
    let _ ← emit OpSetGlobal [sym.Index]
  | .CallExpression fn args => do
    Compile fn
    CompileAll args
    let _ ← emit OpCall [args.length]
  | .ReturnStatement value =>
    match value with
    | some v => do
      Compile v
      let _ ← emit OpReturnValue []
    | none => do
      let _ ← emit OpReturn []
  | .PrintStatement value => do
    Compile value
    let _ ← emit OpPrint []
  | .Nil => fail "unhandled node type <nil>"
/-- The loops `for _, s := range ... { if err := c.Compile(s); err != nil { return err } }`. -/
def CompileAll : List Node → CompilerM Unit
  | [] => pure ()
  | s :: ss => do
    Compile s
    CompileAll ss
/-- The guarded call `if n.Alternative != nil { c.Compile(n.Alternative) }`. -/
def CompileAlternative : Option Node → CompilerM Unit
  | none => pure ()
  | some a => Compile a
end

end compiler

/-! ## internal/object: inspection, and internal/vm -/

namespace object

/-- `Inspect()`. -/
def Object.Inspect : Object → String
  | .Integer v => toString v
  | .Boolean v => if v then "true" else "false"
  | .Null => "null"
  | .CompiledFunction _ numLocals numParameters =>
    "compiled fn[" ++ ("params=" ++ toString numParameters ++ " locals=" ++ toString numLocals)
      ++ "]"

end object

namespace vm

open code object

abbrev StackSize : Nat := 2048
abbrev GlobalsSize : Nat := 65536

/-- An `int64` result: the integer reduced to the range `-2^63 .. 2^63 - 1`
modulo `2^64` (Go integer arithmetic wraps around). -/
def wrapInt64 (x : Int) : Int :=
  (x + 2 ^ 63) % 2 ^ 64 - 2 ^ 63

/-- The machine.  `stack` and `globals` are the fixed-length slices made by
`NewWithGlobals` (lengths `StackSize` and `GlobalsSize`), as maps from the index
to the slot, `none` being a nil interface value.  `output` collects the lines
`OpPrint` writes to standard output. -/
structure VM where
  constants : List Object
  globals : Nat → Option Object
  stack : Nat → Option Object
  sp : Nat
  ip : Nat
  instructions : Instructions
  output : List String

/-- What a machine method leaves behind: a value with the mutated machine, a
returned `error` with the machine as it was left, a Go run-time panic
(`crash`), or an exhausted step budget of the embedding. -/
inductive Result (α : Type) where
  | ok (a : α) (vm : VM)
  | error (msg : String) (vm : VM)
  | crash (msg : String)
  | outOfFuel

/-- A method with receiver `vm *VM`. -/
abbrev VMM (α : Type) := VM → Result α

def VMM.pure {α : Type} (a : α) : VMM α :=
  fun vm => .ok a vm

def VMM.bind {α β : Type} (m : VMM α) (f : α → VMM β) : VMM β :=
  fun vm =>
    match m vm with
    | .ok a vm1 => f a vm1
    | .error msg vm1 => .error msg vm1
    | .crash msg => .crash msg
    | .outOfFuel => .outOfFuel

instance : Monad VMM where
  pure := VMM.pure
  bind := VMM.bind

/-- The statement `return errors.New(...)` or `return fmt.Errorf(...)`. -/
def fail {α : Type} (msg : String) : VMM α :=
  fun vm => .error msg vm

/-- A Go run-time panic. -/
def crash {α : Type} (msg : String) : VMM α :=
  fun _ => .crash msg

/-- `New`: `NewWithGlobals(instructions, constants, nil)`. -/
def New (instructions : Instructions) (constants : List Object) : VM :=
  { constants := constants, globals := fun _ => none, stack := fun _ => none,
    sp := 0, ip := 0, instructions := instructions, output := [] }

def push (o : Option Object) : VMM Unit :=
  fun vm =>
    if vm.sp ≥ StackSize then .error "stack overflow" vm
    else .ok () { vm with stack := Function.update vm.stack vm.sp o, sp := vm.sp + 1 }

def pop : VMM (Option Object) :=
  fun vm =>
    if vm.sp = 0 then .ok (some Object.Null) vm
    else if vm.sp - 1 < StackSize then
      .ok (vm.stack (vm.sp - 1))
        { vm with sp := vm.sp - 1, stack := Function.update vm.stack (vm.sp - 1) none }
    else .crash "index out of range"

/-- The `%T` rendering of a value in error messages. -/
def typeName : Option Object → String
  | some (.Integer _) => "*object.Integer"
  | some (.Boolean _) => "*object.Boolean"
  | some .Null => "*object.Null"
  | some (.CompiledFunction _ _ _) => "*object.CompiledFunction"
  | none => "<nil>"

/-- The type assertion `o.(*object.Integer)`. -/
def asInteger : Option Object → Option Int
  | some (.Integer v) => some v
  | _ => none

/-- The method call `o.Inspect()` through the interface: a nil interface
panics. -/
def inspect (o : Option Object) : VMM String :=
  match o with
  | some v => pure v.Inspect
  | none => crash "nil pointer dereference"

def executeBinaryOperation (op : Opcode) : VMM Unit := do
  let right ← pop
  let left ← pop
  match asInteger left, asInteger right with
  | some li, some ri =>
    if op = OpAdd then push (some (.Integer (wrapInt64 (li + ri))))
    else if op = OpSub then push (some (.Integer (wrapInt64 (li - ri))))
    else if op = OpMul then push (some (.Integer (wrapInt64 (li * ri))))
    else if op = OpDiv then
      if ri = 0 then fail "division by zero"
      else push (some (.Integer (wrapInt64 (Int.tdiv li ri))))
    else push (some (.Integer 0))
  | _, _ =>
    fail ("unsupported types for binary op: " ++ typeName left ++ " " ++ typeName right)

def executeComparison (op : Opcode) : VMM Unit := do
  let right ← pop
  let left ← pop
  let li := asInteger left
  let ri := asInteger right
  if op = OpEqual then
    match li, ri with
    | some l, some r => push (some (.Boolean (decide (l = r))))
    | _, _ => do
      let a ← inspect left
      let b ← inspect right
      push (some (.Boolean (decide (a = b))))
  else if op = OpNotEqual then
    match li, ri with
    | some l, some r => push (some (.Boolean (decide (l ≠ r))))
    | _, _ => do
      let a ← inspect left
      let b ← inspect right
      push (some (.Boolean (decide (a ≠ b))))
  else if op = OpGreaterThan then
    match li, ri with
    | some l, some r => push (some (.Boolean (decide (l > r))))
    | _, _ => fail ("> requires integers, got " ++ typeName left ++ " " ++ typeName right)
  else if op = OpGreaterEqual then
    match li, ri with
    | some l, some r => push (some (.Boolean (decide (l ≥ r))))
    | _, _ => fail (">= requires integers, got " ++ typeName left ++ " " ++ typeName right)
  else if op = OpLessThan then
    match li, ri with
    | some l, some r => push (some (.Boolean (decide (l < r))))
    | _, _ => fail ("< requires integers, got " ++ typeName left ++ " " ++ typeName right)
  else if op = OpLessEqual then
    match li, ri with
    | some l, some r => push (some (.Boolean (decide (l ≤ r))))
    | _, _ => fail ("<= requires integers, got " ++ typeName left ++ " " ++ typeName right)
  else push (some (.Boolean false))

def executeBang : VMM Unit := do
  let operand ← pop
  match operand with
  | some (.Boolean v) => push (some (.Boolean (!v)))
  | some .Null => push (some (.Boolean true))
  | _ => push (some (.Boolean false))

def isTruthy : Option Object → Bool
  | some (.Boolean v) => v
  | some .Null => false
  | _ => true

/-- The byte `vm.instructions[vm.ip]`; out of range is a panic. -/
def readByte : VMM Nat :=
  fun vm =>
    match vm.instructions.get? vm.ip with
    | some b => .ok b vm
    | none => .crash "index out of range"

/-- The two-byte read `int(vm.instructions[vm.ip])<<8 | int(vm.instructions[vm.ip+1])`. -/
def readUint16 : VMM Nat :=
  fun vm =>
    match vm.instructions.get? vm.ip, vm.instructions.get? (vm.ip + 1) with
    | some hi, some lo => .ok (hi <<< 8 ||| lo) vm
    | _, _ => .crash "index out of range"

/-- The statement `vm.ip += n`. -/
def advance (n : Nat) : VMM Unit :=
  fun vm => .ok () { vm with ip := vm.ip + n }

/-- The statement `vm.ip = pos`. -/
def jump (pos : Nat) : VMM Unit :=
  fun vm => .ok () { vm with ip := pos }

/-- The indexing `vm.constants[idx]`. -/
def constantAt (idx : Nat) : VMM Object :=
  fun vm =>
    match vm.constants.get? idx with
    | some c => .ok c vm
    | none => .crash "index out of range"

/-- The indexing `vm.globals[idx]` (read). -/
def globalAt (idx : Nat) : VMM (Option Object) :=
  fun vm =>
    if idx < GlobalsSize then .ok (vm.globals idx) vm else .crash "index out of range"

/-- The assignment `vm.globals[idx] = o`. -/
def setGlobal (idx : Nat) (o : Option Object) : VMM Unit :=
  fun vm =>
    if idx < GlobalsSize then .ok () { vm with globals := Function.update vm.globals idx o }
    else .crash "index out of range"

/-- The indexing `vm.stack[vm.sp-argc-1]`; a negative or too large index is a
panic.  Returns the index (`retBase`) with the slot. -/
def calleeSlot (argc : Nat) : VMM (Nat × Option Object) :=
  fun vm =>
    if vm.sp < argc + 1 then .crash "index out of range"
    else if vm.sp - argc - 1 < StackSize then
      .ok (vm.sp - argc - 1, vm.stack (vm.sp - argc - 1)) vm
    else .crash "index out of range"

/-- The body of the `switch op` in `Run` for one instruction, after `vm.ip++`.
`run` is the method `vm.Run` itself, for the nested call of `OpCall`.  The
result says whether the loop goes on (`true`) or `Run` returns nil (`false`). -/
def execute (run : VMM Unit) (op : Opcode) : VMM Bool :=
  if op = OpConstant then do
    let idx ← readUint16
    advance 2
    let c ← constantAt idx
    push (some c)
    pure true
  else if op = OpAdd ∨ op = OpSub ∨ op = OpMul ∨ op = OpDiv then do
    executeBinaryOperation op
    pure true
  else if op = OpTrue then do
    push (some (.Boolean true))
    pure true
  else if op = OpFalse then do
    push (some (.Boolean false))
    pure true
  else if op = OpNull then do
    push (some .Null)
    pure true
  else if op = OpEqual ∨ op = OpNotEqual ∨ op = OpGreaterThan ∨ op = OpGreaterEqual
      ∨ op = OpLessThan ∨ op = OpLessEqual then do
    executeComparison op
    pure true
  else if op = OpBang then do
    executeBang
    pure true
  else if op = OpMinus then do
    let right ← pop
    match asInteger right with
    | none => fail ("unsupported negation operand " ++ typeName right)
    | some i =>
      push (some (.Integer (wrapInt64 (-i))))
      pure true
  else if op = OpPop then do
    let _ ← pop
    pure true
  else if op = OpJump then do
    let pos ← readUint16
    jump pos
    pure true
  else if op = OpJumpNotTruthy then do
    let pos ← readUint16
    advance 2
    let condition ← pop
    if !isTruthy condition then
      jump pos
    pure true
  else if op = OpSetGlobal then do
    let idx ← readUint16
    advance 2
    let v ← pop
    setGlobal idx v
    pure true
  else if op = OpGetGlobal then do
    let idx ← readUint16
    advance 2
    let v ← globalAt idx
    push v
    pure true
  else if op = OpCall then do
    let argc ← readByte
    advance 1
    let (retBase, fnObj) ← calleeSlot argc
    match fnObj with
    | some (.CompiledFunction fnInstructions _ _) =>
      let retIp ← (fun vm => Result.ok vm.ip vm)
      let savedIns ← (fun vm => Result.ok vm.instructions vm)
      (fun vm => Result.ok () { vm with instructions := fnInstructions, ip := 0 })
      run
      let retVal ← pop
      (fun vm => Result.ok () { vm with instructions := savedIns, ip := retIp, sp := retBase })
      push retVal
      pure true
    | _ => fail ("calling non-function: " ++ typeName fnObj)
  else if op = OpReturnValue then
    pure false
  else if op = OpReturn then do
    push (some .Null)
    pure false
  else if op = OpPrint then do
    let v ← pop
    let line ← inspect v
    (fun vm => Result.ok () { vm with output := vm.output ++ [line] })
    pure true
  else
    fail ("unsupported opcode: " ++ toString op)

/-- `VM.Run`, with a budget of loop iterations (`fuel`) that bounds the
iterations of this call and of every nested call. -/
def Run : Nat → VMM Unit
  | 0 => fun _ => .outOfFuel
  | fuel + 1 => fun vm =>
    if vm.ip < vm.instructions.length then
      (do
        let op ← readByte
        advance 1
        let goOn ← execute (Run fuel) op
        if goOn then Run fuel else pure ()) vm
    else .ok () vm

end vm

/-! ## internal/token -/

namespace token

/-- The token type is a string type in the source (`type Type string`). -/
abbrev TokenType := String

/-- `Position`: 1-based line and column, 0-based byte offset. -/
structure Position where
  Line : Nat
  Column : Nat
  Offset : Nat
deriving DecidableEq, Repr

/-- `Token`; the field `Type` of the source is `Typ` here. -/
structure Token where
  Typ : TokenType
  Literal : String
  Pos : Position
deriving DecidableEq, Repr

abbrev ILLEGAL : TokenType := "ILLEGAL"
abbrev EOF : TokenType := "EOF"
abbrev IDENT : TokenType := "IDENT"
abbrev INT : TokenType := "INT"
abbrev LET : TokenType := "LET"
abbrev TRUE : TokenType := "TRUE"
abbrev FALSE : TokenType := "FALSE"
abbrev IF : TokenType := "IF"
abbrev ELSE : TokenType := "ELSE"
abbrev WHILE : TokenType := "WHILE"
abbrev FN : TokenType := "FN"
abbrev RETURN : TokenType := "RETURN"
abbrev PRINT : TokenType := "PRINT"
abbrev ASSIGN : TokenType := "ASSIGN"
abbrev PLUS : TokenType := "PLUS"
abbrev MINUS : TokenType := "MINUS"
abbrev ASTER : TokenType := "ASTER"
abbrev SLASH : TokenType := "SLASH"
abbrev BANG : TokenType := "BANG"
abbrev EQ : TokenType := "EQ"
abbrev NOT_EQ : TokenType := "NOT_EQ"
abbrev LT : TokenType := "LT"
abbrev GT : TokenType := "GT"
abbrev LTE : TokenType := "LTE"
abbrev GTE : TokenType := "GTE"
abbrev COMMA : TokenType := "COMMA"
abbrev SEMICOLON : TokenType := "SEMICOLON"
abbrev LPAREN : TokenType := "LPAREN"
abbrev RPAREN : TokenType := "RPAREN"
abbrev LBRACE : TokenType := "LBRACE"
abbrev RBRACE : TokenType := "RBRACE"

/-- The `keywords` map, as its list of entries. -/
def keywords : List (String × TokenType) :=
  [ ("let", LET), ("true", TRUE), ("false", FALSE), ("if", IF), ("else", ELSE),
    ("while", WHILE), ("fn", FN), ("return", RETURN), ("print", PRINT) ]

def LookupIdent (ident : String) : TokenType :=
  match keywords.lookup ident with
  | some tok => tok
  | none => IDENT

end token

/-! ## The Go standard library calls of the lexer -/

namespace unicode

/-- The range tables of Go's `unicode` package for code points above Latin-1
(`White_Space`, `Letter`, `Digit`).  They belong to the Go standard library and
are a parameter of the lexer; Latin-1 is decided below the way the library
does it. -/
structure Tables where
  White_Space : Char → Bool
  Letter : Char → Bool
  Digit : Char → Bool

abbrev MaxLatin1 : Nat := 0xFF

/-- `unicode.IsSpace`: in Latin-1 the code points tab, line feed, vertical tab,
form feed, carriage return, space, U+0085 and U+00A0. -/
def IsSpace (T : Tables) (r : Char) : Bool :=
  if r.toNat ≤ MaxLatin1 then
    r.toNat = 0x09 || r.toNat = 0x0A || r.toNat = 0x0B || r.toNat = 0x0C || r.toNat = 0x0D
      || r.toNat = 0x20 || r.toNat = 0x85 || r.toNat = 0xA0
  else T.White_Space r

/-- `unicode.IsDigit`: in Latin-1 the ASCII digits. -/
def IsDigit (T : Tables) (r : Char) : Bool :=
  if r.toNat ≤ MaxLatin1 then 0x30 ≤ r.toNat && r.toNat ≤ 0x39
  else T.Digit r

/-- `unicode.IsLetter`: in Latin-1 the ASCII letters, U+00AA, U+00B5, U+00BA and
U+00C0..U+00FF without U+00D7 and U+00F7. -/
def IsLetter (T : Tables) (r : Char) : Bool :=
  if r.toNat ≤ MaxLatin1 then
    (0x41 ≤ r.toNat && r.toNat ≤ 0x5A) || (0x61 ≤ r.toNat && r.toNat ≤ 0x7A)
      || r.toNat = 0xAA || r.toNat = 0xB5 || r.toNat = 0xBA
      || (0xC0 ≤ r.toNat && r.toNat ≤ 0xD6) || (0xD8 ≤ r.toNat && r.toNat ≤ 0xF6)
      || (0xF8 ≤ r.toNat && r.toNat ≤ 0xFF)
  else T.Letter r

/-- Range tables that hold no code point, for evaluating the lexer on Latin-1
text (on which the tables are not consulted). -/
def emptyTables : Tables :=
  { White_Space := fun _ => false, Letter := fun _ => false, Digit := fun _ => false }

end unicode

namespace utf8

/-- `utf8.RuneError`, U+FFFD. -/
def RuneError : Char := Char.ofNat 0xFFFD

/-- The length in bytes of a valid UTF-8 text given by its code points
(`len(s)`). -/
def byteLen : List Char → Nat
  | [] => 0
  | c :: cs => c.utf8Size + byteLen cs

/-- `utf8.DecodeRuneInString(s[off:])` for a valid UTF-8 text `s` given by
its code points: the code point that starts at byte offset `off` and its
width; `(RuneError, 1)` inside an encoding and `(RuneError, 0)` at the end. -/
def DecodeRuneInString : List Char → Nat → Char × Nat
  | [], _ => (RuneError, 0)
  | c :: cs, off =>
    if off = 0 then (c, c.utf8Size)
    else if off < c.utf8Size then (RuneError, 1)
    else DecodeRuneInString cs (off - c.utf8Size)

/-- The suffix `s[off:]`, for `off` on a code-point boundary. -/
def dropBytes : List Char → Nat → List Char
  | [], _ => []
  | c :: cs, off => if off = 0 then c :: cs else dropBytes cs (off - c.utf8Size)

/-- The prefix `s[:n]`, for `n` on a code-point boundary. -/
def takeBytes : List Char → Nat → List Char
  | [], _ => []
  | c :: cs, n => if n < c.utf8Size then [] else c :: takeBytes cs (n - c.utf8Size)

/-- The slice `s[start:stop]`, for offsets on code-point boundaries. -/
def slice (s : List Char) (start stop : Nat) : List Char :=
  takeBytes (dropBytes s start) (stop - start)

end utf8

/-! ## internal/lexer -/

namespace lexer

open token unicode

/-- The lexer.  `input` is the source text, valid UTF-8 given by its code
points; `position` and `readPosition` are byte offsets into it. -/
structure Lexer where
  input : List Char
  position : Nat
  readPosition : Nat
  ch : Char
  width : Nat
  line : Nat
  column : Nat
deriving DecidableEq, Repr

def readRune (l : Lexer) : Lexer :=
  if l.readPosition ≥ utf8.byteLen l.input then
    { l with width := 0, ch := Char.ofNat 0 }
  else
    let r := (utf8.DecodeRuneInString l.input l.readPosition).1
    let w := (utf8.DecodeRuneInString l.input l.readPosition).2
    if r = Char.ofNat 0x0A then
      { l with position := l.readPosition, readPosition := l.readPosition + w, width := w,
               line := l.line + 1, column := 0, ch := r }
    else
      { l with position := l.readPosition, readPosition := l.readPosition + w, width := w,
               column := l.column + 1, ch := r }

def New (input : List Char) : Lexer :=
  readRune { input := input, position := 0, readPosition := 0, ch := Char.ofNat 0, width := 0,
             line := 1, column := 0 }

def peekRune (l : Lexer) : Char :=
  if l.readPosition ≥ utf8.byteLen l.input then Char.ofNat 0
  else (utf8.DecodeRuneInString l.input l.readPosition).1

/-- The loop `for cond(l.ch) { l.readRune() }` shared by `skipWhitespace`,
`readIdentifier` and `readNumber`, with a bound on its iterations.  The loop
of the source ends at the latest when the input is exhausted (the current code
point is then 0, which none of the three conditions accepts), that is after at
most one iteration per byte of input and one more; the callers pass that
bound. -/
def readWhile (cond : Char → Bool) : Nat → Lexer → Lexer
  | 0, l => l
  | fuel + 1, l => if cond l.ch then readWhile cond fuel (readRune l) else l

def skipWhitespace (T : Tables) (l : Lexer) : Lexer :=
  readWhile (IsSpace T) (utf8.byteLen l.input + 1) l

def isLetter (T : Tables) (r : Char) : Bool :=
  IsLetter T r

def readIdentifier (T : Tables) (l : Lexer) : String × Lexer :=
  let start := l.position
  let l1 := readWhile (fun ch => isLetter T ch || IsDigit T ch || ch = Char.ofNat 0x5F)
    (utf8.byteLen l.input + 1) l
  (String.mk (utf8.slice l1.input start l1.position), l1)

def readNumber (T : Tables) (l : Lexer) : String × Lexer :=
  let start := l.position
  let l1 := readWhile (IsDigit T) (utf8.byteLen l.input + 1) l
  (String.mk (utf8.slice l1.input start l1.position), l1)

/-- The part of `NextToken` after `l.skipWhitespace()`: the token, whose
position is read off the lexer before the `switch l.ch`, and the lexer after
the call. -/
def scanToken (T : Tables) (l : Lexer) : Token × Lexer :=
  let pos : Position := { Line := l.line, Column := l.column, Offset := l.position }
  if l.ch = '=' then
    if peekRune l = '=' then (⟨EQ, "==", pos⟩, readRune (readRune l))
    else (⟨ASSIGN, "=", pos⟩, readRune l)
  else if l.ch = '+' then (⟨PLUS, "+", pos⟩, readRune l)
  else if l.ch = '-' then (⟨MINUS, "-", pos⟩, readRune l)
  else if l.ch = '*' then (⟨ASTER, "*", pos⟩, readRune l)
  else if l.ch = '/' then (⟨SLASH, "/", pos⟩, readRune l)
  else if l.ch = '!' then
    if peekRune l = '=' then (⟨NOT_EQ, "!=", pos⟩, readRune (readRune l))
    else (⟨BANG, "!", pos⟩, readRune l)
  else if l.ch = '<' then
    if peekRune l = '=' then (⟨LTE, "<=", pos⟩, readRune (readRune l))
    else (⟨LT, "<", pos⟩, readRune l)
  else if l.ch = '>' then
    if peekRune l = '=' then (⟨GTE, ">=", pos⟩, readRune (readRune l))
    else (⟨GT, ">", pos⟩, readRune l)
  else if l.ch = ',' then (⟨COMMA, ",", pos⟩, readRune l)
  else if l.ch = ';' then (⟨SEMICOLON, ";", pos⟩, readRune l)
  else if l.ch = '(' then (⟨LPAREN, "(", pos⟩, readRune l)
  else if l.ch = ')' then (⟨RPAREN, ")", pos⟩, readRune l)
  else if l.ch = Char.ofNat 0x7B then (⟨LBRACE, "\x7b", pos⟩, readRune l)
  else if l.ch = Char.ofNat 0x7D then (⟨RBRACE, "\x7d", pos⟩, readRune l)
  else if l.ch = Char.ofNat 0 then (⟨EOF, "", pos⟩, readRune l)
  else if isLetter T l.ch || l.ch = Char.ofNat 0x5F then
    (⟨LookupIdent (readIdentifier T l).1, (readIdentifier T l).1, pos⟩, (readIdentifier T l).2)
  else if IsDigit T l.ch then
    (⟨INT, (readNumber T l).1, pos⟩, (readNumber T l).2)
  else (⟨ILLEGAL, String.singleton l.ch, pos⟩, readRune l)

/-- `NextToken`: the token and the lexer after the call. -/
def NextToken (T : Tables) (l : Lexer) : Token × Lexer :=
  scanToken T (skipWhitespace T l)

/-- The lexer after `k` calls of `NextToken` on `New(input)`. -/
def lexerAfter (T : Tables) (input : List Char) : Nat → Lexer
  | 0 => New input
  | k + 1 => (NextToken T (lexerAfter T input k)).2

/-- The token returned by call number `k` (from 0) of `NextToken` on
`New(input)`. -/
def nthToken (T : Tables) (input : List Char) (k : Nat) : Token :=
  (NextToken T (lexerAfter T input k)).1

end lexer

/-! ## Specification-side notions used by the statements -/

namespace code

/-- Decoding from offset `off`: the offsets at which instructions start, or
`none` when an undefined opcode is met or an instruction lacks operand bytes.
`fuel` bounds the number of instructions decoded. -/
def instructionStarts : Nat → Instructions → Nat → Option (List Nat)
  | 0, _, _ => none
  | fuel + 1, ins, off =>
    match ins.get? off with
    | none => some []
    | some op =>
      match definitions op with
      | none => none
      | some d =>
        if off + 1 + d.OperandWidths.sum ≤ ins.length then
          (instructionStarts fuel ins (off + 1 + d.OperandWidths.sum)).map (fun l => off :: l)
        else none

/-- Every `OpJump` / `OpJumpNotTruthy` among the instructions at `starts` has
as its operand an instruction start of the stream or the length of the
stream. -/
def jumpTargetsOk (ins : Instructions) (starts : List Nat) : Bool :=
  starts.all fun s =>
    if ins.get? s = some OpJump ∨ ins.get? s = some OpJumpNotTruthy then
      decide ((ins.getD (s + 1) 0 * 256 + ins.getD (s + 2) 0) ∈ starts)
        || decide (ins.getD (s + 1) 0 * 256 + ins.getD (s + 2) 0 = ins.length)
    else true

/-- The big-endian bytes of an operand at a width: `width` bytes, the most
significant first. -/
def bigEndian (width o : Nat) : List Nat :=
  (List.range width).map fun i => o / 256 ^ (width - 1 - i) % 256

/-- An instruction as opcode and operands, with the definition of the opcode:
the opcode is defined, there is one operand per declared width, and each
operand fits its width. -/
def ValidInstruction (op : Opcode) (operands : List Nat) (d : Definition) : Prop :=
  definitions op = some d ∧ List.Forall₂ (fun o w => o < 256 ^ w) operands d.OperandWidths

/-- The concatenation of the `Make` results of a list of instructions (`none`
when a `Make` panics). -/
def assemble : List (Opcode × List Nat) → Option Instructions
  | [] => some []
  | (op, operands) :: rest =>
    match Make op operands, assemble rest with
    | some ins, some tail => some (ins ++ tail)
    | _, _ => none

/-- The name of an opcode in the `definitions` table (empty when undefined). -/
def opcodeName (op : Opcode) : String :=
  match definitions op with
  | some d => d.Name
  | none => ""

/-- The disassembly the specification asks for: one line per instruction, in
order, each the byte offset in decimal padded with zeros to 4 digits, a space,
the opcode name, then each operand in decimal preceded by a space, and a
newline. -/
def disassembly : Nat → List (Opcode × List Nat) → String
  | _, [] => ""
  | offset, (op, operands) :: rest =>
    pad4 offset ++ " " ++ opcodeName op
      ++ String.join (operands.map fun o => " " ++ toString o) ++ "\n"
      ++ disassembly (offset + ((Make op operands).getD []).length) rest

/-- A well-formed instruction stream: it decodes from offset 0 into defined
opcodes with their operand bytes, and every jump targets an instruction start
or the end of the stream. -/
def WellFormed (ins : Instructions) : Bool :=
  match instructionStarts (ins.length + 1) ins 0 with
  | none => false
  | some starts => jumpTargetsOk ins starts

end code

namespace object

/-- The tag of a value: which of the four variants it is. -/
def Object.tag : Object → Nat
  | .Integer _ => 0
  | .Boolean _ => 1
  | .Null => 2
  | .CompiledFunction _ _ _ => 3

/-- Equality by tag and payload, where the payload of a compiled function is
its `NumLocals` and `NumParameters` (its code is left out). -/
def sameValue : Object → Object → Bool
  | .Integer a, .Integer b => decide (a = b)
  | .Boolean a, .Boolean b => decide (a = b)
  | .Null, .Null => true
  | .CompiledFunction _ nl np, .CompiledFunction _ nl2 np2 => decide (nl = nl2 ∧ np = np2)
  | _, _ => false

end object

namespace ast

/-- The tree of `let x = a; while (x < b) { x = x + 1; } print x;`. -/
def countLoop (a b : Int) : Node :=
  .Program [.LetStatement "x" (.IntegerLiteral a),
    .WhileStatement (.InfixExpression (.Identifier "x") "<" (.IntegerLiteral b))
      (.BlockStatement [.AssignmentStatement "x"
        (.InfixExpression (.Identifier "x") "+" (.IntegerLiteral 1))]),
    .PrintStatement (.Identifier "x")]

end ast

namespace code

/-- The instructions of the counting loop: `OpConstant 0; OpSetGlobal 0`, at
offset 6 the condition `OpConstant 1; OpGetGlobal 0; OpGreaterThan;
OpJumpNotTruthy 29`, the body `OpGetGlobal 0; OpConstant 2; OpAdd;
OpSetGlobal 0; OpJump 6`, and at offset 29 `OpGetGlobal 0; OpPrint`. -/
def countLoopCode : Instructions :=
  [OpConstant, 0, 0, OpSetGlobal, 0, 0, OpConstant, 0, 1, OpGetGlobal, 0, 0, OpGreaterThan,
    OpJumpNotTruthy, 0, 29, OpGetGlobal, 0, 0, OpConstant, 0, 2, OpAdd, OpSetGlobal, 0, 0,
    OpJump, 0, 6, OpGetGlobal, 0, 0, OpPrint]

end code

namespace vm

open code object

/-- The integer is in the range of `int64`. -/
def IsInt64 (x : Int) : Prop :=
  -2 ^ 63 ≤ x ∧ x < 2 ^ 63

/-- The integer `r` is the 64-bit two's-complement reduction of the
mathematical integer `x`: in the range of `int64` and congruent to `x`
modulo `2^64`. -/
def IsInt64Of (r x : Int) : Prop :=
  IsInt64 r ∧ (2 ^ 64 : Int) ∣ (r - x)

/-- The panic message of a crashed run. -/
def Result.crashMessage {α : Type} : Result α → Option String
  | .crash msg => some msg
  | _ => none

/-- The error message of a run that returned an error. -/
def Result.errorMessage {α : Type} : Result α → Option String
  | .error msg _ => some msg
  | _ => none

/-- The lines printed by a run that returned (with or without an error). -/
def Result.printed {α : Type} : Result α → Option (List String)
  | .ok _ m => some m.output
  | .error _ m => some m.output
  | _ => none

/-- The action, started with the stack pointer within the stack, leaves it
within the stack when it returns (with a value satisfying `Q`, or with an
error). -/
def Keeps {α : Type} (x : VMM α) (Q : α → Prop) : Prop :=
  ∀ m : VM, m.sp ≤ StackSize →
    match x m with
    | .ok a m1 => m1.sp ≤ StackSize ∧ Q a
    | .error _ m1 => m1.sp ≤ StackSize
    | _ => True

/-- An instruction, as opcode and operands, that pushes one value and pops
none: `OpTrue`, `OpFalse`, `OpNull`, `OpConstant i` with `i` an index of the
constants, or `OpGetGlobal i` with `i` an index of the globals. -/
def PushesOne (constants : List Object) (e : Opcode × List Nat) : Prop :=
  e = (OpTrue, []) ∨ e = (OpFalse, []) ∨ e = (OpNull, [])
    ∨ (∃ i, e = (OpConstant, [i]) ∧ i < constants.length)
    ∨ (∃ i, e = (OpGetGlobal, [i]) ∧ i < GlobalsSize)

end vm

namespace lexer

/-- The line feed code point. -/
abbrev newline : Char := Char.ofNat 0x0A

/-- The number of code points of `s` after its last line feed (all of `s`
when it has none). -/
def columnAfter (s : List Char) : Nat :=
  (s.reverse.takeWhile (fun c => c != newline)).length

/-- The position of a token is that of its first code point: the input
splits into `pre ++ post` with `post` not empty and starting with the token's
literal, `Offset` is the length of `pre` in bytes, `Line` is 1 plus the number
of line feeds in `pre`, and `Column` is 1 plus the number of code points of
`pre` after its last line feed. -/
def TokenAt (input : List Char) (tok : token.Token) : Prop :=
  ∃ pre post, input = pre ++ post ∧ post ≠ [] ∧ tok.Literal.data <+: post
    ∧ tok.Pos.Offset = utf8.byteLen pre
    ∧ tok.Pos.Line = 1 + pre.count newline
    ∧ tok.Pos.Column = 1 + columnAfter pre

/-- The lexer has read `pre` and the code point `c` after it, `c` being its
current code point and `post` the unread rest of the input. -/
def AtChar (l : Lexer) (pre : List Char) (c : Char) (post : List Char) : Prop :=
  l.input = pre ++ c :: post ∧ l.position = utf8.byteLen pre
    ∧ l.readPosition = utf8.byteLen pre + c.utf8Size ∧ l.ch = c
    ∧ l.line = 1 + (pre ++ [c]).count newline ∧ l.column = columnAfter (pre ++ [c])

/-- The lexer has read all of its input: its current code point is 0, and
`position` is an offset of a code point of the input (or of its end). -/
def AtEnd (l : Lexer) : Prop :=
  l.ch = Char.ofNat 0 ∧ utf8.byteLen l.input ≤ l.readPosition
    ∧ ∃ pre post, l.input = pre ++ post ∧ l.position = utf8.byteLen pre

/-- Every code point of the text is in Latin-1, where `unicode.IsSpace`,
`unicode.IsLetter` and `unicode.IsDigit` do not consult the range tables. -/
def Latin1 (input : List Char) : Prop :=
  ∀ c ∈ input, c.toNat ≤ unicode.MaxLatin1

instance (input : List Char) : Decidable (Latin1 input) :=
  inferInstanceAs (Decidable (∀ c ∈ input, c.toNat ≤ unicode.MaxLatin1))

/-- The states a lexer made by `New` goes through. -/
def Reachable (l : Lexer) : Prop :=
  (∃ pre c post, AtChar l pre c post) ∨ AtEnd l

end lexer

namespace compiler
namespace SymbolTable

/-- The frame after `Define` of each name of the list, in order. -/
def defineAll (s : SymbolTable) (names : List String) : SymbolTable :=
  names.foldl (fun t m => (t.Define m).2) s

/-- The scope `Define` gives to the symbols of a frame: Global for the root,
Local for an enclosed frame. -/
def ownScope : SymbolTable → SymbolScope
  | root _ _ => GlobalScope
  | enclosed _ _ _ => LocalScope

/-- A frame on which nothing has been defined, as made by `NewSymbolTable` or
`NewEnclosed`. -/
def Fresh (s : SymbolTable) : Prop :=
  s.store = [] ∧ s.numDefs = 0

end SymbolTable
end compiler

namespace ast

mutual
/-- The tree contains no function literal and no function statement. -/
def noFunction : Node → Bool
  | .Program stmts => noFunctionAll stmts
  | .ExpressionStatement e => noFunction e
  | .IntegerLiteral _ => true
  | .Boolean _ => true
  | .PrefixExpression _ right => noFunction right
  | .InfixExpression left _ right => noFunction left && noFunction right
  | .LetStatement _ value => noFunction value
  | .Identifier _ => true
  | .AssignmentStatement _ value => noFunction value
  | .BlockStatement stmts => noFunctionAll stmts
  | .IfExpression cond cons alt => noFunction cond && noFunction cons && noFunctionAlt alt
  | .WhileStatement cond body => noFunction cond && noFunction body
  | .FunctionLiteral _ _ => false
  | .FunctionStatement _ _ _ => false
  | .CallExpression fn args => noFunction fn && noFunctionAll args
  | .ReturnStatement value => noFunctionAlt value
  | .PrintStatement value => noFunction value
  | .Nil => true
/-- No tree of the list contains a function literal or statement. -/
def noFunctionAll : List Node → Bool
  | [] => true
  | s :: ss => noFunction s && noFunctionAll ss
/-- The tree, when present, contains no function literal or statement. -/
def noFunctionAlt : Option Node → Bool
  | none => true
  | some a => noFunction a
end

end ast

namespace compiler

/-- The action only appends to the instruction buffer: when it returns
without error, the buffer it leaves is the buffer it found followed by the
bytes it emitted. -/
def Appends {α : Type} (x : CompilerM α) : Prop :=
  ∀ (c : Compiler) (a : α) (c1 : Compiler), x c = .ok a c1 →
    ∃ L, c1.instructions = c.instructions ++ L

end compiler

namespace vm
open code object

/-- `Visits fuel m m1`: the call `Run fuel` started in `m` passes through the
state `m1`, which is the state it starts in, the state right after one of its
instructions (whether the loop goes on after it, the run ends with it, or it
returns an error), or a state that the nested run of one of its `OpCall`
instructions passes through. -/
inductive Visits : Nat → VM → VM → Prop
  | start (fuel : Nat) (m : VM) : Visits fuel m m
  | after (fuel : Nat) (m : VM) (op : Opcode) (goOn : Bool) (m1 : VM) :
      m.instructions.get? m.ip = some op →
      execute (Run fuel) op { m with ip := m.ip + 1 } = .ok goOn m1 →
      Visits (fuel + 1) m m1
  | failed (fuel : Nat) (m : VM) (op : Opcode) (msg : String) (m1 : VM) :
      m.instructions.get? m.ip = some op →
      execute (Run fuel) op { m with ip := m.ip + 1 } = .error msg m1 →
      Visits (fuel + 1) m m1
  | next (fuel : Nat) (m : VM) (op : Opcode) (m1 m2 : VM) :
      m.instructions.get? m.ip = some op →
      execute (Run fuel) op { m with ip := m.ip + 1 } = .ok true m1 →
      Visits fuel m1 m2 →
      Visits (fuel + 1) m m2
  | call (fuel : Nat) (m : VM) (argc : Nat) (fnCode : List Nat) (nl np : Nat) (m2 : VM) :
      m.instructions.get? m.ip = some OpCall →
      m.instructions.get? (m.ip + 1) = some argc →
      argc + 1 ≤ m.sp → m.sp - argc - 1 < StackSize →
      m.stack (m.sp - argc - 1) = some (.CompiledFunction fnCode nl np) →
      Visits fuel { m with ip := 0, instructions := fnCode } m2 →
      Visits (fuel + 1) m m2

end vm

/-! ## internal/ast and internal/parser: the parser and its tree -/

namespace ast

open token

/-- Modelled from the spec: the identifier node of package `internal/ast`
(whose source is not part of the repository snapshot), with the token that
introduced it and its text. -/
structure Ident where
  Token : Token
  Value : String
deriving DecidableEq, Repr

/-- Modelled from the spec: the syntax tree as the parser of package
`internal/parser` produces it (the sources of `internal/ast` and
`internal/parser` are not part of the repository snapshot): the statements and
expressions of the spec's data model, every node with the token that introduced
it. -/
inductive Parsed where
  | Program (Statements : List Parsed)
  | LetStatement (Token : Token) (Name : Ident) (Value : Parsed)
  | ReturnStatement (Token : Token) (ReturnValue : Option Parsed)
  | ExpressionStatement (Token : Token) (Expression : Parsed)
  | BlockStatement (Token : Token) (Statements : List Parsed)
  | WhileStatement (Token : Token) (Condition : Parsed) (Body : Parsed)
  | FunctionStatement (Token : Token) (Name : Ident) (Parameters : List Ident) (Body : Parsed)
  | AssignmentStatement (Token : Token) (Name : Ident) (Value : Parsed)
  | PrintStatement (Token : Token) (Value : Parsed)
  | IntegerLiteral (Token : Token) (Value : Int)
  | Boolean (Token : Token) (Value : Bool)
  | Identifier (Token : Token) (Value : String)
  | PrefixExpression (Token : Token) (Operator : String) (Right : Parsed)
  | InfixExpression (Token : Token) (Left : Parsed) (Operator : String) (Right : Parsed)
  | IfExpression (Token : Token) (Condition : Parsed) (Consequence : Parsed)
      (Alternative : Option Parsed)
  | FunctionLiteral (Token : Token) (Parameters : List Ident) (Body : Parsed)
  | CallExpression (Token : Token) (Function : Parsed) (Arguments : List Parsed)

/-- Modelled from the spec: `TokenLiteral()`, the literal of the token that
introduced the node; for a program, that of its first statement (empty for the
empty program). -/
def Parsed.TokenLiteral : Parsed → String
  | .Program [] => ""
  | .Program (s :: _) => s.TokenLiteral
  | .LetStatement tok _ _ => tok.Literal
  | .ReturnStatement tok _ => tok.Literal
  | .ExpressionStatement tok _ => tok.Literal
  | .BlockStatement tok _ => tok.Literal
  | .WhileStatement tok _ _ => tok.Literal
  | .FunctionStatement tok _ _ _ => tok.Literal
  | .AssignmentStatement tok _ _ => tok.Literal
  | .PrintStatement tok _ => tok.Literal
  | .IntegerLiteral tok _ => tok.Literal
  | .Boolean tok _ => tok.Literal
  | .Identifier tok _ => tok.Literal
  | .PrefixExpression tok _ _ => tok.Literal
  | .InfixExpression tok _ _ _ => tok.Literal
  | .IfExpression tok _ _ _ => tok.Literal
  | .FunctionLiteral tok _ _ => tok.Literal
  | .CallExpression tok _ _ => tok.Literal

/-- Modelled from the spec: `TokenLiteral()` of an identifier node. -/
def Ident.TokenLiteral (i : Ident) : String :=
  i.Token.Literal

mutual
/-- The tree the compiler switches on: the parsed tree without its tokens. -/
def Parsed.toNode : Parsed → Node
  | .Program stmts => .Program (Parsed.toNodes stmts)
  | .LetStatement _ name value => .LetStatement name.Value value.toNode
  | .ReturnStatement _ value => .ReturnStatement (Parsed.toNodeAlt value)
  | .ExpressionStatement _ e => .ExpressionStatement e.toNode
  | .BlockStatement _ stmts => .BlockStatement (Parsed.toNodes stmts)
  | .WhileStatement _ cond body => .WhileStatement cond.toNode body.toNode
  | .FunctionStatement _ name params body =>
    .FunctionStatement name.Value (params.map fun i => i.Value) body.toNode
  | .AssignmentStatement _ name value => .AssignmentStatement name.Value value.toNode
  | .PrintStatement _ value => .PrintStatement value.toNode
  | .IntegerLiteral _ v => .IntegerLiteral v
  | .Boolean _ v => .Boolean v
  | .Identifier _ v => .Identifier v
  | .PrefixExpression _ op right => .PrefixExpression op right.toNode
  | .InfixExpression _ left op right => .InfixExpression left.toNode op right.toNode
  | .IfExpression _ cond cons alt => .IfExpression cond.toNode cons.toNode (Parsed.toNodeAlt alt)
  | .FunctionLiteral _ params body => .FunctionLiteral (params.map fun i => i.Value) body.toNode
  | .CallExpression _ fn args => .CallExpression fn.toNode (Parsed.toNodes args)
/-- The trees of a list without their tokens. -/
def Parsed.toNodes : List Parsed → List Node
  | [] => []
  | s :: ss => s.toNode :: Parsed.toNodes ss
/-- The tree, when present, without its tokens. -/
def Parsed.toNodeAlt : Option Parsed → Option Node
  | none => none
  | some a => some a.toNode
end

end ast

namespace parser

open token lexer unicode ast

/-- Modelled from the spec: an entry of the parser's rich-error list, a message
with the position of the offending token (package `internal/parser`, whose
source is not part of the repository snapshot). -/
structure RichError where
  Msg : String
  Pos : Position
deriving DecidableEq, Repr

/-- Modelled from the spec: the parser state of the missing `parser.go`: the
lexer, the current token, the peek token, the error list (strings) and the
rich-error list. -/
structure Parser where
  l : Lexer
  curToken : Token
  peekToken : Token
  errors : List String
  richErrors : List RichError
deriving DecidableEq, Repr

/-- Modelled from the spec: the outcome of a parser method of the missing
`parser.go`: its value with the parser after it.  `outOfFuel` is not an outcome
of the program: it marks a model run whose bound on the nesting was too small. -/
inductive Result (α : Type) where
  | done (a : α) (p : Parser)
  | outOfFuel

/-- Modelled from the spec: a method of the missing `parser.go`, as a function
of the parser state (the parser never throws). -/
abbrev ParserM (α : Type) := Parser → Result α

instance : Monad ParserM where
  pure a := fun p => .done a p
  bind x f := fun p =>
    match x p with
    | .done a p1 => f a p1
    | .outOfFuel => .outOfFuel

/-- Modelled from the spec: the precedence levels of the missing `parser.go`,
`LOWEST < EQUALS < LESSGREATER < SUM < PRODUCT < PREFIX < CALL`. -/
abbrev LOWEST : Nat := 1
abbrev EQUALS : Nat := 2
abbrev LESSGREATER : Nat := 3
abbrev SUM : Nat := 4
abbrev PRODUCT : Nat := 5
abbrev PREFIX : Nat := 6
abbrev CALL : Nat := 7

/-- Modelled from the spec: the precedence table of the missing `parser.go`:
equality operators, comparisons, sums, products and the call parenthesis; every
other token has the lowest level. -/
def precedences (t : TokenType) : Nat :=
  if t = EQ ∨ t = NOT_EQ then EQUALS
  else if t = token.LT ∨ t = token.GT ∨ t = LTE ∨ t = GTE then LESSGREATER
  else if t = PLUS ∨ t = MINUS then SUM
  else if t = ASTER ∨ t = SLASH then PRODUCT
  else if t = LPAREN then CALL
  else LOWEST

/-- Modelled from the spec: advancing (missing `parser.go`) consumes the
current token and refills peek from the lexer. -/
def nextToken (T : Tables) : ParserM Unit := fun p =>
  .done () { p with curToken := p.peekToken, peekToken := (NextToken T p.l).1,
                    l := (NextToken T p.l).2 }

/-- Modelled from the spec: `New` of the missing `parser.go`: a parser on the
lexer with empty error lists, advanced twice so that the current and the peek
token are set. -/
def New (T : Tables) (l : Lexer) : Parser :=
  let p0 : Parser :=
    { l := l, curToken := ⟨"", "", ⟨0, 0, 0⟩⟩, peekToken := ⟨"", "", ⟨0, 0, 0⟩⟩,
      errors := [], richErrors := [] }
  let p1 : Parser :=
    { p0 with curToken := p0.peekToken, peekToken := (NextToken T p0.l).1,
              l := (NextToken T p0.l).2 }
  { p1 with curToken := p1.peekToken, peekToken := (NextToken T p1.l).1,
            l := (NextToken T p1.l).2 }

/-- Modelled from the spec: recording an error (missing `parser.go`): a plain
string in the error list and the string with the offending token's position in
the rich-error list. -/
def addError (msg : String) (pos : Position) : ParserM Unit := fun p =>
  .done () { p with errors := p.errors ++ [msg], richErrors := p.richErrors ++ [⟨msg, pos⟩] }

/-- Modelled from the spec: "expect" of the missing `parser.go`: when the peek
token has the type, advance; otherwise record an unexpected-token error at the
peek token and stay. -/
def expectPeek (T : Tables) (t : TokenType) : ParserM Bool := fun p =>
  if p.peekToken.Typ = t then
    (do nextToken T; pure true : ParserM Bool) p
  else
    (do addError ("unexpected token: expected " ++ t ++ ", got " ++ p.peekToken.Typ)
          p.peekToken.Pos
        pure false : ParserM Bool) p

/-- Modelled from the spec: the optional trailing `;` of a statement (missing
`parser.go`): consumed when it is the peek token. -/
def skipSemicolon (T : Tables) : ParserM Unit := fun p =>
  if p.peekToken.Typ = SEMICOLON then nextToken T p else .done () p

/-- Modelled from the spec: the value of a decimal integer literal (the
`strconv.ParseInt` call of the missing `parser.go`): none when the text is not
a nonempty run of ASCII digits or the number does not fit 64 bits signed. -/
def parseInt64 (s : String) : Option Int :=
  if s.data ≠ [] ∧ s.data.all (fun c => 0x30 ≤ c.toNat && c.toNat ≤ 0x39) = true then
    let n := s.data.foldl (fun a c => 10 * a + (c.toNat - 0x30)) 0
    if n < 2 ^ 63 then some (Int.ofNat n) else none
  else none

/-- Modelled from the spec: the identifier prefix parselet of the missing
`parser.go`. -/
def parseIdentifier : ParserM (Option Parsed) := fun p =>
  .done (some (.Identifier p.curToken p.curToken.Literal)) p

/-- Modelled from the spec: the integer literal prefix parselet of the missing
`parser.go`; it fails with a rich error on overflow of 64-bit signed. -/
def parseIntegerLiteral : ParserM (Option Parsed) := fun p =>
  match parseInt64 p.curToken.Literal with
  | some v => .done (some (.IntegerLiteral p.curToken v)) p
  | none =>
    (do addError ("malformed literal: could not parse " ++ p.curToken.Literal ++ " as integer")
          p.curToken.Pos
        pure none : ParserM (Option Parsed)) p

/-- Modelled from the spec: the `true`/`false` prefix parselet of the missing
`parser.go`. -/
def parseBoolean : ParserM (Option Parsed) := fun p =>
  .done (some (.Boolean p.curToken (p.curToken.Typ = TRUE))) p

/-- Modelled from the spec: the grouped `( expr )` prefix parselet of the
missing `parser.go`, over the expression parser. -/
def parseGroupedExpression (T : Tables) (expr : Nat → ParserM (Option Parsed)) :
    ParserM (Option Parsed) := do
  nextToken T
  match ← expr LOWEST with
  | none => pure none
  | some e =>
    if ← expectPeek T RPAREN then pure (some e) else pure none

/-- Modelled from the spec: the unary `!` / `-` prefix parselet of the missing
`parser.go`, over the expression parser. -/
def parsePrefixExpression (T : Tables) (expr : Nat → ParserM (Option Parsed)) :
    ParserM (Option Parsed) := fun p =>
  (do nextToken T
      match ← expr PREFIX with
      | none => pure none
      | some right => pure (some (.PrefixExpression p.curToken p.curToken.Literal right)) :
    ParserM (Option Parsed)) p

/-- Modelled from the spec: the rest of a parameter list of the missing
`parser.go` after an identifier: `(',' IDENT)*` and the closing `)`. -/
def parseParametersLoop (T : Tables) : Nat → List Ident → ParserM (Option (List Ident))
  | 0, _ => fun _ => .outOfFuel
  | fuel + 1, acc => fun p =>
    if p.peekToken.Typ = COMMA then
      (do nextToken T
          if ← expectPeek T IDENT then
            fun p1 => parseParametersLoop T fuel (acc ++ [⟨p1.curToken, p1.curToken.Literal⟩]) p1
          else pure none : ParserM (Option (List Ident))) p
    else
      (do if ← expectPeek T RPAREN then pure (some acc) else pure none :
        ParserM (Option (List Ident))) p

/-- Modelled from the spec: the parameter list `( IDENT (',' IDENT)* )` of the
missing `parser.go`, entered at the opening `(`; an empty list `()` is taken
too. -/
def parseFunctionParameters (T : Tables) (fuel : Nat) : ParserM (Option (List Ident)) := fun p =>
  if p.peekToken.Typ = RPAREN then
    (do nextToken T; pure (some []) : ParserM (Option (List Ident))) p
  else
    (do if ← expectPeek T IDENT then
          fun p1 => parseParametersLoop T fuel [⟨p1.curToken, p1.curToken.Literal⟩] p1
        else pure none : ParserM (Option (List Ident))) p

/-- Modelled from the spec: the `if ( cond ) block [ else block ]` prefix
parselet of the missing `parser.go`, over the expression and block parsers. -/
def parseIfExpression (T : Tables) (expr : Nat → ParserM (Option Parsed))
    (block : ParserM (Option Parsed)) : ParserM (Option Parsed) := fun p =>
  (do if !(← expectPeek T LPAREN) then return none
      nextToken T
      match ← expr LOWEST with
      | none => pure none
      | some cond =>
        if !(← expectPeek T RPAREN) then return none
        if !(← expectPeek T LBRACE) then return none
        match ← block with
        | none => pure none
        | some cons =>
          fun p1 =>
            if p1.peekToken.Typ = ELSE then
              (do nextToken T
                  if !(← expectPeek T LBRACE) then return none
                  match ← block with
                  | none => pure none
                  | some alt => pure (some (.IfExpression p.curToken cond cons (some alt))) :
                ParserM (Option Parsed)) p1
            else .done (some (.IfExpression p.curToken cond cons none)) p1 :
    ParserM (Option Parsed)) p

/-- Modelled from the spec: the `fn ( params ) block` prefix parselet of the
missing `parser.go`, over the block parser. -/
def parseFunctionLiteral (T : Tables) (fuel : Nat) (block : ParserM (Option Parsed)) :
    ParserM (Option Parsed) := fun p =>
  (do if !(← expectPeek T LPAREN) then return none
      match ← parseFunctionParameters T fuel with
      | none => pure none
      | some params =>
        if !(← expectPeek T LBRACE) then return none
        match ← block with
        | none => pure none
        | some body => pure (some (.FunctionLiteral p.curToken params body)) :
    ParserM (Option Parsed)) p

/-- Modelled from the spec: the prefix parselets of the missing `parser.go` by
the type of the current token; a token without one records a
missing-prefix-handler error. -/
def parsePrefix (T : Tables) (fuel : Nat) (expr : Nat → ParserM (Option Parsed))
    (block : ParserM (Option Parsed)) : ParserM (Option Parsed) := fun p =>
  if p.curToken.Typ = IDENT then parseIdentifier p
  else if p.curToken.Typ = INT then parseIntegerLiteral p
  else if p.curToken.Typ = TRUE ∨ p.curToken.Typ = FALSE then parseBoolean p
  else if p.curToken.Typ = LPAREN then parseGroupedExpression T expr p
  else if p.curToken.Typ = IF then parseIfExpression T expr block p
  else if p.curToken.Typ = FN then parseFunctionLiteral T fuel block p
  else if p.curToken.Typ = BANG ∨ p.curToken.Typ = MINUS then parsePrefixExpression T expr p
  else
    (do addError ("missing prefix handler for token " ++ p.curToken.Typ) p.curToken.Pos
        pure none : ParserM (Option Parsed)) p

/-- Modelled from the spec: the infix parselet of the arithmetic and comparison
operators (missing `parser.go`): the right operand is parsed at the operator's
level. -/
def parseInfixExpression (T : Tables) (expr : Nat → ParserM (Option Parsed)) (left : Parsed) :
    ParserM (Option Parsed) := fun p =>
  (do nextToken T
      match ← expr (precedences p.curToken.Typ) with
      | none => pure none
      | some right =>
        pure (some (.InfixExpression p.curToken left p.curToken.Literal right)) :
    ParserM (Option Parsed)) p

/-- Modelled from the spec: the rest of an argument list of the missing
`parser.go` after an argument: further arguments after commas and the closing
`)`. -/
def parseArgumentsLoop (T : Tables) (expr : Nat → ParserM (Option Parsed)) :
    Nat → List Parsed → ParserM (Option (List Parsed))
  | 0, _ => fun _ => .outOfFuel
  | fuel + 1, acc => fun p =>
    if p.peekToken.Typ = COMMA then
      (do nextToken T
          nextToken T
          match ← expr LOWEST with
          | none => pure none
          | some a => parseArgumentsLoop T expr fuel (acc ++ [a]) :
        ParserM (Option (List Parsed))) p
    else
      (do if ← expectPeek T RPAREN then pure (some acc) else pure none :
        ParserM (Option (List Parsed))) p

/-- Modelled from the spec: the infix parselet of `(` (missing `parser.go`): a
call with a comma-separated argument list terminated by `)`. -/
def parseCallExpression (T : Tables) (fuel : Nat) (expr : Nat → ParserM (Option Parsed))
    (function : Parsed) : ParserM (Option Parsed) := fun p =>
  if p.peekToken.Typ = RPAREN then
    (do nextToken T
        pure (some (.CallExpression p.curToken function [])) : ParserM (Option Parsed)) p
  else
    (do nextToken T
        match ← expr LOWEST with
        | none => pure none
        | some a =>
          match ← parseArgumentsLoop T expr fuel [a] with
          | none => pure none
          | some args => pure (some (.CallExpression p.curToken function args)) :
      ParserM (Option Parsed)) p

/-- Modelled from the spec: the loop of the Pratt expression parser (missing
`parser.go`): while the peek token is not `;` and binds tighter than the level
asked for, advance onto it and apply its infix parselet to the expression read
so far. -/
def parseInfixLoop (T : Tables) (expr : Nat → ParserM (Option Parsed)) (prec : Nat) :
    Nat → Parsed → ParserM (Option Parsed)
  | 0, _ => fun _ => .outOfFuel
  | fuel + 1, left => fun p =>
    if p.peekToken.Typ ≠ SEMICOLON ∧ prec < precedences p.peekToken.Typ then
      (do nextToken T
          let r ← (fun p1 : Parser =>
            if p1.curToken.Typ = LPAREN then parseCallExpression T fuel expr left p1
            else parseInfixExpression T expr left p1 : ParserM (Option Parsed))
          match r with
          | none => pure none
          | some e => parseInfixLoop T expr prec fuel e : ParserM (Option Parsed)) p
    else .done (some left) p

/-- Modelled from the spec: the statements of a block up to its closing brace
(missing `parser.go`), over the statement parser; the end of the input before
the brace records an unterminated-block error. -/
def parseBlockLoop (T : Tables) (stmt : ParserM (Option Parsed)) (tok : Token) :
    Nat → List Parsed → ParserM (Option Parsed)
  | 0, _ => fun _ => .outOfFuel
  | fuel + 1, acc => fun p =>
    if p.curToken.Typ = RBRACE then .done (some (.BlockStatement tok acc)) p
    else if p.curToken.Typ = EOF then
      (do addError "unterminated block" p.curToken.Pos
          pure none : ParserM (Option Parsed)) p
    else
      (do match ← stmt with
          | none =>
            nextToken T
            parseBlockLoop T stmt tok fuel acc
          | some s =>
            nextToken T
            parseBlockLoop T stmt tok fuel (acc ++ [s]) : ParserM (Option Parsed)) p

/-- Modelled from the spec: `let` → `Let` (missing `parser.go`): expect `IDENT`,
expect `=`, parse expression, optionally consume trailing `;`. -/
def parseLetStatement (T : Tables) (expr : Nat → ParserM (Option Parsed)) :
    ParserM (Option Parsed) := fun p =>
  (do if !(← expectPeek T IDENT) then return none
      fun p1 =>
        (do if !(← expectPeek T ASSIGN) then return none
            nextToken T
            match ← expr LOWEST with
            | none => pure none
            | some value =>
              skipSemicolon T
              pure (some (.LetStatement p.curToken ⟨p1.curToken, p1.curToken.Literal⟩ value)) :
          ParserM (Option Parsed)) p1 : ParserM (Option Parsed)) p

/-- Modelled from the spec: `return` → `Return` (missing `parser.go`): if the
next token is not `;`/`}`, parse expression; optionally consume `;`. -/
def parseReturnStatement (T : Tables) (expr : Nat → ParserM (Option Parsed)) :
    ParserM (Option Parsed) := fun p =>
  if p.peekToken.Typ = SEMICOLON ∨ p.peekToken.Typ = RBRACE then
    (do skipSemicolon T
        pure (some (.ReturnStatement p.curToken none)) : ParserM (Option Parsed)) p
  else
    (do nextToken T
        match ← expr LOWEST with
        | none => pure none
        | some value =>
          skipSemicolon T
          pure (some (.ReturnStatement p.curToken (some value))) : ParserM (Option Parsed)) p

/-- Modelled from the spec: `while` → `While` (missing `parser.go`): expect
`(`, parse expression, expect `)`, parse block. -/
def parseWhileStatement (T : Tables) (expr : Nat → ParserM (Option Parsed))
    (block : ParserM (Option Parsed)) : ParserM (Option Parsed) := fun p =>
  (do if !(← expectPeek T LPAREN) then return none
      nextToken T
      match ← expr LOWEST with
      | none => pure none
      | some cond =>
        if !(← expectPeek T RPAREN) then return none
        if !(← expectPeek T LBRACE) then return none
        match ← block with
        | none => pure none
        | some body => pure (some (.WhileStatement p.curToken cond body)) :
    ParserM (Option Parsed)) p

/-- Modelled from the spec: `fn` at statement position → `Function` (missing
`parser.go`): expect `IDENT`, parse parameter list, parse block. -/
def parseFunctionStatement (T : Tables) (fuel : Nat) (block : ParserM (Option Parsed)) :
    ParserM (Option Parsed) := fun p =>
  (do if !(← expectPeek T IDENT) then return none
      fun p1 =>
        (do if !(← expectPeek T LPAREN) then return none
            match ← parseFunctionParameters T fuel with
            | none => pure none
            | some params =>
              if !(← expectPeek T LBRACE) then return none
              match ← block with
              | none => pure none
              | some body =>
                pure (some (.FunctionStatement p.curToken ⟨p1.curToken, p1.curToken.Literal⟩
                  params body)) : ParserM (Option Parsed)) p1 : ParserM (Option Parsed)) p

/-- Modelled from the spec: `print` → `Print` (missing `parser.go`): parse
expression, optionally consume `;`. -/
def parsePrintStatement (T : Tables) (expr : Nat → ParserM (Option Parsed)) :
    ParserM (Option Parsed) := fun p =>
  (do nextToken T
      match ← expr LOWEST with
      | none => pure none
      | some value =>
        skipSemicolon T
        pure (some (.PrintStatement p.curToken value)) : ParserM (Option Parsed)) p

/-- Modelled from the spec: `IDENT` followed by `=` at peek → `Assignment`
(missing `parser.go`): consume name, `=`, parse expression, optional `;`. -/
def parseAssignmentStatement (T : Tables) (expr : Nat → ParserM (Option Parsed)) :
    ParserM (Option Parsed) := fun p =>
  (do nextToken T
      nextToken T
      match ← expr LOWEST with
      | none => pure none
      | some value =>
        skipSemicolon T
        pure (some (.AssignmentStatement p.curToken ⟨p.curToken, p.curToken.Literal⟩ value)) :
    ParserM (Option Parsed)) p

/-- Modelled from the spec: otherwise → `Expression` (missing `parser.go`):
parse at lowest precedence, optional `;`. -/
def parseExpressionStatement (T : Tables) (expr : Nat → ParserM (Option Parsed)) :
    ParserM (Option Parsed) := fun p =>
  (do match ← expr LOWEST with
      | none => pure none
      | some e =>
        skipSemicolon T
        pure (some (.ExpressionStatement p.curToken e)) : ParserM (Option Parsed)) p

/-- Modelled from the spec: the statement dispatch of the missing `parser.go`
on the current token type. -/
def parseStatementWith (T : Tables) (fuel : Nat) (expr : Nat → ParserM (Option Parsed))
    (block : ParserM (Option Parsed)) : ParserM (Option Parsed) := fun p =>
  if p.curToken.Typ = LET then parseLetStatement T expr p
  else if p.curToken.Typ = RETURN then parseReturnStatement T expr p
  else if p.curToken.Typ = WHILE then parseWhileStatement T expr block p
  else if p.curToken.Typ = FN then parseFunctionStatement T fuel block p
  else if p.curToken.Typ = PRINT then parsePrintStatement T expr p
  else if p.curToken.Typ = IDENT ∧ p.peekToken.Typ = ASSIGN then
    parseAssignmentStatement T expr p
  else parseExpressionStatement T expr p

mutual
/-- Modelled from the spec: the Pratt expression parser of the missing
`parser.go`: the prefix parselet of the current token, then the infix loop.
The first argument bounds the nesting of the model. -/
def parseExpression (T : Tables) : Nat → Nat → ParserM (Option Parsed)
  | 0, _ => fun _ => .outOfFuel
  | fuel + 1, prec => fun p =>
    match parsePrefix T fuel (parseExpression T fuel) (parseBlockStatement T fuel) p with
    | .outOfFuel => .outOfFuel
    | .done none p1 => .done none p1
    | .done (some left) p1 => parseInfixLoop T (parseExpression T fuel) prec fuel left p1
/-- Modelled from the spec: the block parser of the missing `parser.go`,
entered at the opening brace. -/
def parseBlockStatement (T : Tables) : Nat → ParserM (Option Parsed)
  | 0 => fun _ => .outOfFuel
  | fuel + 1 => fun p =>
    match nextToken T p with
    | .outOfFuel => .outOfFuel
    | .done _ p1 => parseBlockLoop T (parseStatement T fuel) p.curToken fuel [] p1
/-- Modelled from the spec: the statement parser of the missing `parser.go`. -/
def parseStatement (T : Tables) : Nat → ParserM (Option Parsed)
  | 0 => fun _ => .outOfFuel
  | fuel + 1 =>
    parseStatementWith T fuel (parseExpression T fuel) (parseBlockStatement T fuel)
end

/-- Modelled from the spec: the recovery of the missing `parser.go` after a
statement that failed: tokens are consumed up to the next `;` or `}` (or the
end of the input). -/
def skipToStatementEnd (T : Tables) : Nat → ParserM Unit
  | 0 => fun _ => .outOfFuel
  | fuel + 1 => fun p =>
    if p.curToken.Typ = SEMICOLON ∨ p.curToken.Typ = RBRACE ∨ p.curToken.Typ = EOF then
      .done () p
    else
      (do nextToken T
          skipToStatementEnd T fuel : ParserM Unit) p

/-- Modelled from the spec: the loop of `ParseProgram` (missing `parser.go`):
statements are parsed until the end of the input, every statement read is
appended to the program, and the parser advances past its last token. -/
def parseProgramLoop (T : Tables) (fuel : Nat) : Nat → List Parsed → ParserM (List Parsed)
  | 0, _ => fun _ => .outOfFuel
  | n + 1, acc => fun p =>
    if p.curToken.Typ = EOF then .done acc p
    else
      (do match ← parseStatement T fuel with
          | none =>
            skipToStatementEnd T fuel
            nextToken T
            parseProgramLoop T fuel n acc
          | some s =>
            nextToken T
            parseProgramLoop T fuel n (acc ++ [s]) : ParserM (List Parsed)) p

/-- Modelled from the spec: `ParseProgram` of the missing `parser.go`: the
program node with the statements in source order.  `fuel` bounds the nesting
and the number of statements of the model. -/
def ParseProgram (T : Tables) (fuel : Nat) : ParserM Parsed := fun p =>
  match parseProgramLoop T fuel fuel [] p with
  | .outOfFuel => .outOfFuel
  | .done stmts p1 => .done (.Program stmts) p1

/-- Modelled from the spec: `Errors()` of the missing `parser.go`. -/
def Parser.Errors (p : Parser) : List String :=
  p.errors

/-- Modelled from the spec: `RichErrors()` of the missing `parser.go`. -/
def Parser.RichErrors (p : Parser) : List RichError :=
  p.richErrors

end parser

/-! ## Specification-side notions of the parser statements -/

namespace parser

open token lexer unicode ast

/-- The parser over `input` after it has consumed `j` tokens: the current token
is token number `j` of the text, the peek token the one after it. -/
def parserAt (T : Tables) (input : List Char) (j : Nat) (errors : List String)
    (richErrors : List RichError) : Parser :=
  { l := lexerAfter T input (j + 2), curToken := nthToken T input j,
    peekToken := nthToken T input (j + 1), errors := errors, richErrors := richErrors }

/-- From token number `j` on, the text is made of statements of the form
`let <identifier> = <integer literal>;`, one for each pair (identifier, literal)
of the list in order, and ends after them: the lexer returns the tokens `LET`,
`IDENT` with the identifier, `ASSIGN`, `INT` with the literal and `SEMICOLON`
for each pair, and then `EOF`. -/
def LetTokens (T : Tables) (input : List Char) : Nat → List (String × String) → Prop
  | j, [] => (nthToken T input j).Typ = EOF
  | j, nl :: rest =>
    (nthToken T input j).Typ = LET
      ∧ (nthToken T input (j + 1)).Typ = IDENT ∧ (nthToken T input (j + 1)).Literal = nl.1
      ∧ (nthToken T input (j + 2)).Typ = ASSIGN
      ∧ (nthToken T input (j + 3)).Typ = INT ∧ (nthToken T input (j + 3)).Literal = nl.2
      ∧ (nthToken T input (j + 4)).Typ = SEMICOLON
      ∧ LetTokens T input (j + 5) rest

instance (T : Tables) (input : List Char) (j : Nat) (nls : List (String × String)) :
    Decidable (LetTokens T input j nls) := by
  induction nls generalizing j with
  | nil => exact inferInstanceAs (Decidable ((nthToken T input j).Typ = EOF))
  | cons nl rest ih =>
    have := ih (j + 5)
    exact inferInstanceAs (Decidable (_ ∧ _))

/-- The errors recorded by a run of a parser method, none for a run that ran
out of the bound of the model. -/
def Result.errors {α : Type} : Result α → Option (List String × List RichError)
  | .done _ p => some (p.errors, p.richErrors)
  | .outOfFuel => none

/-- The number of statements of the program returned by a run of
`ParseProgram`. -/
def Result.statements : Result Parsed → Option Nat
  | .done (.Program stmts) _ => some stmts.length
  | _ => none

end parser

namespace lexer

open token unicode

/-- The lexer stands before `rest`: it has read `pre` and the first code point
of `rest`, which is its current one; with nothing ahead it has read all of its
input, `pre`. -/
def Before (l : Lexer) (pre : List Char) : List Char → Prop
  | [] => AtEnd l ∧ l.input = pre
  | c :: post => AtChar l pre c post

end lexer

namespace parser

open token lexer unicode ast

/-- A statement `let <identifier> = <integer literal>;` of a source text: the
identifier, the literal, and the white space before each of its five tokens
(`sp0` before `let`, `sp1` between `let` and the identifier, and so on). -/
structure LetSource where
  name : List Char
  literal : List Char
  sp0 : List Char
  sp1 : List Char
  sp2 : List Char
  sp3 : List Char
  sp4 : List Char

/-- The text of the statement, followed by `tail`. -/
def LetSource.text (s : LetSource) (tail : List Char) : List Char :=
  s.sp0 ++ ("let".data ++ (s.sp1 ++ (s.name ++ (s.sp2 ++ ('=' :: (s.sp3 ++ (s.literal
    ++ (s.sp4 ++ (';' :: tail)))))))))

/-- The source text made of the statements in order, with the white space
`trailing` after the last. -/
def sourceText : List LetSource → List Char → List Char
  | [], trailing => trailing
  | s :: rest, trailing => s.text (sourceText rest trailing)

/-- White space, as the lexer skips it (`unicode.IsSpace`). -/
def isBlank (T : Tables) (s : List Char) : Bool :=
  s.all (IsSpace T)

/-- An identifier of the language: a letter or `_`, then letters, digits and
`_`, and not a keyword. -/
def isIdentifier (T : Tables) : List Char → Bool
  | [] => false
  | c :: body =>
    (IsLetter T c || c == Char.ofNat 0x5F)
      && body.all (fun x => IsLetter T x || IsDigit T x || x == Char.ofNat 0x5F)
      && (LookupIdent (String.mk (c :: body)) == IDENT)

/-- The statement is of the form `let <identifier> = <integer literal>;`: white
space at the five places, at least one code point of it between `let` and the
identifier, an identifier, and a literal that is a decimal numeral fitting 64
bits signed. -/
def LetSource.WellFormed (T : Tables) (s : LetSource) : Prop :=
  isBlank T s.sp0 = true ∧ isBlank T s.sp1 = true ∧ s.sp1 ≠ [] ∧ isBlank T s.sp2 = true
    ∧ isBlank T s.sp3 = true ∧ isBlank T s.sp4 = true ∧ isIdentifier T s.name = true
    ∧ (parseInt64 (String.mk s.literal)).isSome = true

instance (T : Tables) (s : LetSource) : Decidable (s.WellFormed T) :=
  inferInstanceAs (Decidable (_ ∧ _))

/-- No code point above Latin-1 is both white space and a letter or a digit in
the range tables (as in the tables of Go's `unicode` package). -/
def SeparateTables (T : Tables) : Prop :=
  ∀ c : Char, T.White_Space c = true → T.Letter c = false ∧ T.Digit c = false

end parser

end Mingo

/-! # Theorems -/

namespace Mingo

open code object compiler vm ast token unicode lexer

/-! ## Symbol table -/

theorem lookup_storeSet_self (st : List (String × Symbol)) (n : String) (sym : Symbol) :
    (SymbolTable.storeSet st n sym).lookup n = some sym := by
  simp [SymbolTable.storeSet, List.lookup]

theorem resolve_define (s : SymbolTable) (n : String) :
    (s.Define n).2.Resolve n = ((s.Define n).1, true) := by
  cases s <;> simp [SymbolTable.Define, SymbolTable.Resolve, lookup_storeSet_self]

theorem lookup_storeSet_other (st : List (String × Symbol)) (n m : String) (sym : Symbol)
    (h : n ≠ m) : (SymbolTable.storeSet st m sym).lookup n = st.lookup n := by
  have hnm : (n == m) = false := by simpa using h
  simp only [SymbolTable.storeSet, List.lookup, hnm]
  induction st with
  | nil => simp
  | cons e st ih =>
    obtain ⟨k, v⟩ := e
    by_cases hk : k = m
    · subst hk
      simp [List.filter, List.lookup, hnm, ih]
    · have hk2 : (k != m) = true := by simpa using hk
      by_cases hkn : n = k
      · subst hkn
        simp [List.filter, hk2, List.lookup]
      · have : (n == k) = false := by simpa using hkn
        simp [List.filter, hk2, List.lookup, this, ih]

theorem resolve_enclosed_of_not_stored (o : SymbolTable) (st : List (String × Symbol)) (k : Nat)
    (n : String) (h : st.lookup n = none) :
    (SymbolTable.enclosed o st k).Resolve n = o.Resolve n := by
  simp [SymbolTable.Resolve, h]

/-- Defining other names in an enclosed frame leaves the resolution of `n` to
the outer frame. -/
theorem defineAll_enclosed (o : SymbolTable) (names : List String) (n : String)
    (hn : n ∉ names) (st : List (String × Symbol)) (k : Nat) (h : st.lookup n = none) :
    (names.foldl (fun t m => (SymbolTable.Define t m).2) (SymbolTable.enclosed o st k)).Resolve n
      = o.Resolve n := by
  induction names generalizing st k with
  | nil => simpa using resolve_enclosed_of_not_stored o st k n h
  | cons m ms ih =>
    simp only [List.foldl_cons, SymbolTable.Define]
    apply ih
    · exact fun hmem => hn (List.mem_cons_of_mem _ hmem)
    · rw [lookup_storeSet_other _ _ _ _ (fun e => hn (by simp [e]))]
      exact h

theorem resolve_false_iff (s : SymbolTable) (n : String) :
    (s.Resolve n).2 = false ↔ ∀ f ∈ s.chain, f.definesName n = false := by
  induction s with
  | root st k =>
    cases h : st.lookup n <;>
      simp only [SymbolTable.Resolve, SymbolTable.chain, SymbolTable.definesName,
        SymbolTable.store, h, List.mem_singleton, forall_eq, Option.isSome_none,
        Option.isSome_some, Bool.true_eq_false]
  | enclosed o st k ih =>
    cases h : st.lookup n <;>
      simp only [SymbolTable.Resolve, SymbolTable.chain, SymbolTable.definesName,
        SymbolTable.store, h, List.mem_cons, forall_eq_or_imp, Option.isSome_none,
        Option.isSome_some, Bool.true_eq_false, true_and, false_and, ih]

/-- C6. `Resolve` right after `Define` of the same name on a frame returns the
symbol `Define` returned, with `true`; in a frame enclosed in `s` (made by
`NewEnclosed` and any later `Define` of other names, or any frame whose
`Outer` is `s`) that does not store the name, `Resolve` returns what `s.Resolve`
returns; and `Resolve` returns `false` exactly when no frame of the chain
stores the name. -/
theorem C6_symbol_resolution (s : SymbolTable) (n : String) :
    (s.Define n).2.Resolve n = ((s.Define n).1, true)
    ∧ (∀ names : List String, n ∉ names →
        (names.foldl (fun t m => (SymbolTable.Define t m).2) s.NewEnclosed).Resolve n
          = s.Resolve n)
    ∧ (∀ e : SymbolTable, e.Outer = some s → e.definesName n = false →
        e.Resolve n = s.Resolve n)
    ∧ ((s.Resolve n).2 = false ↔ ∀ f ∈ s.chain, f.definesName n = false) := by
  refine ⟨resolve_define s n, ?_, ?_, resolve_false_iff s n⟩
  · intro names hn
    exact defineAll_enclosed s names n hn [] 0 rfl
  · intro e he hd
    cases e with
    | root st k => simp [SymbolTable.Outer] at he
    | enclosed o st k =>
      simp only [SymbolTable.Outer, Option.some.injEq] at he
      subst he
      apply resolve_enclosed_of_not_stored
      simpa [SymbolTable.definesName, SymbolTable.store] using hd


/-! ## Compiler: evaluation lemmas -/

theorem compilerM_pure_apply {α : Type} (a : α) (c : Compiler) :
    (pure a : CompilerM α) c = .ok a c := rfl

theorem compilerM_bind_apply {α β : Type} (m : CompilerM α) (f : α → CompilerM β) (c : Compiler) :
    (m >>= f) c = (match m c with
      | .ok a c1 => f a c1
      | .error msg c1 => .error msg c1
      | .crash msg => .crash msg) := rfl

theorem Make_nullary (op : Opcode) (name : String) (h : definitions op = some ⟨name, []⟩) :
    Make op [] = some [op] := by
  simp [Make, h, putOperands]

theorem Make_wide (op : Opcode) (name : String) (o : Nat) (h : definitions op = some ⟨name, [2]⟩) :
    Make op [o] = some [op, o / 256 % 256, o % 256] := by
  simp [Make, h, putOperands, putOperand]

theorem Make_narrow (op : Opcode) (name : String) (o : Nat) (h : definitions op = some ⟨name, [1]⟩) :
    Make op [o] = some [op, o % 256] := by
  simp [Make, h, putOperands, putOperand]

theorem emit_apply (op : Opcode) (operands : List Nat) (ins : List Nat) (c : Compiler)
    (h : Make op operands = some ins) :
    emit op operands c = .ok c.instructions.length { c with instructions := c.instructions ++ ins } := by
  simp [emit, h]

theorem compile_int (v : Int) (c : Compiler) :
    Compile (.IntegerLiteral v) c = .ok ()
      { c with instructions := c.instructions ++ [OpConstant, c.constants.length / 256 % 256, c.constants.length % 256],
               constants := c.constants ++ [.Integer v] } := by
  simp only [Compile, compilerM_bind_apply, addConstant,
    emit_apply _ _ _ _ (Make_wide OpConstant "OpConstant" _ rfl), compilerM_pure_apply]

theorem compile_arith (a b : Int) (op : String) (code : Opcode) (name : String)
    (hdef : definitions code = some ⟨name, []⟩)
    (hop : (op, code) ∈ [("+", OpAdd), ("-", OpSub), ("*", OpMul), ("/", OpDiv)]) :
    Compile (.InfixExpression (.IntegerLiteral a) op (.IntegerLiteral b)) compiler.New = .ok ()
      ⟨[OpConstant, 0, 0, OpConstant, 0, 1, code], [.Integer a, .Integer b], NewSymbolTable⟩ := by
  simp only [List.mem_cons, Prod.mk.injEq, List.mem_singleton, List.not_mem_nil, or_false] at hop
  rcases hop with ⟨rfl, rfl⟩ | ⟨rfl, rfl⟩ | ⟨rfl, rfl⟩ | ⟨rfl, rfl⟩ <;>
  · rw [Compile]
    simp only [String.reduceEq, or_self, if_false, if_true, compilerM_bind_apply, compile_int,
      emit_apply _ _ _ _ (Make_nullary _ _ hdef), compilerM_pure_apply, compiler.New]
    simp



theorem vmm_pure_apply {α : Type} (a : α) (m : VM) :
    (pure a : VMM α) m = .ok a m := rfl

theorem vmm_bind_apply {α β : Type} (x : VMM α) (f : α → VMM β) (m : VM) :
    (x >>= f) m = (match x m with
      | .ok a m1 => f a m1
      | .error msg m1 => .error msg m1
      | .crash msg => .crash msg
      | .outOfFuel => .outOfFuel) := rfl

theorem wrapInt64_spec (x : Int) : IsInt64Of (wrapInt64 x) x := by
  unfold IsInt64Of IsInt64 wrapInt64
  refine ⟨⟨by omega, by omega⟩, ?_⟩
  exact ⟨-((x + 2 ^ 63) / 2 ^ 64), by omega⟩

/-- The machine after the two `OpConstant` instructions that push constants 0 and 1. -/
theorem run_two_constants (x y : Object) (rest : List Nat) (n : Nat) :
    Run (n + 2) (vm.New (OpConstant :: 0 :: 0 :: OpConstant :: 0 :: 1 :: rest) [x, y])
      = Run n
          { constants := [x, y], globals := fun _ => none,
            stack := Function.update (Function.update (fun _ => none) 0 (some x)) 1 (some y),
            sp := 2, ip := 6, instructions := OpConstant :: 0 :: 0 :: OpConstant :: 0 :: 1 :: rest,
            output := [] } := by
  simp [Run, vmm_bind_apply, vmm_pure_apply, execute, readByte, advance, readUint16, constantAt,
    push, vm.New]


/-- Running `OpConstant 0; OpConstant 1; op` for an arithmetic opcode on two integers. -/
theorem run_arith (a b : Int) (n : Nat) :
    (∃ m, Run (n + 4) (vm.New [OpConstant, 0, 0, OpConstant, 0, 1, OpAdd] [.Integer a, .Integer b])
        = .ok () m ∧ m.sp = 1 ∧ m.stack 0 = some (.Integer (wrapInt64 (a + b))))
    ∧ (∃ m, Run (n + 4) (vm.New [OpConstant, 0, 0, OpConstant, 0, 1, OpSub] [.Integer a, .Integer b])
        = .ok () m ∧ m.sp = 1 ∧ m.stack 0 = some (.Integer (wrapInt64 (a - b))))
    ∧ (∃ m, Run (n + 4) (vm.New [OpConstant, 0, 0, OpConstant, 0, 1, OpMul] [.Integer a, .Integer b])
        = .ok () m ∧ m.sp = 1 ∧ m.stack 0 = some (.Integer (wrapInt64 (a * b))))
    ∧ (b ≠ 0 →
        ∃ m, Run (n + 4) (vm.New [OpConstant, 0, 0, OpConstant, 0, 1, OpDiv] [.Integer a, .Integer b])
        = .ok () m ∧ m.sp = 1 ∧ m.stack 0 = some (.Integer (wrapInt64 (Int.tdiv a b))))
    ∧ (b = 0 →
        ∃ m, Run (n + 4) (vm.New [OpConstant, 0, 0, OpConstant, 0, 1, OpDiv] [.Integer a, .Integer b])
        = .error "division by zero" m ∧ m.sp = 0 ∧ ∀ i, m.stack i = none) := by
  refine ⟨?_, ?_, ?_, ?_, ?_⟩
  · rw [show n + 4 = (n + 2) + 2 from rfl, run_two_constants]
    simp [Run, vmm_bind_apply, vmm_pure_apply, execute, readByte, advance, push, pop,
      executeBinaryOperation, asInteger]
  · rw [show n + 4 = (n + 2) + 2 from rfl, run_two_constants]
    simp [Run, vmm_bind_apply, vmm_pure_apply, execute, readByte, advance, push, pop,
      executeBinaryOperation, asInteger]
  · rw [show n + 4 = (n + 2) + 2 from rfl, run_two_constants]
    simp [Run, vmm_bind_apply, vmm_pure_apply, execute, readByte, advance, push, pop,
      executeBinaryOperation, asInteger]
  · intro hb
    rw [show n + 4 = (n + 2) + 2 from rfl, run_two_constants]
    simp [Run, vmm_bind_apply, vmm_pure_apply, execute, readByte, advance, push, pop,
      executeBinaryOperation, asInteger, hb]
  · intro hb
    rw [show n + 4 = (n + 2) + 2 from rfl, run_two_constants]
    simp [Run, vmm_bind_apply, vmm_pure_apply, execute, readByte, advance, push, pop,
      executeBinaryOperation, asInteger, hb, vm.fail]
    intro i
    simp [Function.update]
    omega


/-- What `executeBang` does to a machine whose operand is on the stack. -/
theorem executeBang_on (vm : VM) (h0 : 0 < vm.sp) (h1 : vm.sp ≤ StackSize) :
    executeBang vm = .ok ()
      { vm with
        stack := Function.update vm.stack (vm.sp - 1)
                  (some (.Boolean (match vm.stack (vm.sp - 1) with
                    | some (.Boolean v) => !v
                    | some .Null => true
                    | _ => false))) } := by
  have hne : vm.sp ≠ 0 := by omega
  have hlt : vm.sp - 1 < StackSize := by omega
  have hge : ¬ (vm.sp - 1 ≥ StackSize) := by omega
  have hsp : vm.sp - 1 + 1 = vm.sp := by omega
  simp only [executeBang, bind, VMM.bind, pop, hne, if_false, hlt, if_true]
  cases hv : vm.stack (vm.sp - 1) with
  | none => simp [push, hge, hsp]
  | some o => cases o <;> simp [push, hge, hsp]


theorem execute_OpBang (run : VMM Unit) (m : VM) :
    execute run OpBang m =
      (match executeBang m with
        | .ok _ m1 => .ok true m1
        | .error msg m1 => .error msg m1
        | .crash msg => .crash msg
        | .outOfFuel => .outOfFuel) := by
  simp only [execute, OpBang, OpConstant, OpAdd, OpSub, OpMul, OpDiv, OpTrue, OpFalse, OpNull,
    OpEqual, OpNotEqual, OpGreaterThan, OpGreaterEqual, OpLessThan, OpLessEqual]
  simp only [bind, pure]
  simp only [Nat.reduceEqDiff, OfNat.ofNat_ne_zero, if_false, or_self, if_true]
  unfold VMM.bind
  cases executeBang m <;> rfl

/-- The machine after `OpBang` on a machine whose operand is on the stack. -/
theorem execute_OpBang_on (run : VMM Unit) (m : VM) (h0 : 0 < m.sp) (h1 : m.sp ≤ StackSize) :
    ∃ m1, execute run OpBang m = .ok true m1 ∧ m1.sp = m.sp
      ∧ m1.stack (m.sp - 1) = some (.Boolean (match m.stack (m.sp - 1) with
                    | some (.Boolean v) => !v
                    | some .Null => true
                    | _ => false)) := by
  rw [execute_OpBang, executeBang_on m h0 h1]
  exact ⟨_, rfl, rfl, by simp⟩

/-- C5. `OpBang` on a machine whose top of stack is the operand: applied twice
to a boolean it gives the boolean back, on null it gives true, on an integer
false; the stack pointer is the same after each execution. -/
theorem C5_bang_laws (run : VMM Unit) (m : VM) (h0 : 0 < m.sp) (h1 : m.sp ≤ StackSize) :
    (∀ b : Bool, m.stack (m.sp - 1) = some (.Boolean b) →
      ∃ m1 m2, execute run OpBang m = .ok true m1 ∧ execute run OpBang m1 = .ok true m2
        ∧ m1.sp = m.sp ∧ m1.stack (m.sp - 1) = some (.Boolean (!b))
        ∧ m2.sp = m.sp ∧ m2.stack (m.sp - 1) = some (.Boolean b))
    ∧ (m.stack (m.sp - 1) = some .Null →
      ∃ m1, execute run OpBang m = .ok true m1
        ∧ m1.sp = m.sp ∧ m1.stack (m.sp - 1) = some (.Boolean true))
    ∧ (∀ i : Int, m.stack (m.sp - 1) = some (.Integer i) →
      ∃ m1, execute run OpBang m = .ok true m1
        ∧ m1.sp = m.sp ∧ m1.stack (m.sp - 1) = some (.Boolean false)) := by
  refine ⟨?_, ?_, ?_⟩
  · intro b hb
    obtain ⟨m1, e1, s1, v1⟩ := execute_OpBang_on run m h0 h1
    obtain ⟨m2, e2, s2, v2⟩ := execute_OpBang_on run m1 (s1 ▸ h0) (s1 ▸ h1)
    rw [hb] at v1
    rw [s1, v1] at v2
    exact ⟨m1, m2, e1, e2, s1, v1, s2.trans s1, by simpa using v2⟩
  · intro hb
    obtain ⟨m1, e1, s1, v1⟩ := execute_OpBang_on run m h0 h1
    rw [hb] at v1
    exact ⟨m1, e1, s1, v1⟩
  · intro i hb
    obtain ⟨m1, e1, s1, v1⟩ := execute_OpBang_on run m h0 h1
    rw [hb] at v1
    exact ⟨m1, e1, s1, v1⟩

/-- C5 at a machine whose only stack slot holds `Integer 0`. -/
theorem C5_bang_laws_witness :
    ∃ m1, execute (Run 0) OpBang
        { (New [] []) with stack := Function.update (fun _ => none) 0 (some (.Integer 0)), sp := 1 }
          = .ok true m1
        ∧ m1.sp = 1 ∧ m1.stack 0 = some (.Boolean false) :=
  (C5_bang_laws (Run 0)
    { (New [] []) with stack := Function.update (fun _ => none) 0 (some (.Integer 0)), sp := 1 }
    (by decide) (by decide)).2.2 0 (by rfl)


theorem compile_less (a b : Node) (c : Compiler) :
    Compile (.InfixExpression a "<" b) c = Compile (.InfixExpression b ">" a) c
    ∧ Compile (.InfixExpression a "<" b) c
        = (do Compile b; Compile a; let _ ← emit OpGreaterThan []) c
    ∧ Compile (.InfixExpression a "<=" b) c = Compile (.InfixExpression b ">=" a) c
    ∧ Compile (.InfixExpression a "<=" b) c
        = (do Compile b; Compile a; let _ ← emit OpGreaterEqual []) c := by
  refine ⟨?_, ?_, ?_, ?_⟩ <;>
  · simp only [Compile, String.reduceEq, or_self, or_true, true_or, or_false, false_or, if_false,
      if_true]

theorem compile_int_less (a b : Int) :
    Compile (.InfixExpression (.IntegerLiteral a) "<" (.IntegerLiteral b)) compiler.New = .ok ()
      ⟨[OpConstant, 0, 0, OpConstant, 0, 1, OpGreaterThan], [.Integer b, .Integer a],
        NewSymbolTable⟩
    ∧ Compile (.InfixExpression (.IntegerLiteral a) "<=" (.IntegerLiteral b)) compiler.New = .ok ()
      ⟨[OpConstant, 0, 0, OpConstant, 0, 1, OpGreaterEqual], [.Integer b, .Integer a],
        NewSymbolTable⟩ := by
  constructor <;>
  · rw [Compile]
    simp only [String.reduceEq, or_self, or_true, true_or, if_false, if_true,
      compilerM_bind_apply, compile_int,
      emit_apply _ _ _ _ (Make_nullary OpGreaterThan "OpGreaterThan" rfl),
      emit_apply _ _ _ _ (Make_nullary OpGreaterEqual "OpGreaterEqual" rfl),
      compilerM_pure_apply, compiler.New]
    simp

theorem run_less (a b : Int) (n : Nat) :
    (∃ m, Run (n + 4)
        (vm.New [OpConstant, 0, 0, OpConstant, 0, 1, OpGreaterThan] [.Integer b, .Integer a])
        = .ok () m ∧ m.sp = 1 ∧ m.stack 0 = some (.Boolean (decide (a < b))))
    ∧ (∃ m, Run (n + 4)
        (vm.New [OpConstant, 0, 0, OpConstant, 0, 1, OpGreaterEqual] [.Integer b, .Integer a])
        = .ok () m ∧ m.sp = 1 ∧ m.stack 0 = some (.Boolean (decide (a ≤ b)))) := by
  refine ⟨?_, ?_⟩
  · rw [show n + 4 = (n + 2) + 2 from rfl, run_two_constants]
    simp [Run, vmm_bind_apply, vmm_pure_apply, execute, readByte, advance, push, pop,
      executeComparison, asInteger]
  · rw [show n + 4 = (n + 2) + 2 from rfl, run_two_constants]
    simp [Run, vmm_bind_apply, vmm_pure_apply, execute, readByte, advance, push, pop,
      executeComparison, asInteger]


/-! ## Claims on the compiler and the machine -/

/-- C1. Evaluation at `if (true) { fn f() { 1 } }` and at
`if (true) { fn() { 1 }; }`: Compile accepts both trees, and the code of the
compiled function it puts in the constants is the enclosing stream up to that
point followed by the body and `OpReturn`; it holds `OpJumpNotTruthy 9999`,
never patched, in a stream of 9 bytes, so it is not well-formed. -/
theorem C1_function_in_if_not_well_formed :
    Compile (.Program [.ExpressionStatement (.IfExpression (.Boolean true)
        (.BlockStatement [.FunctionStatement "f" []
          (.BlockStatement [.ExpressionStatement (.IntegerLiteral 1)])]) none)]) compiler.New
      = .ok ()
          { instructions := [0, 0, 0, 9, 0, 0, 17, 0, 9, 16],
            constants := [.Integer 1,
              .CompiledFunction [OpTrue, OpJumpNotTruthy, 39, 15, OpConstant, 0, 0, OpPop,
                OpReturn] 0 0],
            symTable := .root [("f", ⟨"f", 0, GlobalScope⟩)] 1 }
    ∧ Compile (.Program [.ExpressionStatement (.IfExpression (.Boolean true)
        (.BlockStatement [.ExpressionStatement (.FunctionLiteral []
          (.BlockStatement [.ExpressionStatement (.IntegerLiteral 1)]))]) none)]) compiler.New
      = .ok ()
          { instructions := [OpConstant, 0, 0, OpNull, OpJump, 0, 7, OpPop],
            constants := [.Integer 1,
              .CompiledFunction [OpTrue, OpJumpNotTruthy, 39, 15, OpConstant, 0, 0, OpPop,
                OpReturn] 0 0],
            symTable := .root [] 0 }
    ∧ WellFormed [OpTrue, OpJumpNotTruthy, 39, 15, OpConstant, 0, 0, OpPop, OpReturn] = false
    ∧ 39 * 256 + 15 = 9999 := by
  decide!

/-- C2. Evaluation at `let x = 5; fn f() { return 1; } print x;`: after the
function statement the top-level stream no longer holds the instructions of
`let x = 5` (they are inside the function's code instead), so the run reads
the unset global 0 and panics in `OpPrint` instead of printing 5. -/
theorem C2_function_literal_drops_outer_buffer :
    Compile (.Program [.LetStatement "x" (.IntegerLiteral 5),
        .FunctionStatement "f" [] (.BlockStatement [.ReturnStatement (some (.IntegerLiteral 1))]),
        .PrintStatement (.Identifier "x")]) compiler.New
      = .ok ()
          { instructions := [OpConstant, 0, 2, OpSetGlobal, 0, 1, OpGetGlobal, 0, 0, OpPrint],
            constants := [.Integer 5, .Integer 1,
              .CompiledFunction [OpConstant, 0, 0, OpSetGlobal, 0, 0, OpConstant, 0, 1,
                OpReturnValue, OpReturn] 0 0],
            symTable := .root [("f", ⟨"f", 1, GlobalScope⟩), ("x", ⟨"x", 0, GlobalScope⟩)] 2 }
    ∧ (Run 10 (vm.New [OpConstant, 0, 2, OpSetGlobal, 0, 1, OpGetGlobal, 0, 0, OpPrint]
          [.Integer 5, .Integer 1,
            .CompiledFunction [OpConstant, 0, 0, OpSetGlobal, 0, 0, OpConstant, 0, 1,
              OpReturnValue, OpReturn] 0 0])).crashMessage
        = some "nil pointer dereference" := by
  decide!

/-- C3. For 64-bit integers `a` and `b`, compiling `a op b` with a fresh
compiler and running the result on a fresh machine leaves one value on the
stack, `Integer r` with `r` the 64-bit two's-complement reduction of `a + b`,
`a - b`, `a * b`, and for `b ≠ 0` of the quotient truncated toward zero; for
`a / 0` the run returns the error `division by zero` with an empty stack. -/
theorem C3_integer_arithmetic (a b : Int) (_ha : IsInt64 a) (_hb : IsInt64 b) (n : Nat) :
    (∃ c m r, Compile (.InfixExpression (.IntegerLiteral a) "+" (.IntegerLiteral b)) compiler.New
        = .ok () c ∧ Run (n + 4) (vm.New c.instructions c.constants) = .ok () m
      ∧ m.sp = 1 ∧ m.stack 0 = some (.Integer r) ∧ IsInt64Of r (a + b))
    ∧ (∃ c m r, Compile (.InfixExpression (.IntegerLiteral a) "-" (.IntegerLiteral b)) compiler.New
        = .ok () c ∧ Run (n + 4) (vm.New c.instructions c.constants) = .ok () m
      ∧ m.sp = 1 ∧ m.stack 0 = some (.Integer r) ∧ IsInt64Of r (a - b))
    ∧ (∃ c m r, Compile (.InfixExpression (.IntegerLiteral a) "*" (.IntegerLiteral b)) compiler.New
        = .ok () c ∧ Run (n + 4) (vm.New c.instructions c.constants) = .ok () m
      ∧ m.sp = 1 ∧ m.stack 0 = some (.Integer r) ∧ IsInt64Of r (a * b))
    ∧ (b ≠ 0 →
        ∃ c m r, Compile (.InfixExpression (.IntegerLiteral a) "/" (.IntegerLiteral b)) compiler.New
        = .ok () c ∧ Run (n + 4) (vm.New c.instructions c.constants) = .ok () m
      ∧ m.sp = 1 ∧ m.stack 0 = some (.Integer r) ∧ IsInt64Of r (Int.tdiv a b))
    ∧ (b = 0 →
        ∃ c m, Compile (.InfixExpression (.IntegerLiteral a) "/" (.IntegerLiteral b)) compiler.New
        = .ok () c ∧ Run (n + 4) (vm.New c.instructions c.constants)
          = .error "division by zero" m
      ∧ m.sp = 0 ∧ ∀ i, m.stack i = none) := by
  obtain ⟨⟨m1, r1, s1, v1⟩, ⟨m2, r2, s2, v2⟩, ⟨m3, r3, s3, v3⟩, h4, h5⟩ := run_arith a b n
  refine ⟨⟨_, m1, _, compile_arith a b "+" OpAdd "OpAdd" rfl (by simp), r1, s1, v1,
      wrapInt64_spec _⟩,
    ⟨_, m2, _, compile_arith a b "-" OpSub "OpSub" rfl (by simp), r2, s2, v2, wrapInt64_spec _⟩,
    ⟨_, m3, _, compile_arith a b "*" OpMul "OpMul" rfl (by simp), r3, s3, v3, wrapInt64_spec _⟩,
    ?_, ?_⟩
  · intro hne
    obtain ⟨m4, r4, s4, v4⟩ := h4 hne
    exact ⟨_, m4, _, compile_arith a b "/" OpDiv "OpDiv" rfl (by simp), r4, s4, v4,
      wrapInt64_spec _⟩
  · intro he
    obtain ⟨m5, r5, s5, v5⟩ := h5 he
    exact ⟨_, m5, compile_arith a b "/" OpDiv "OpDiv" rfl (by simp), r5, s5, v5⟩

/-- C3 at `MinInt64 / -1`: the quotient `2^63` wraps around to `MinInt64`. -/
theorem C3_integer_arithmetic_witness :
    ∃ c m r, Compile (.InfixExpression (.IntegerLiteral (-9223372036854775808)) "/"
          (.IntegerLiteral (-1))) compiler.New = .ok () c
      ∧ Run 4 (vm.New c.instructions c.constants) = .ok () m
      ∧ m.sp = 1 ∧ m.stack 0 = some (.Integer r)
      ∧ IsInt64Of r (Int.tdiv (-9223372036854775808) (-1)) :=
  (C3_integer_arithmetic (-9223372036854775808) (-1) (by unfold IsInt64; decide)
    (by unfold IsInt64; decide) 0).2.2.2.1 (by decide)

/-- C4. Compiling `a < b` is compiling `b`, then `a`, then emitting
`OpGreaterThan`, which is what compiling `b > a` does; `a <= b` likewise with
`OpGreaterEqual` and `b >= a`.  For integers the compiled `a < b` and `a <= b`
run to `Boolean (a < b)` and `Boolean (a <= b)` on top of the stack. -/
theorem C4_less_than_law (a b : Node) (c : Compiler) (x y : Int) (n : Nat) :
    Compile (.InfixExpression a "<" b) c
        = (do Compile b; Compile a; let _ ← emit OpGreaterThan []) c
    ∧ Compile (.InfixExpression a "<" b) c = Compile (.InfixExpression b ">" a) c
    ∧ Compile (.InfixExpression a "<=" b) c
        = (do Compile b; Compile a; let _ ← emit OpGreaterEqual []) c
    ∧ Compile (.InfixExpression a "<=" b) c = Compile (.InfixExpression b ">=" a) c
    ∧ (∃ k m, Compile (.InfixExpression (.IntegerLiteral x) "<" (.IntegerLiteral y)) compiler.New
          = .ok () k ∧ Run (n + 4) (vm.New k.instructions k.constants) = .ok () m
        ∧ m.sp = 1 ∧ m.stack 0 = some (.Boolean (decide (x < y))))
    ∧ (∃ k m, Compile (.InfixExpression (.IntegerLiteral x) "<=" (.IntegerLiteral y)) compiler.New
          = .ok () k ∧ Run (n + 4) (vm.New k.instructions k.constants) = .ok () m
        ∧ m.sp = 1 ∧ m.stack 0 = some (.Boolean (decide (x ≤ y)))) := by
  obtain ⟨h1, h2, h3, h4⟩ := compile_less a b c
  obtain ⟨⟨m1, r1, s1, v1⟩, ⟨m2, r2, s2, v2⟩⟩ := run_less x y n
  exact ⟨h2, h1, h4, h3, ⟨_, m1, (compile_int_less x y).1, r1, s1, v1⟩,
    ⟨_, m2, (compile_int_less x y).2, r2, s2, v2⟩⟩


/-! ## Lexer: the states it goes through -/

theorem utf8.byteLen_append (s t : List Char) :
    utf8.byteLen (s ++ t) = utf8.byteLen s + utf8.byteLen t := by
  induction s with
  | nil => simp [utf8.byteLen]
  | cons c s ih => simp [utf8.byteLen, ih, Nat.add_assoc]

theorem utf8.length_le_byteLen (s : List Char) : s.length ≤ utf8.byteLen s := by
  induction s with
  | nil => simp [utf8.byteLen]
  | cons c s ih =>
    have := Char.utf8Size_pos c
    simp only [utf8.byteLen, List.length_cons]
    omega

theorem utf8.decode_at (pre : List Char) (c : Char) (post : List Char) :
    utf8.DecodeRuneInString (pre ++ c :: post) (utf8.byteLen pre) = (c, c.utf8Size) := by
  induction pre with
  | nil => simp [utf8.DecodeRuneInString, utf8.byteLen]
  | cons p pre ih =>
    have hp := Char.utf8Size_pos p
    have h1 : ¬ (p.utf8Size + utf8.byteLen pre = 0) := by omega
    have h2 : ¬ (p.utf8Size + utf8.byteLen pre < p.utf8Size) := by omega
    simp only [List.cons_append, List.append_eq, utf8.DecodeRuneInString, utf8.byteLen, h1, h2, if_false,
      Nat.add_sub_cancel_left, ih]

theorem utf8.dropBytes_at (pre post : List Char) :
    utf8.dropBytes (pre ++ post) (utf8.byteLen pre) = post := by
  induction pre with
  | nil => cases post <;> simp [utf8.dropBytes, utf8.byteLen]
  | cons p pre ih =>
    have hp := Char.utf8Size_pos p
    have h1 : ¬ (p.utf8Size + utf8.byteLen pre = 0) := by omega
    simp only [List.cons_append, List.append_eq, utf8.dropBytes, utf8.byteLen, h1, if_false,
      Nat.add_sub_cancel_left, ih]

theorem utf8.takeBytes_at (mid rest : List Char) :
    utf8.takeBytes (mid ++ rest) (utf8.byteLen mid) = mid := by
  induction mid with
  | nil =>
    cases rest with
    | nil => simp [utf8.takeBytes]
    | cons r rest =>
      have hr := Char.utf8Size_pos r
      simp [utf8.takeBytes, utf8.byteLen, hr]
  | cons p mid ih =>
    have h2 : ¬ (p.utf8Size + utf8.byteLen mid < p.utf8Size) := by omega
    simp only [List.cons_append, List.append_eq, utf8.takeBytes, utf8.byteLen, h2, if_false,
      Nat.add_sub_cancel_left, ih]

theorem utf8.slice_at (pre mid rest : List Char) :
    utf8.slice (pre ++ (mid ++ rest)) (utf8.byteLen pre) (utf8.byteLen (pre ++ mid)) = mid := by
  simp only [utf8.slice, utf8.dropBytes_at, utf8.byteLen_append, Nat.add_sub_cancel_left,
    utf8.takeBytes_at]


theorem lexer.columnAfter_snoc (pre : List Char) (c : Char) :
    columnAfter (pre ++ [c]) = if c = newline then 0 else columnAfter pre + 1 := by
  unfold columnAfter
  by_cases h : c = newline
  · simp [h, List.takeWhile]
  · simp [h, List.takeWhile]

theorem lexer.readRune_input (l : Lexer) : (readRune l).input = l.input := by
  simp only [readRune]
  split_ifs <;> rfl

theorem lexer.readRune_step (l : Lexer) (pre : List Char) (c d : Char) (post : List Char)
    (h : AtChar l pre c (d :: post)) : AtChar (readRune l) (pre ++ [c]) d post := by
  obtain ⟨hin, hpos, hrp, hch, hline, hcol⟩ := h
  have hd := Char.utf8Size_pos d
  have hlen : utf8.byteLen l.input
      = utf8.byteLen pre + c.utf8Size + (d.utf8Size + utf8.byteLen post) := by
    rw [hin]
    simp [utf8.byteLen_append, utf8.byteLen, Nat.add_assoc]
  have hnot : ¬ (l.readPosition ≥ utf8.byteLen l.input) := by omega
  have hrp2 : l.readPosition = utf8.byteLen (pre ++ [c]) := by
    simp [utf8.byteLen_append, utf8.byteLen, hrp]
  have hdec : utf8.DecodeRuneInString l.input l.readPosition = (d, d.utf8Size) := by
    rw [hrp2, hin, show pre ++ c :: d :: post = (pre ++ [c]) ++ d :: post by simp]
    exact utf8.decode_at _ _ _
  have hin2 : l.input = (pre ++ [c]) ++ d :: post := by simp [hin]
  unfold readRune
  rw [if_neg hnot, hdec]
  by_cases hnl : d = Char.ofNat 0x0A
  · rw [if_pos hnl]
    refine ⟨hin2, hrp2, by simp [hrp2], rfl, ?_, ?_⟩
    · show l.line + 1 = 1 + List.count newline ((pre ++ [c]) ++ [d])
      have h1 : List.count newline [d] = 1 := by rw [hnl]; decide
      rw [List.count_append, hline, h1]
      omega
    · rw [lexer.columnAfter_snoc]
      simp [hnl, newline]
  · rw [if_neg hnl]
    refine ⟨hin2, hrp2, by simp [hrp2], rfl, ?_, ?_⟩
    · show l.line = 1 + List.count newline ((pre ++ [c]) ++ [d])
      have h0 : List.count newline [d] = 0 :=
        List.count_eq_zero.mpr (fun hm => hnl (List.mem_singleton.mp hm).symm)
      rw [List.count_append, hline, h0]
      rfl
    · rw [lexer.columnAfter_snoc (pre ++ [c]) d]
      simp [hnl, newline, hcol]

theorem lexer.readRune_last (l : Lexer) (pre : List Char) (c : Char)
    (h : AtChar l pre c []) : readRune l = { l with width := 0, ch := Char.ofNat 0 } := by
  obtain ⟨hin, hpos, hrp, hch, hline, hcol⟩ := h
  have hlen : utf8.byteLen l.input = utf8.byteLen pre + c.utf8Size := by
    rw [hin]
    simp [utf8.byteLen_append, utf8.byteLen]
  unfold readRune
  rw [if_pos (by omega)]

theorem lexer.readRune_atEnd (l : Lexer) (h : AtEnd l) :
    readRune l = { l with width := 0, ch := Char.ofNat 0 } := by
  unfold readRune
  rw [if_pos h.2.1]

theorem lexer.atEnd_of_last (l : Lexer) (pre : List Char) (c : Char)
    (h : AtChar l pre c []) : AtEnd (readRune l) := by
  rw [lexer.readRune_last l pre c h]
  obtain ⟨hin, hpos, hrp, hch, hline, hcol⟩ := h
  refine ⟨rfl, ?_, pre, [c], hin, hpos⟩
  show utf8.byteLen l.input ≤ l.readPosition
  rw [hin, hrp]
  simp [utf8.byteLen_append, utf8.byteLen]

theorem lexer.atEnd_readRune (l : Lexer) (h : AtEnd l) : AtEnd (readRune l) := by
  rw [lexer.readRune_atEnd l h]
  exact ⟨rfl, h.2.1, h.2.2⟩

theorem lexer.reachable_readRune (l : Lexer) (h : Reachable l) : Reachable (readRune l) := by
  rcases h with ⟨pre, c, post, h⟩ | h
  · cases post with
    | nil => exact Or.inr (lexer.atEnd_of_last l pre c h)
    | cons d post => exact Or.inl ⟨_, _, _, lexer.readRune_step l pre c d post h⟩
  · exact Or.inr (lexer.atEnd_readRune l h)

theorem lexer.reachable_New (input : List Char) : Reachable (lexer.New input) := by
  cases input with
  | nil =>
    right
    refine ⟨?_, ?_, [], [], ?_, ?_⟩ <;> simp [lexer.New, readRune, utf8.byteLen]
  | cons c post =>
    left
    refine ⟨[], c, post, ?_⟩
    have hc := Char.utf8Size_pos c
    have hnot : ¬ (0 ≥ utf8.byteLen (c :: post)) := by
      simp only [utf8.byteLen]
      omega
    unfold lexer.New readRune
    simp only [hnot, if_false, utf8.DecodeRuneInString, if_true]
    by_cases hnl : c = Char.ofNat 0x0A
    · rw [if_pos hnl]
      refine ⟨rfl, rfl, by simp [utf8.byteLen], rfl, ?_, ?_⟩
      · simp [hnl, newline]
      · simp [columnAfter, hnl, newline]
    · rw [if_neg hnl]
      refine ⟨rfl, rfl, by simp [utf8.byteLen], rfl, ?_, ?_⟩
      · show 1 = 1 + List.count newline ([] ++ [c])
        have h0 : List.count newline [c] = 0 :=
          List.count_eq_zero.mpr (fun hm => hnl (List.mem_singleton.mp hm).symm)
        rw [List.nil_append, h0]
      · have hb : (c != Char.ofNat 10) = true := by simpa using hnl
        simp [columnAfter, newline, List.takeWhile, hb]


theorem lexer.readWhile_input (p : Char → Bool) (n : Nat) (l : Lexer) :
    (readWhile p n l).input = l.input := by
  induction n generalizing l with
  | zero => rfl
  | succ n ih =>
    unfold readWhile
    split_ifs
    · rw [ih, lexer.readRune_input]
    · rfl

theorem lexer.readWhile_atEnd (p : Char → Bool) (n : Nat) (l : Lexer) (h : AtEnd l) :
    AtEnd (readWhile p n l) ∧ (readWhile p n l).position = l.position := by
  induction n generalizing l with
  | zero => exact ⟨h, rfl⟩
  | succ n ih =>
    unfold readWhile
    split_ifs
    · obtain ⟨h1, h2⟩ := ih (readRune l) (lexer.atEnd_readRune l h)
      refine ⟨h1, h2.trans ?_⟩
      rw [lexer.readRune_atEnd l h]
    · exact ⟨h, rfl⟩

/-- From a code point of the input the loop stops at a later code point or at
the end, having moved `position` over a part `mid` of what lay ahead. -/
theorem lexer.readWhile_atChar (p : Char → Bool) (n : Nat) (l : Lexer) (pre : List Char)
    (c : Char) (post : List Char) (h : AtChar l pre c post) :
    ∃ mid rest, c :: post = mid ++ rest
      ∧ (readWhile p n l).position = utf8.byteLen (pre ++ mid)
      ∧ Reachable (readWhile p n l) := by
  induction n generalizing l pre c post with
  | zero => exact ⟨[], c :: post, rfl, by simpa using h.2.1, Or.inl ⟨_, _, _, h⟩⟩
  | succ n ih =>
    unfold readWhile
    split_ifs
    · cases post with
      | nil =>
        obtain ⟨h1, h2⟩ := lexer.readWhile_atEnd p n _ (lexer.atEnd_of_last l pre c h)
        refine ⟨[], [c], rfl, ?_, Or.inr h1⟩
        rw [h2, lexer.readRune_last l pre c h]
        simpa using h.2.1
      | cons d post =>
        obtain ⟨mid, rest, e, hp, hr⟩ := ih (readRune l) (pre ++ [c]) d post
          (lexer.readRune_step l pre c d post h)
        refine ⟨c :: mid, rest, by simp [e], ?_, hr⟩
        simpa using hp
    · exact ⟨[], c :: post, rfl, by simpa using h.2.1, Or.inl ⟨_, _, _, h⟩⟩

theorem lexer.reachable_readWhile (p : Char → Bool) (n : Nat) (l : Lexer) (h : Reachable l) :
    Reachable (readWhile p n l) := by
  rcases h with ⟨pre, c, post, h⟩ | h
  · obtain ⟨_, _, _, _, hr⟩ := lexer.readWhile_atChar p n l pre c post h
    exact hr
  · exact Or.inr (lexer.readWhile_atEnd p n l h).1

/-- With the bound the callers pass, the loop ends because its condition
fails, as the loop of the source does. -/
theorem lexer.readWhile_done (p : Char → Bool) (hp : p (Char.ofNat 0) = false) (n : Nat)
    (l : Lexer) (h : Reachable l) (hn : utf8.byteLen l.input + 1 ≤ n) :
    p (readWhile p n l).ch = false := by
  have key : ∀ (n : Nat) (l : Lexer), Reachable l →
      (l.ch ≠ Char.ofNat 0 → utf8.byteLen l.input - l.readPosition + 2 ≤ n) → 1 ≤ n →
      p (readWhile p n l).ch = false := by
    intro n
    induction n with
    | zero =>
      intro l _ _ h2
      omega
    | succ n ih =>
      intro l h h1 h2
      unfold readWhile
      by_cases hc : p l.ch = true
      · rw [if_pos hc]
        have hne : l.ch ≠ Char.ofNat 0 := by
          intro e
          rw [e, hp] at hc
          exact absurd hc (by simp)
        have hfuel := h1 hne
        rcases h with ⟨pre, c, post, h⟩ | h
        · cases post with
          | nil =>
            have he := lexer.atEnd_of_last l pre c h
            apply ih _ (Or.inr he)
            · intro hne2
              exact absurd he.1 hne2
            · omega
          | cons d post =>
            have hs := lexer.readRune_step l pre c d post h
            apply ih _ (Or.inl ⟨_, _, _, hs⟩)
            · intro _
              have e1 := hs.2.2.1
              have e2 := h.2.2.1
              have e3 := h.1
              have hd := Char.utf8Size_pos d
              rw [lexer.readRune_input, e1]
              rw [e3, e2] at hfuel
              rw [e3]
              simp only [utf8.byteLen_append, utf8.byteLen] at hfuel ⊢
              omega
            · omega
        · exact absurd h.1 hne
      · rw [if_neg hc]
        simpa using hc
  apply key n l h
  · intro hne
    rcases h with ⟨pre, c, post, h⟩ | h
    · have e2 := h.2.2.1
      have hc := Char.utf8Size_pos c
      have e3 : utf8.byteLen l.input
          = utf8.byteLen pre + (c.utf8Size + utf8.byteLen post) := by
        rw [h.1]
        simp only [utf8.byteLen_append, utf8.byteLen]
      omega
    · exact absurd h.1 hne
  · omega


theorem ite_elim {α : Type} (P : α → Prop) (c : Prop) [Decidable c] (a b : α)
    (ha : c → P a) (hb : ¬ c → P b) : P (if c then a else b) := by
  by_cases h : c
  · rw [if_pos h]; exact ha h
  · rw [if_neg h]; exact hb h

theorem lexer.reachable_skipWhitespace (T : Tables) (l : Lexer) (h : Reachable l) :
    Reachable (skipWhitespace T l) :=
  lexer.reachable_readWhile _ _ l h

theorem lexer.skipWhitespace_input (T : Tables) (l : Lexer) :
    (skipWhitespace T l).input = l.input :=
  lexer.readWhile_input _ _ l

theorem lexer.skipWhitespace_done (T : Tables) (l : Lexer) (h : Reachable l) :
    IsSpace T (skipWhitespace T l).ch = false :=
  lexer.readWhile_done (IsSpace T) (by simp [IsSpace]) _ l h (Nat.le_refl _)

/-- The loop of `readIdentifier` ends because its condition fails. -/
theorem lexer.readIdentifier_done (T : Tables) (l : Lexer) (h : Reachable l) :
    (isLetter T (readIdentifier T l).2.ch || IsDigit T (readIdentifier T l).2.ch
      || decide ((readIdentifier T l).2.ch = Char.ofNat 0x5F)) = false :=
  lexer.readWhile_done (fun ch => isLetter T ch || IsDigit T ch || ch = Char.ofNat 0x5F) rfl _ l h
    (Nat.le_refl _)

/-- The loop of `readNumber` ends because its condition fails. -/
theorem lexer.readNumber_done (T : Tables) (l : Lexer) (h : Reachable l) :
    IsDigit T (readNumber T l).2.ch = false :=
  lexer.readWhile_done (IsDigit T) rfl _ l h (Nat.le_refl _)

/-- Whatever the branch of the `switch`, the lexer stays in a state of the
input, and the token carries the position the lexer had. -/
theorem lexer.scanToken_frame (T : Tables) (l : Lexer) (h1 : Reachable l) :
    Reachable (scanToken T l).2 ∧ (scanToken T l).2.input = l.input
      ∧ (scanToken T l).1.Pos = ⟨l.line, l.column, l.position⟩ := by
  have h2 := lexer.reachable_readRune _ h1
  have h3 := lexer.reachable_readRune _ h2
  have h4 : Reachable (readIdentifier T l).2 :=
    lexer.reachable_readWhile _ _ _ h1
  have h5 : Reachable (readNumber T l).2 :=
    lexer.reachable_readWhile _ _ _ h1
  have i2 : (readRune l).input = l.input := lexer.readRune_input l
  have i3 : (readRune (readRune l)).input = l.input := by
    rw [lexer.readRune_input, i2]
  have i4 : (readIdentifier T l).2.input = l.input := lexer.readWhile_input _ _ _
  have i5 : (readNumber T l).2.input = l.input := lexer.readWhile_input _ _ _
  unfold scanToken
  dsimp only
  repeat' refine ite_elim (fun r : Token × Lexer => Reachable r.2 ∧ r.2.input = l.input
      ∧ r.1.Pos = ⟨l.line, l.column, l.position⟩) _ _ _ (fun _ => ?_) (fun _ => ?_)
  all_goals exact ⟨by assumption, by assumption, rfl⟩

theorem lexer.scanToken_eof (T : Tables) (l : Lexer) (h : l.ch = Char.ofNat 0) :
    (scanToken T l).1.Typ = EOF := by
  unfold scanToken
  dsimp only
  rw [h]
  rfl

theorem lexer.peekRune_atChar (l : Lexer) (pre : List Char) (c : Char) (post : List Char)
    (h : AtChar l pre c post) : peekRune l = post.headD (Char.ofNat 0) := by
  obtain ⟨hin, hpos, hrp, hch, hline, hcol⟩ := h
  cases post with
  | nil =>
    have hlen : utf8.byteLen l.input = utf8.byteLen pre + c.utf8Size := by
      rw [hin]
      simp [utf8.byteLen_append, utf8.byteLen]
    unfold peekRune
    rw [if_pos (by omega)]
    rfl
  | cons d post =>
    have hd := Char.utf8Size_pos d
    have hlen : utf8.byteLen l.input
        = utf8.byteLen pre + c.utf8Size + (d.utf8Size + utf8.byteLen post) := by
      rw [hin]
      simp [utf8.byteLen_append, utf8.byteLen, Nat.add_assoc]
    have hrp2 : l.readPosition = utf8.byteLen (pre ++ [c]) := by
      simp [utf8.byteLen_append, utf8.byteLen, hrp]
    unfold peekRune
    rw [if_neg (by omega), hrp2, hin, show pre ++ c :: d :: post = (pre ++ [c]) ++ d :: post by simp,
      utf8.decode_at]
    rfl

theorem lexer.readWhile_slice (p : Char → Bool) (n : Nat) (l : Lexer) (pre : List Char)
    (c : Char) (post : List Char) (h : AtChar l pre c post) :
    utf8.slice (readWhile p n l).input l.position (readWhile p n l).position <+: c :: post := by
  obtain ⟨mid, rest, e, hp, _⟩ := lexer.readWhile_atChar p n l pre c post h
  rw [lexer.readWhile_input, hp, h.1, h.2.1, e, utf8.slice_at]
  exact List.prefix_append _ _

/-- A literal of one code point, the current one, starts what lies ahead. -/
theorem lexer.single_prefix (l : Lexer) (pre : List Char) (c x : Char) (post : List Char)
    (h : AtChar l pre c post) (hx : l.ch = x) : [x] <+: c :: post := by
  rw [← hx, h.2.2.2.1]
  exact ⟨post, rfl⟩

/-- A two-code-point operator, read with a peek at `=`, starts what lies ahead. -/
theorem lexer.double_prefix (l : Lexer) (pre : List Char) (c x : Char) (post : List Char)
    (h : AtChar l pre c post) (hx : l.ch = x) (hp : peekRune l = '=') :
    [x, '='] <+: c :: post := by
  rw [lexer.peekRune_atChar l pre c post h] at hp
  cases post with
  | nil => exact absurd hp (by decide)
  | cons d post =>
    simp only [List.headD_cons] at hp
    rw [← hx, h.2.2.2.1, hp]
    exact ⟨post, rfl⟩

/-- The literal of a token that is not `EOF` starts what lies ahead of the
position at which the lexer stood. -/
theorem lexer.scanToken_literal (T : Tables) (l : Lexer) (pre : List Char) (c : Char)
    (post : List Char) (hat : AtChar l pre c post) :
    (scanToken T l).1.Typ ≠ EOF → (scanToken T l).1.Literal.data <+: c :: post := by
  have hid : (readIdentifier T l).1.data <+: c :: post := lexer.readWhile_slice _ _ l pre c post hat
  have hnum : (readNumber T l).1.data <+: c :: post := lexer.readWhile_slice _ _ l pre c post hat
  unfold scanToken
  dsimp only
  repeat' refine ite_elim (fun r : Token × Lexer =>
      r.1.Typ ≠ EOF → r.1.Literal.data <+: c :: post) _ _ _ (fun h => ?_) (fun h => ?_)
  all_goals intro hne
  all_goals first
    | exact absurd rfl hne
    | exact hid
    | exact hnum
    | exact lexer.single_prefix l pre c _ post hat (by assumption)
    | exact lexer.double_prefix l pre c _ post hat (by assumption) (by assumption)
    | exact lexer.single_prefix l pre c l.ch post hat rfl


theorem lexer.New_input (input : List Char) : (lexer.New input).input = input := by
  unfold lexer.New
  rw [lexer.readRune_input]

/-- One call of `NextToken` from a state of the input: the lexer stays in a
state of the same input, and a token other than `EOF` carries the position of
its first code point. -/
theorem lexer.NextToken_spec (T : Tables) (l : Lexer) (h : Reachable l) :
    Reachable (NextToken T l).2 ∧ (NextToken T l).2.input = l.input
      ∧ ((NextToken T l).1.Typ ≠ EOF → TokenAt l.input (NextToken T l).1) := by
  have hr := lexer.reachable_skipWhitespace T l h
  have hin := lexer.skipWhitespace_input T l
  have hsp := lexer.skipWhitespace_done T l h
  obtain ⟨f1, f2, f3⟩ := lexer.scanToken_frame T (skipWhitespace T l) hr
  unfold NextToken
  refine ⟨f1, f2.trans hin, fun hne => ?_⟩
  rcases hr with ⟨pre, c, post, hat⟩ | he
  · have hlit := lexer.scanToken_literal T _ pre c post hat hne
    have hc : c ≠ newline := by
      intro e
      rw [hat.2.2.2.1, e] at hsp
      have ht : IsSpace T newline = true := rfl
      rw [ht] at hsp
      exact absurd hsp (by decide)
    refine ⟨pre, c :: post, ?_, List.cons_ne_nil _ _, hlit, ?_, ?_, ?_⟩
    · rw [← hin, hat.1]
    · rw [f3]
      exact hat.2.1
    · rw [f3]
      show (skipWhitespace T l).line = _
      rw [hat.2.2.2.2.1, List.count_append,
        List.count_eq_zero.mpr (fun hm => hc (List.mem_singleton.mp hm).symm)]
      rfl
    · rw [f3]
      show (skipWhitespace T l).column = _
      rw [hat.2.2.2.2.2, lexer.columnAfter_snoc, if_neg hc, Nat.add_comm]
  · exact absurd (lexer.scanToken_eof T _ he.1) hne

theorem lexer.lexerAfter_spec (T : Tables) (input : List Char) (k : Nat) :
    Reachable (lexerAfter T input k) ∧ (lexerAfter T input k).input = input := by
  induction k with
  | zero => exact ⟨lexer.reachable_New input, lexer.New_input input⟩
  | succ k ih =>
    obtain ⟨h1, h2, _⟩ := lexer.NextToken_spec T _ ih.1
    exact ⟨h1, h2.trans ih.2⟩

theorem lexer.nthToken_position (T : Tables) (input : List Char) (k : Nat)
    (h : (nthToken T input k).Typ ≠ EOF) : TokenAt input (nthToken T input k) := by
  obtain ⟨h1, h2⟩ := lexer.lexerAfter_spec T input k
  have := (lexer.NextToken_spec T _ h1).2.2 h
  rw [h2] at this
  exact this

/-! ## Lexer: Latin-1 text does not consult the range tables -/

theorem lexer.ch_latin1 (l : Lexer) (h : Reachable l) (hL : Latin1 l.input) :
    l.ch.toNat ≤ MaxLatin1 := by
  rcases h with ⟨pre, c, post, hat⟩ | he
  · rw [hat.2.2.2.1]
    apply hL
    rw [hat.1]
    simp
  · rw [he.1]
    decide

theorem lexer.readWhile_congr (p q : Char → Bool)
    (hpq : ∀ c : Char, c.toNat ≤ MaxLatin1 → p c = q c) (n : Nat) (l : Lexer)
    (h : Reachable l) (hL : Latin1 l.input) : readWhile p n l = readWhile q n l := by
  induction n generalizing l with
  | zero => rfl
  | succ n ih =>
    unfold readWhile
    rw [hpq _ (lexer.ch_latin1 l h hL),
      ih (readRune l) (lexer.reachable_readRune l h) (by rw [lexer.readRune_input]; exact hL)]

theorem unicode.IsSpace_latin1 (T T' : Tables) (c : Char) (h : c.toNat ≤ MaxLatin1) :
    IsSpace T c = IsSpace T' c := by
  simp only [IsSpace, h, if_true]

theorem unicode.IsDigit_latin1 (T T' : Tables) (c : Char) (h : c.toNat ≤ MaxLatin1) :
    IsDigit T c = IsDigit T' c := by
  simp only [IsDigit, h, if_true]

theorem unicode.IsLetter_latin1 (T T' : Tables) (c : Char) (h : c.toNat ≤ MaxLatin1) :
    isLetter T c = isLetter T' c := by
  simp only [isLetter, IsLetter, h, if_true]

theorem lexer.scanToken_congr (T T' : Tables) (l : Lexer) (h : Reachable l)
    (hL : Latin1 l.input) : scanToken T l = scanToken T' l := by
  have hc := lexer.ch_latin1 l h hL
  have e1 := unicode.IsLetter_latin1 T T' l.ch hc
  have e2 := unicode.IsDigit_latin1 T T' l.ch hc
  have e3 : readIdentifier T l = readIdentifier T' l := by
    unfold readIdentifier
    dsimp only
    rw [lexer.readWhile_congr _ (fun ch => isLetter T' ch || IsDigit T' ch || ch = Char.ofNat 0x5F)
      (fun c hc => by
        show (isLetter T c || IsDigit T c || decide (c = Char.ofNat 0x5F))
          = (isLetter T' c || IsDigit T' c || decide (c = Char.ofNat 0x5F))
        rw [unicode.IsLetter_latin1 T T' c hc, unicode.IsDigit_latin1 T T' c hc]) _ l h hL]
  have e4 : readNumber T l = readNumber T' l := by
    unfold readNumber
    dsimp only
    rw [lexer.readWhile_congr _ (IsDigit T') (unicode.IsDigit_latin1 T T') _ l h hL]
  unfold scanToken
  dsimp only
  rw [e1, e2, e3, e4]

theorem lexer.NextToken_congr (T T' : Tables) (l : Lexer) (h : Reachable l)
    (hL : Latin1 l.input) : NextToken T l = NextToken T' l := by
  unfold NextToken
  have e : skipWhitespace T l = skipWhitespace T' l :=
    lexer.readWhile_congr _ _ (unicode.IsSpace_latin1 T T') _ l h hL
  rw [e]
  exact lexer.scanToken_congr T T' _ (lexer.reachable_skipWhitespace T' l h)
    (by rw [lexer.skipWhitespace_input]; exact hL)

theorem lexer.lexerAfter_congr (T T' : Tables) (input : List Char) (hL : Latin1 input) (k : Nat) :
    lexerAfter T input k = lexerAfter T' input k := by
  induction k with
  | zero => rfl
  | succ k ih =>
    obtain ⟨h1, h2⟩ := lexer.lexerAfter_spec T' input k
    show (NextToken T (lexerAfter T input k)).2 = (NextToken T' (lexerAfter T' input k)).2
    rw [ih, lexer.NextToken_congr T T' _ h1 (by rw [h2]; exact hL)]

/-- On Latin-1 text the tokens do not depend on the range tables. -/
theorem lexer.nthToken_congr (T T' : Tables) (input : List Char) (hL : Latin1 input) (k : Nat) :
    nthToken T input k = nthToken T' input k := by
  obtain ⟨h1, h2⟩ := lexer.lexerAfter_spec T' input k
  unfold nthToken
  rw [lexer.lexerAfter_congr T T' input hL k,
    lexer.NextToken_congr T T' _ h1 (by rw [h2]; exact hL)]


/-! ## Claims on the lexer -/

/-- C7. Evaluation at the input `123`: the first token is `INT` with the
literal `12`, the last digit of a number that ends the input is lost (the
lexer does not move `position` when it reaches the end of input); followed by
`;` the same digits give the literal `123`. -/
theorem C7_number_at_end_of_input (T : Tables) :
    nthToken T ['1', '2', '3'] 0 = ⟨INT, "12", ⟨1, 1, 0⟩⟩
    ∧ nthToken T ['1', '2', '3', ';'] 0 = ⟨INT, "123", ⟨1, 1, 0⟩⟩ :=
  ⟨(lexer.nthToken_congr T emptyTables _ (by decide) 0).trans (by decide!),
   (lexer.nthToken_congr T emptyTables _ (by decide) 0).trans (by decide!)⟩

/-- C8. Evaluation at the input `print`: the first token is `IDENT` with the
literal `prin`, the last code point of an identifier that ends the input is
lost and the keyword is not recognised; followed by `;` the same word gives
the keyword token `PRINT` with the literal `print`. -/
theorem C8_identifier_at_end_of_input (T : Tables) :
    nthToken T ['p', 'r', 'i', 'n', 't'] 0 = ⟨IDENT, "prin", ⟨1, 1, 0⟩⟩
    ∧ nthToken T ['p', 'r', 'i', 'n', 't', ';'] 0 = ⟨PRINT, "print", ⟨1, 1, 0⟩⟩ :=
  ⟨(lexer.nthToken_congr T emptyTables _ (by decide) 0).trans (by decide!),
   (lexer.nthToken_congr T emptyTables _ (by decide) 0).trans (by decide!)⟩

/-- C9. Every token other than `EOF` that a sequence of `NextToken` calls
returns carries the position of its first code point: its literal starts at
byte offset `Offset` of the input, `Line` is 1 plus the number of line feeds
before it and `Column` is 1 plus the number of code points between the last
line feed before it (or the start) and it. -/
theorem C9_token_position (T : Tables) (input : List Char) (k : Nat)
    (h : (nthToken T input k).Typ ≠ EOF) : TokenAt input (nthToken T input k) :=
  lexer.nthToken_position T input k h

/-- C9 at the second token of the input `a`, line feed, space, `b`, `;`. -/
theorem C9_token_position_witness :
    nthToken emptyTables ['a', '\n', ' ', 'b', ';'] 1 = ⟨IDENT, "b", ⟨2, 2, 3⟩⟩
    ∧ TokenAt ['a', '\n', ' ', 'b', ';'] (nthToken emptyTables ['a', '\n', ' ', 'b', ';'] 1) :=
  ⟨by decide!, C9_token_position emptyTables ['a', '\n', ' ', 'b', ';'] 1 (by decide!)⟩

/-- C10. Evaluation at the input `@`, U+0000, `@`: the first call returns
`ILLEGAL` for `@`, the second call returns `EOF` for the NUL code point
although the input is not exhausted, and the third call goes on to return
`ILLEGAL` for the second `@`. -/
theorem C10_nul_is_lexed_as_eof (T : Tables) :
    nthToken T ['@', Char.ofNat 0, '@'] 0 = ⟨ILLEGAL, "@", ⟨1, 1, 0⟩⟩
    ∧ nthToken T ['@', Char.ofNat 0, '@'] 1 = ⟨EOF, "", ⟨1, 2, 1⟩⟩
    ∧ nthToken T ['@', Char.ofNat 0, '@'] 2 = ⟨ILLEGAL, "@", ⟨1, 3, 2⟩⟩ :=
  ⟨(lexer.nthToken_congr T emptyTables _ (by decide) 0).trans (by decide!),
   (lexer.nthToken_congr T emptyTables _ (by decide) 1).trans (by decide!),
   (lexer.nthToken_congr T emptyTables _ (by decide) 2).trans (by decide!)⟩

/-! ## Encoding and decoding of instructions -/

theorem shiftLeft8_or (hi lo : Nat) (h : lo < 256) : hi <<< 8 ||| lo = hi * 256 + lo := by
  rw [Nat.shiftLeft_eq, Nat.mul_comm hi (2 ^ 8)]
  exact (Nat.mul_add_lt_is_or (i := 8) h hi).symm

theorem lookup_mem {α β : Type} [BEq α] [LawfulBEq α] (l : List (α × β)) (a : α) (b : β)
    (h : l.lookup a = some b) : (a, b) ∈ l := by
  induction l with
  | nil => simp [List.lookup] at h
  | cons e l ih =>
    obtain ⟨k, v⟩ := e
    by_cases hk : a == k
    · simp only [List.lookup, hk, Option.some.injEq] at h
      have : a = k := by simpa using hk
      simp [this, h]
    · simp only [List.lookup, hk] at h
      exact List.mem_cons_of_mem _ (ih h)

/-- Every operand width in the `definitions` table is 1 or 2. -/
theorem definitions_widths (op : Opcode) (d : Definition) (h : definitions op = some d) :
    ∀ w ∈ d.OperandWidths, w = 1 ∨ w = 2 := by
  have hall : ∀ e ∈ definitionsTable, ∀ w ∈ e.2.OperandWidths, w = 1 ∨ w = 2 := by decide
  exact hall (op, d) (lookup_mem _ _ _ h)

theorem bigEndian_one (o : Nat) : bigEndian 1 o = [o % 256] := by
  simp [bigEndian, List.range_succ]

theorem bigEndian_two (o : Nat) : bigEndian 2 o = [o / 256 % 256, o % 256] := by
  simp [bigEndian, List.range_succ]

theorem get?_append_cons {α : Type} (pre : List α) (x : α) (rest : List α) :
    (pre ++ x :: rest).get? pre.length = some x := by
  induction pre with
  | nil => rfl
  | cons p pre ih => simpa using ih

theorem get?_append_cons_succ {α : Type} (pre : List α) (x y : α) (rest : List α) :
    (pre ++ x :: y :: rest).get? (pre.length + 1) = some y := by
  induction pre with
  | nil => rfl
  | cons p pre ih => simpa using ih

/-- Writing operands that fit their widths and reading them back, anywhere in
a byte sequence. -/
theorem readOperandsFrom_putOperands (ws os : List Nat)
    (h : List.Forall₂ (fun o w => o < 256 ^ w) os ws) (hw : ∀ w ∈ ws, w = 1 ∨ w = 2)
    (pre post : List Nat) :
    ∃ bytes, putOperands ws os = some bytes ∧ bytes.length = ws.sum
      ∧ bytes = (List.zipWith bigEndian ws os).flatten
      ∧ readOperandsFrom ws (pre ++ (bytes ++ post)) pre.length
          = some (os, pre.length + ws.sum) := by
  induction h generalizing pre with
  | nil => exact ⟨[], by simp [putOperands], rfl, by simp, by simp [readOperandsFrom]⟩
  | @cons o w os ws hlt _ ih =>
    have hw' : ∀ w ∈ ws, w = 1 ∨ w = 2 := fun x hx => hw x (List.mem_cons_of_mem _ hx)
    rcases hw w (List.mem_cons_self _ _) with rfl | rfl
    · obtain ⟨bytes, hp, hl, hb, hr⟩ := ih hw' (pre ++ [o % 256])
      have hmod : o % 256 = o := Nat.mod_eq_of_lt (by simpa using hlt)
      refine ⟨o % 256 :: bytes, ?_, ?_, ?_, ?_⟩
      · simp [putOperands, hp, putOperand]
      · simp [hl, Nat.add_comm]
      · simp [hb, bigEndian_one]
      · have hget := get?_append_cons pre (o % 256) (bytes ++ post)
        rw [List.append_assoc, List.singleton_append, List.length_append,
          List.length_singleton] at hr
        rw [List.cons_append, readOperandsFrom, if_neg (by decide), if_pos rfl, hget, hr, hmod,
          List.sum_cons, Nat.add_assoc]
    · obtain ⟨bytes, hp, hl, hb, hr⟩ := ih hw' (pre ++ [o / 256 % 256, o % 256])
      have hval : (o / 256 % 256) <<< 8 ||| (o % 256) = o := by
        rw [shiftLeft8_or _ _ (Nat.mod_lt _ (by decide))]
        have : o < 65536 := by simpa using hlt
        omega
      refine ⟨o / 256 % 256 :: o % 256 :: bytes, ?_, ?_, ?_, ?_⟩
      · simp [putOperands, hp, putOperand]
      · simp [hl]; omega
      · simp [hb, bigEndian_two]
      · have hget0 := get?_append_cons pre (o / 256 % 256) (o % 256 :: (bytes ++ post))
        have hget1 := get?_append_cons_succ pre (o / 256 % 256) (o % 256) (bytes ++ post)
        rw [List.append_assoc, List.cons_append, List.cons_append, List.nil_append,
          List.length_append, List.length_cons, List.length_singleton] at hr
        rw [List.cons_append, List.cons_append, readOperandsFrom, if_pos rfl, hget0, hget1, hr]
        simp [hval, Nat.add_assoc]

theorem make_read_round_trip (op : Opcode) (operands : List Nat) (d : Definition)
    (h : ValidInstruction op operands d) :
    ∃ bytes, Make op operands = some (op :: bytes)
      ∧ (op :: bytes).length = 1 + d.OperandWidths.sum
      ∧ bytes = (List.zipWith bigEndian d.OperandWidths operands).flatten
      ∧ Lookup op = .ok d
      ∧ ∀ post, ReadOperands d (bytes ++ post) = some (operands, d.OperandWidths.sum) := by
  obtain ⟨hd, hf⟩ := h
  obtain ⟨bytes, hp, hl, hb, _⟩ :=
    readOperandsFrom_putOperands _ _ hf (definitions_widths op d hd) [] []
  refine ⟨bytes, by simp [Make, hd, hp], by simp [hl, Nat.add_comm], hb, by simp [Lookup, hd], ?_⟩
  intro post
  obtain ⟨bytes', hp', _, _, hr⟩ :=
    readOperandsFrom_putOperands _ _ hf (definitions_widths op d hd) [] post
  rw [hp] at hp'
  cases hp'
  simpa [ReadOperands] using hr

/-! ## Disassembly -/

theorem definitions_widths_length (op : Opcode) (d : Definition) (h : definitions op = some d) :
    d.OperandWidths.length ≤ 1 := by
  have hall : ∀ e ∈ definitionsTable, e.2.OperandWidths.length ≤ 1 := by decide
  exact hall (op, d) (lookup_mem _ _ _ h)

theorem fmtInstruction_valid (op : Opcode) (operands : List Nat) (d : Definition)
    (h : ValidInstruction op operands d) :
    fmtInstruction d operands
      = opcodeName op ++ String.join (operands.map fun o => " " ++ toString o) := by
  obtain ⟨hd, hf⟩ := h
  have hlen := hf.length_eq
  have hle := definitions_widths_length op d hd
  have hname : opcodeName op = d.Name := by simp [opcodeName, hd]
  rw [hname]
  match operands, hlen with
  | [], hlen =>
    simp [fmtInstruction, ← hlen, String.join]
  | [a], hlen =>
    simp [fmtInstruction, ← hlen, String.join, String.append_assoc]
  | a :: b :: rest, hlen =>
    rw [← hlen] at hle
    simp at hle

theorem drop_append_cons {α : Type} (pre : List α) (x : α) (rest : List α) :
    (pre ++ x :: rest).drop (pre.length + 1) = rest := by
  induction pre with
  | nil => rfl
  | cons p pre ih => simp

/-- The loop of `String` over the part of a stream that is the encoding of
valid instructions, from the offset at which that part starts. -/
theorem stringLoop_assemble (prog : List (Opcode × List Nat))
    (hv : ∀ e ∈ prog, ∃ d, ValidInstruction e.1 e.2 d) :
    ∃ ins, assemble prog = some ins ∧ ∀ (n : Nat) (pre : List Nat) (out : String),
      stringLoop (prog.length + 1 + n) (pre ++ ins) pre.length out
        = .done (out ++ disassembly pre.length prog) := by
  induction prog with
  | nil =>
    refine ⟨[], rfl, fun n pre out => ?_⟩
    have hnone : (pre ++ []).get? pre.length = none := by simp
    rw [show [].length + 1 + n = n + 1 by simp [Nat.add_comm], stringLoop, hnone]
    simp [disassembly]
  | cons e prog ih =>
    obtain ⟨op, operands⟩ := e
    obtain ⟨d, hvalid⟩ := hv (op, operands) (List.mem_cons_self _ _)
    obtain ⟨tail, htail, hloop⟩ := ih (fun e he => hv e (List.mem_cons_of_mem _ he))
    obtain ⟨bytes, hmake, hlen, _, hlook, hread⟩ := make_read_round_trip op operands d hvalid
    refine ⟨(op :: bytes) ++ tail, by simp [assemble, hmake, htail], fun n pre out => ?_⟩
    have hget : (pre ++ ((op :: bytes) ++ tail)).get? pre.length = some op := by
      rw [List.cons_append]
      exact get?_append_cons pre op (bytes ++ tail)
    have hdrop : (pre ++ ((op :: bytes) ++ tail)).drop (pre.length + 1) = bytes ++ tail := by
      rw [List.cons_append]
      exact drop_append_cons pre op (bytes ++ tail)
    have hnext : pre.length + 1 + d.OperandWidths.sum = (pre ++ (op :: bytes)).length := by
      rw [List.length_append, hlen]
      omega
    have hfuel : (List.length ((op, operands) :: prog) + 1 + n) = (prog.length + 1 + n) + 1 := by
      simp only [List.length_cons]
      omega
    rw [hfuel, stringLoop, hget]
    simp only [hlook, hdrop, hread tail]
    rw [hnext, ← List.append_assoc, hloop n (pre ++ (op :: bytes)) _]
    rw [fmtInstruction_valid op operands d hvalid]
    simp only [disassembly, hmake, Option.getD_some, List.length_append, String.append_assoc]

theorem string_assemble (prog : List (Opcode × List Nat))
    (hv : ∀ e ∈ prog, ∃ d, ValidInstruction e.1 e.2 d) :
    ∃ ins, assemble prog = some ins
      ∧ ∀ fuel, prog.length + 1 ≤ fuel →
          Instructions.String fuel ins = .done (disassembly 0 prog) := by
  obtain ⟨ins, hins, hloop⟩ := stringLoop_assemble prog hv
  refine ⟨ins, hins, fun fuel hf => ?_⟩
  obtain ⟨n, rfl⟩ := Nat.exists_eq_add_of_le hf
  have := hloop n [] ""
  simpa [Instructions.String] using this

/-! ## Machine: one step, and the range of the stack pointer -/

/-- One iteration of the loop of `Run` at an opcode. -/
theorem run_succ (fuel : Nat) (m : VM) (op : Nat) (h : m.instructions.get? m.ip = some op) :
    Run (fuel + 1) m =
      (match execute (Run fuel) op { m with ip := m.ip + 1 } with
        | .ok true m1 => Run fuel m1
        | .ok false m1 => .ok () m1
        | .error msg m1 => .error msg m1
        | .crash msg => .crash msg
        | .outOfFuel => .outOfFuel) := by
  have hlt : m.ip < m.instructions.length := by
    by_contra hn
    rw [List.get?_eq_none.mpr (by omega)] at h
    exact absurd h (by simp)
  rw [Run]
  simp only [hlt, if_true, vmm_bind_apply, readByte, h, advance]
  cases execute (Run fuel) op { m with ip := m.ip + 1 } with
  | ok a m1 => cases a <;> rfl
  | error msg m1 => rfl
  | crash msg => rfl
  | outOfFuel => rfl

theorem run_end (fuel : Nat) (m : VM) (h : m.instructions.length ≤ m.ip) :
    Run (fuel + 1) m = .ok () m := by
  rw [Run]
  simp only [Nat.not_lt.mpr h, if_false]

theorem keeps_weaken {α : Type} (x : VMM α) (Q : α → Prop) (h : Keeps x Q) :
    Keeps x (fun _ => True) := by
  intro m hm
  have := h m hm
  cases hx : x m with
  | ok a m1 => rw [hx] at this; exact ⟨this.1, trivial⟩
  | error msg m1 => rw [hx] at this; exact this
  | crash msg => trivial
  | outOfFuel => trivial

theorem keeps_pure {α : Type} (a : α) : Keeps (pure a : VMM α) (fun _ => True) :=
  fun _ hm => ⟨hm, trivial⟩

theorem keeps_bind {α β : Type} (x : VMM α) (f : α → VMM β) (Q : α → Prop) (R : β → Prop)
    (hx : Keeps x Q) (hf : ∀ a, Q a → Keeps (f a) R) : Keeps (x >>= f) R := by
  intro m hm
  have h1 := hx m hm
  rw [vmm_bind_apply]
  cases hxm : x m with
  | ok a m1 =>
    rw [hxm] at h1
    exact hf a h1.2 m1 h1.1
  | error msg m1 =>
    rw [hxm] at h1
    exact h1
  | crash msg => trivial
  | outOfFuel => trivial

theorem keeps_fail {α : Type} (msg : String) (R : α → Prop) : Keeps (vm.fail msg : VMM α) R :=
  fun _ hm => hm

theorem keeps_crash {α : Type} (msg : String) (R : α → Prop) : Keeps (vm.crash msg : VMM α) R :=
  fun _ _ => trivial

theorem keeps_push (o : Option Object) : Keeps (push o) (fun _ => True) := by
  intro m hm
  unfold push
  by_cases h : m.sp ≥ StackSize
  · simp only [h, if_true]
    exact hm
  · simp only [h, if_false]
    exact ⟨by show m.sp + 1 ≤ StackSize; omega, trivial⟩

theorem keeps_pop : Keeps pop (fun _ => True) := by
  intro m hm
  unfold pop
  by_cases h0 : m.sp = 0
  · simp only [h0, if_true]
    exact ⟨by omega, trivial⟩
  · have h1 : m.sp - 1 < StackSize := by omega
    simp only [h0, if_false, h1, if_true]
    exact ⟨by show m.sp - 1 ≤ StackSize; omega, trivial⟩

/-- An action that reads the machine or changes fields other than the stack
pointer. -/
theorem keeps_of_sp {α : Type} (x : VMM α) (Q : α → Prop)
    (h : ∀ m : VM, match x m with
      | .ok a m1 => m1.sp = m.sp ∧ Q a
      | .error _ m1 => m1.sp = m.sp
      | _ => True) : Keeps x Q := by
  intro m hm
  have := h m
  cases hx : x m with
  | ok a m1 =>
    rw [hx] at this
    exact ⟨by show m1.sp ≤ StackSize; rw [this.1]; exact hm, this.2⟩
  | error msg m1 =>
    rw [hx] at this
    show m1.sp ≤ StackSize
    rw [this]
    exact hm
  | crash msg => trivial
  | outOfFuel => trivial

theorem keeps_advance (n : Nat) : Keeps (advance n) (fun _ => True) :=
  keeps_of_sp _ _ (fun _ => ⟨rfl, trivial⟩)

theorem keeps_jump (n : Nat) : Keeps (jump n) (fun _ => True) :=
  keeps_of_sp _ _ (fun _ => ⟨rfl, trivial⟩)

theorem keeps_readByte : Keeps readByte (fun _ => True) := by
  apply keeps_of_sp
  intro m
  unfold readByte
  cases m.instructions.get? m.ip <;> simp

theorem keeps_readUint16 : Keeps readUint16 (fun _ => True) := by
  apply keeps_of_sp
  intro m
  unfold readUint16
  cases m.instructions.get? m.ip <;> cases m.instructions.get? (m.ip + 1) <;> simp

theorem keeps_constantAt (i : Nat) : Keeps (constantAt i) (fun _ => True) := by
  apply keeps_of_sp
  intro m
  unfold constantAt
  cases m.constants.get? i <;> simp

theorem keeps_globalAt (i : Nat) : Keeps (globalAt i) (fun _ => True) := by
  apply keeps_of_sp
  intro m
  unfold globalAt
  by_cases h : i < GlobalsSize <;> simp [h]

theorem keeps_setGlobal (i : Nat) (o : Option Object) : Keeps (setGlobal i o) (fun _ => True) := by
  apply keeps_of_sp
  intro m
  unfold setGlobal
  by_cases h : i < GlobalsSize <;> simp [h]

theorem keeps_inspect (o : Option Object) : Keeps (inspect o) (fun _ => True) := by
  apply keeps_of_sp
  intro m
  cases o <;> simp [inspect, vmm_pure_apply, vm.crash]

theorem keeps_calleeSlot (argc : Nat) :
    Keeps (calleeSlot argc) (fun r => r.1 < StackSize) := by
  apply keeps_of_sp
  intro m
  unfold calleeSlot
  by_cases h : m.sp < argc + 1
  · simp [h]
  · by_cases h2 : m.sp - argc - 1 < StackSize <;> simp [h, h2]

theorem keeps_executeBinaryOperation (op : Opcode) :
    Keeps (executeBinaryOperation op) (fun _ => True) := by
  unfold executeBinaryOperation
  refine keeps_bind _ _ _ _ keeps_pop (fun right _ => ?_)
  refine keeps_bind _ _ _ _ keeps_pop (fun left _ => ?_)
  cases asInteger left <;> cases asInteger right <;> dsimp only
  · exact keeps_fail _ _
  · exact keeps_fail _ _
  · exact keeps_fail _ _
  · repeat' refine ite_elim (fun x : VMM Unit => Keeps x (fun _ => True)) _ _ _ (fun _ => ?_) (fun _ => ?_)
    all_goals first | exact keeps_push _ | exact keeps_fail _ _

theorem keeps_executeComparison (op : Opcode) :
    Keeps (executeComparison op) (fun _ => True) := by
  unfold executeComparison
  refine keeps_bind _ _ _ _ keeps_pop (fun right _ => ?_)
  refine keeps_bind _ _ _ _ keeps_pop (fun left _ => ?_)
  dsimp only
  repeat' refine ite_elim (fun x : VMM Unit => Keeps x (fun _ => True)) _ _ _ (fun _ => ?_) (fun _ => ?_)
  all_goals (cases asInteger left <;> cases asInteger right <;> try dsimp only)
  all_goals first
    | exact keeps_push _
    | exact keeps_fail _ _
    | exact keeps_bind _ _ _ _ (keeps_inspect _) (fun _ _ =>
        keeps_bind _ _ _ _ (keeps_inspect _) (fun _ _ => keeps_push _))

theorem keeps_executeBang : Keeps executeBang (fun _ => True) := by
  unfold executeBang
  refine keeps_bind _ _ _ _ keeps_pop (fun operand _ => ?_)
  rcases operand with _ | o
  · exact keeps_push _
  · cases o <;> exact keeps_push _

/-- The switch body keeps the stack pointer within the stack when the nested
run does. -/
theorem keeps_execute (run : VMM Unit) (hrun : Keeps run (fun _ => True)) (op : Opcode) :
    Keeps (execute run op) (fun _ => True) := by
  unfold execute
  repeat' refine ite_elim (fun x : VMM Bool => Keeps x (fun _ => True)) _ _ _ (fun _ => ?_) (fun _ => ?_)
  all_goals repeat' first
    | exact keeps_pure _
    | exact keeps_push _
    | exact keeps_fail _ _
    | exact keeps_pop
    | exact keeps_readUint16
    | exact keeps_readByte
    | exact keeps_advance _
    | exact keeps_jump _
    | exact keeps_constantAt _
    | exact keeps_globalAt _
    | exact keeps_setGlobal _ _
    | exact keeps_inspect _
    | exact keeps_executeBinaryOperation _
    | exact keeps_executeComparison _
    | exact keeps_executeBang
    | exact hrun
    | exact keeps_of_sp _ _ (fun _ => ⟨rfl, trivial⟩)
    | exact fun _ _ => ⟨Nat.le_of_lt hr, trivial⟩
    | refine keeps_bind _ _ (fun r => r.1 < StackSize) _ (keeps_calleeSlot _) (fun r hr => ?_)
    | refine keeps_bind _ _ (fun _ => True) _ ?_ (fun _ _ => ?_)
    | split


/-- `Run` keeps the stack pointer within the stack. -/
theorem keeps_Run (fuel : Nat) : Keeps (Run fuel) (fun _ => True) := by
  induction fuel with
  | zero => exact fun _ _ => trivial
  | succ fuel ih =>
    intro m hm
    rw [Run]
    by_cases hlt : m.ip < m.instructions.length
    · simp only [hlt, if_true]
      refine keeps_bind _ _ (fun _ => True) _ keeps_readByte (fun op _ => ?_) m hm
      refine keeps_bind _ _ (fun _ => True) _ (keeps_advance _) (fun _ _ => ?_)
      refine keeps_bind _ _ (fun _ => True) _ (keeps_execute _ ih op) (fun goOn _ => ?_)
      cases goOn
      · exact keeps_pure _
      · exact ih
    · simp only [hlt, if_false]
      exact ⟨hm, trivial⟩

theorem run_sp_le (fuel : Nat) (m m1 : VM) (hm : m.sp ≤ StackSize)
    (h : Run fuel m = .ok () m1) : m1.sp ≤ StackSize := by
  have := keeps_Run fuel m hm
  rw [h] at this
  exact this.1

/-! ## Machine: the switch at given opcodes -/

theorem execute_push_ops (run : VMM Unit) (op : Opcode)
    (h : op = OpTrue ∨ op = OpFalse ∨ op = OpNull) :
    ∃ v : Object, execute run op = (do push (some v); pure true) := by
  rcases h with rfl | rfl | rfl
  · exact ⟨.Boolean true, rfl⟩
  · exact ⟨.Boolean false, rfl⟩
  · exact ⟨.Null, rfl⟩

theorem execute_binary (run : VMM Unit) (op : Opcode)
    (h : op = OpAdd ∨ op = OpSub ∨ op = OpMul ∨ op = OpDiv) :
    execute run op = (do executeBinaryOperation op; pure true) := by
  rcases h with rfl | rfl | rfl | rfl <;> rfl

theorem execute_comparison (run : VMM Unit) (op : Opcode)
    (h : op = OpEqual ∨ op = OpNotEqual ∨ op = OpGreaterThan ∨ op = OpGreaterEqual) :
    execute run op = (do executeComparison op; pure true) := by
  rcases h with rfl | rfl | rfl | rfl <;> rfl

theorem execute_OpMinus (run : VMM Unit) :
    execute run OpMinus = (do
      let right ← pop
      match asInteger right with
      | none => vm.fail ("unsupported negation operand " ++ typeName right)
      | some i =>
        push (some (.Integer (wrapInt64 (-i))))
        pure true) := rfl

theorem execute_OpReturn (run : VMM Unit) :
    execute run OpReturn = (do push (some .Null); pure false) := rfl

theorem execute_OpCall (run : VMM Unit) :
    execute run OpCall = (do
      let argc ← readByte
      advance 1
      let (retBase, fnObj) ← calleeSlot argc
      match fnObj with
      | some (.CompiledFunction fnInstructions _ _) =>
        let retIp ← (fun vm => Result.ok vm.ip vm)
        let savedIns ← (fun vm => Result.ok vm.instructions vm)
        (fun vm => Result.ok () { vm with instructions := fnInstructions, ip := 0 })
        run
        let retVal ← pop
        (fun vm => Result.ok () { vm with instructions := savedIns, ip := retIp, sp := retBase })
        push retVal
        pure true
      | _ => vm.fail ("calling non-function: " ++ typeName fnObj)) := rfl

/-! ## Machine: the ceiling of the stack -/

theorem push_ok (o : Option Object) (m : VM) (h : m.sp < StackSize) :
    push o m = .ok () { m with stack := Function.update m.stack m.sp o, sp := m.sp + 1 } := by
  unfold push
  rw [if_neg (by omega)]

theorem push_overflow (o : Option Object) (m : VM) (h : StackSize ≤ m.sp) :
    push o m = .error "stack overflow" m := by
  unfold push
  rw [if_pos h]

/-- A run of `k + 1` pushes from a stack with `k` free slots overflows at the
last of them. -/
theorem run_pushes_overflow (ins : List Nat)
    (hops : ∀ op ∈ ins, op = OpTrue ∨ op = OpFalse ∨ op = OpNull) (k : Nat) :
    ∀ (m : VM) (fuel : Nat), m.instructions = ins → m.sp + k = StackSize →
      m.ip + k < ins.length → k + 1 ≤ fuel →
      ∃ m1, Run fuel m = .error "stack overflow" m1 ∧ m1.sp = StackSize
        ∧ m1.ip = m.ip + k + 1 := by
  induction k with
  | zero =>
    intro m fuel hins hsp hip hfuel
    obtain ⟨f, rfl⟩ : ∃ f, fuel = f + 1 := ⟨fuel - 1, by omega⟩
    have hlt : m.ip < m.instructions.length := by rw [hins]; omega
    have hget : m.instructions.get? m.ip = some (m.instructions.get ⟨m.ip, hlt⟩) :=
      List.get?_eq_get hlt
    have hmem : m.instructions.get ⟨m.ip, hlt⟩ ∈ ins := by
      rw [← hins]
      exact List.get_mem _ _ _
    have hop := hops _ hmem
    obtain ⟨v, hv⟩ := execute_push_ops (Run f) _ hop
    rw [run_succ f m _ hget, hv, vmm_bind_apply, push_overflow _ _ (by show StackSize ≤ m.sp; omega)]
    exact ⟨_, rfl, by show m.sp = StackSize; omega, rfl⟩
  | succ k ih =>
    intro m fuel hins hsp hip hfuel
    obtain ⟨f, rfl⟩ : ∃ f, fuel = f + 1 := ⟨fuel - 1, by omega⟩
    have hlt : m.ip < m.instructions.length := by rw [hins]; omega
    have hget : m.instructions.get? m.ip = some (m.instructions.get ⟨m.ip, hlt⟩) :=
      List.get?_eq_get hlt
    have hmem : m.instructions.get ⟨m.ip, hlt⟩ ∈ ins := by
      rw [← hins]
      exact List.get_mem _ _ _
    have hop := hops _ hmem
    obtain ⟨v, hv⟩ := execute_push_ops (Run f) _ hop
    rw [run_succ f m _ hget, hv, vmm_bind_apply, push_ok _ _ (by show m.sp < StackSize; omega)]
    simp only [vmm_pure_apply]
    obtain ⟨m1, h1, h2, h3⟩ := ih
      { m with ip := m.ip + 1, stack := Function.update m.stack m.sp (some v), sp := m.sp + 1 } f
      hins (by show m.sp + 1 + k = StackSize; omega) (by show m.ip + 1 + k < ins.length; omega)
      (by omega)
    exact ⟨m1, h1, h2, by rw [h3]; show m.ip + 1 + k + 1 = m.ip + (k + 1) + 1; omega⟩

/-! ## Machine: pops, type mismatch, calls -/

theorem pop_empty (m : VM) (h : m.sp = 0) : pop m = .ok (some .Null) m := by
  unfold pop
  rw [if_pos h]

theorem pop_top (m : VM) (h0 : 0 < m.sp) (h : m.sp ≤ StackSize) :
    pop m = .ok (m.stack (m.sp - 1))
      { m with sp := m.sp - 1, stack := Function.update m.stack (m.sp - 1) none } := by
  unfold pop
  rw [if_neg (by omega), if_pos (by omega)]

theorem pop_ok (m : VM) (h : m.sp ≤ StackSize) :
    ∃ v m1, pop m = .ok v m1 ∧ m1.sp = m.sp - 1 ∧ (m.sp = 0 → v = some .Null)
      ∧ (0 < m.sp → v = m.stack (m.sp - 1)) := by
  by_cases h0 : m.sp = 0
  · exact ⟨_, _, pop_empty m h0, by omega, fun _ => rfl, fun hp => by omega⟩
  · exact ⟨_, _, pop_top m (by omega) h, rfl, fun e => absurd e h0, fun _ => rfl⟩

/-- Arithmetic, ordering and negation on operands that are not integers. -/
theorem type_mismatch (run : VMM Unit) (m : VM) (h : m.sp ≤ StackSize) :
    ∃ right left m1 m2, pop m = .ok right m1 ∧ pop m1 = .ok left m2 ∧ m2.sp = m.sp - 2
      ∧ (m.sp = 0 → right = some .Null) ∧ (m.sp ≤ 1 → left = some .Null)
      ∧ ((asInteger left = none ∨ asInteger right = none) →
          ∀ op, (op = OpAdd ∨ op = OpSub ∨ op = OpMul ∨ op = OpDiv ∨ op = OpGreaterThan
              ∨ op = OpGreaterEqual) →
            ∃ msg, execute run op m = .error msg m2)
      ∧ (asInteger right = none → ∃ msg, execute run OpMinus m = .error msg m1) := by
  obtain ⟨right, m1, hp1, hs1, hr0, _⟩ := pop_ok m h
  obtain ⟨left, m2, hp2, hs2, hl0, _⟩ := pop_ok m1 (by omega)
  refine ⟨right, left, m1, m2, hp1, hp2, by omega, hr0, fun h1 => hl0 (by omega), ?_, ?_⟩
  · intro hnot op hop
    rcases hop with rfl | rfl | rfl | rfl | rfl | rfl
    all_goals first
      | rw [execute_binary run _ (Or.inl rfl)]
      | rw [execute_binary run _ (Or.inr (Or.inl rfl))]
      | rw [execute_binary run _ (Or.inr (Or.inr (Or.inl rfl)))]
      | rw [execute_binary run _ (Or.inr (Or.inr (Or.inr rfl)))]
      | rw [execute_comparison run _ (Or.inr (Or.inr (Or.inl rfl)))]
      | rw [execute_comparison run _ (Or.inr (Or.inr (Or.inr rfl)))]
    all_goals simp only [executeBinaryOperation, executeComparison, vmm_bind_apply, hp1, hp2]
    all_goals cases hl : asInteger left <;> cases hr : asInteger right
    all_goals first
      | exact ⟨_, rfl⟩
      | (rw [hl, hr] at hnot; simp at hnot)
  · intro hnot
    rw [execute_OpMinus]
    simp only [vmm_bind_apply, hp1, hnot]
    exact ⟨_, rfl⟩

/-- The state after `OpCall argc` whose callee slot holds a compiled function
and whose nested run returned. -/
theorem call_returns (run : VMM Unit) (m m1 : VM) (argc : Nat) (fnCode : List Nat)
    (nl np : Nat) (harg : m.instructions.get? m.ip = some argc)
    (hsp : argc + 1 ≤ m.sp) (hle : m.sp ≤ StackSize)
    (hfn : m.stack (m.sp - argc - 1) = some (.CompiledFunction fnCode nl np))
    (hrun : run { m with ip := 0, instructions := fnCode } = .ok () m1)
    (h1 : m1.sp ≤ StackSize) :
    ∃ m2, execute run OpCall m = .ok true m2 ∧ m2.sp = m.sp - argc
      ∧ m2.stack (m.sp - argc - 1) = (if m1.sp = 0 then some .Null else m1.stack (m1.sp - 1))
      ∧ m2.instructions = m.instructions ∧ m2.ip = m.ip + 1 := by
  have hslot : calleeSlot argc { m with ip := m.ip + 1 }
      = .ok (m.sp - argc - 1, m.stack (m.sp - argc - 1)) { m with ip := m.ip + 1 } := by
    unfold calleeSlot
    rw [if_neg (by show ¬ m.sp < argc + 1; omega),
      if_pos (by show m.sp - argc - 1 < StackSize; omega)]
  obtain ⟨v, m1', hp, hs, hv0, hv1⟩ := pop_ok m1 h1
  have hbase : ¬ (m.sp - argc - 1 ≥ StackSize) := by omega
  rw [execute_OpCall]
  simp only [vmm_bind_apply, readByte, harg, advance, hslot, hfn, hrun, hp, push, hbase, if_false,
    vmm_pure_apply]
  refine ⟨_, rfl, by show m.sp - argc - 1 + 1 = m.sp - argc; omega, ?_, rfl, rfl⟩
  show Function.update m1'.stack (m.sp - argc - 1) v (m.sp - argc - 1) = _
  rw [Function.update_same]
  by_cases h0 : m1.sp = 0
  · rw [if_pos h0, hv0 h0]
  · rw [if_neg h0, hv1 (by omega)]

/-- `OpCall argc` on a callee slot that holds no compiled function. -/
theorem call_non_function (run : VMM Unit) (m : VM) (argc : Nat)
    (harg : m.instructions.get? m.ip = some argc)
    (hsp : argc + 1 ≤ m.sp) (hle : m.sp ≤ StackSize)
    (hfn : ∀ c l p, m.stack (m.sp - argc - 1) ≠ some (.CompiledFunction c l p)) :
    execute run OpCall m
      = .error ("calling non-function: " ++ typeName (m.stack (m.sp - argc - 1)))
          { m with ip := m.ip + 1 } := by
  have hslot : calleeSlot argc { m with ip := m.ip + 1 }
      = .ok (m.sp - argc - 1, m.stack (m.sp - argc - 1)) { m with ip := m.ip + 1 } := by
    unfold calleeSlot
    rw [if_neg (by show ¬ m.sp < argc + 1; omega),
      if_pos (by show m.sp - argc - 1 < StackSize; omega)]
  rw [execute_OpCall]
  simp only [vmm_bind_apply, readByte, harg, advance, hslot]
  cases hv : m.stack (m.sp - argc - 1) with
  | none => rfl
  | some o =>
    cases o with
    | CompiledFunction c l p => exact absurd hv (hfn c l p)
    | _ => rfl

/-- `OpReturn` leaves `Null` on top of the stack when it returns. -/
theorem return_pushes_null (run : VMM Unit) (m m1 : VM) (b : Bool)
    (h : execute run OpReturn m = .ok b m1) :
    b = false ∧ 0 < m1.sp ∧ m1.stack (m1.sp - 1) = some .Null := by
  rw [execute_OpReturn, vmm_bind_apply] at h
  unfold push at h
  by_cases hs : m.sp ≥ StackSize
  · rw [if_pos hs] at h
    simp at h
  · rw [if_neg hs] at h
    simp only [vmm_pure_apply, vm.Result.ok.injEq] at h
    obtain ⟨rfl, rfl⟩ := h
    exact ⟨rfl, by show 0 < m.sp + 1; omega, by
      show Function.update m.stack m.sp (some Object.Null) (m.sp + 1 - 1) = _
      simp⟩

/-! ## Claims on the instruction encoding -/

/-- C11. Encode/decode round trip.  For a defined opcode `op` with definition
`d` and operands that fit the declared widths one by one, `Make` returns the
opcode byte followed by `bytes`, `1 + w1 + ... + wk` bytes in all, `bytes`
being the operands in big-endian form at their widths (a 2-byte operand `o` is
the high byte `o / 256` then the low byte `o % 256`); `Lookup` returns `d`, and
`ReadOperands` on the bytes after the opcode (whatever follows them) returns
the operands with the byte count `w1 + ... + wk`. -/
theorem C11_make_read_round_trip (op : Opcode) (operands : List Nat) (d : Definition)
    (h : ValidInstruction op operands d) :
    ∃ bytes, Make op operands = some (op :: bytes)
      ∧ (op :: bytes).length = 1 + d.OperandWidths.sum
      ∧ bytes = (List.zipWith bigEndian d.OperandWidths operands).flatten
      ∧ (∀ o, bigEndian 2 o = [o / 256 % 256, o % 256])
      ∧ Lookup op = .ok d
      ∧ ∀ post, ReadOperands d (bytes ++ post) = some (operands, d.OperandWidths.sum) := by
  obtain ⟨bytes, h1, h2, h3, h4, h5⟩ := make_read_round_trip op operands d h
  exact ⟨bytes, h1, h2, h3, bigEndian_two, h4, h5⟩

/-- C11 at `OpConstant 65534`: the bytes are the opcode, `255`, `254`. -/
theorem C11_make_read_round_trip_witness :
    ValidInstruction OpConstant [65534] ⟨"OpConstant", [2]⟩
    ∧ ∃ bytes, Make OpConstant [65534] = some (OpConstant :: bytes)
      ∧ (OpConstant :: bytes).length = 1 + [2].sum
      ∧ bytes = (List.zipWith bigEndian [2] [65534]).flatten
      ∧ (∀ o, bigEndian 2 o = [o / 256 % 256, o % 256])
      ∧ Lookup OpConstant = .ok ⟨"OpConstant", [2]⟩
      ∧ ∀ post, ReadOperands ⟨"OpConstant", [2]⟩ (bytes ++ post) = some ([65534], [2].sum) :=
  ⟨⟨rfl, List.Forall₂.cons (by decide) List.Forall₂.nil⟩,
   C11_make_read_round_trip OpConstant [65534] ⟨"OpConstant", [2]⟩
    ⟨rfl, List.Forall₂.cons (by decide) List.Forall₂.nil⟩⟩

/-- C12. For a stream that is the concatenation of the `Make` results of
instructions with defined opcodes and operands fitting their widths,
`Instructions.String` returns (given a step budget above the number of
instructions) the disassembly: one line per instruction, in order, each the
byte offset in decimal padded with zeros to 4 digits, a space, the opcode name,
each operand in decimal preceded by a space, and a newline. -/
theorem C12_instructions_string (prog : List (Opcode × List Nat))
    (hv : ∀ e ∈ prog, ∃ d, ValidInstruction e.1 e.2 d) :
    ∃ ins, assemble prog = some ins
      ∧ ∀ fuel, prog.length + 1 ≤ fuel →
          Instructions.String fuel ins = .done (disassembly 0 prog) :=
  string_assemble prog hv

/-- C12 at `Make(OpAdd) ++ Make(OpConstant, 2) ++ Make(OpCall, 255)`. -/
theorem C12_instructions_string_witness :
    disassembly 0 [(OpAdd, []), (OpConstant, [2]), (OpCall, [255])]
        = "0000 OpAdd\n0001 OpConstant 2\n0004 OpCall 255\n"
    ∧ ∃ ins, assemble [(OpAdd, []), (OpConstant, [2]), (OpCall, [255])] = some ins
      ∧ ∀ fuel, 3 + 1 ≤ fuel →
          Instructions.String fuel ins
            = .done (disassembly 0 [(OpAdd, []), (OpConstant, [2]), (OpCall, [255])]) :=
  ⟨by decide!,
   C12_instructions_string [(OpAdd, []), (OpConstant, [2]), (OpCall, [255])] (by
    intro e he
    simp only [List.mem_cons, List.mem_singleton, List.not_mem_nil, or_false] at he
    rcases he with rfl | rfl | rfl
    · exact ⟨⟨"OpAdd", []⟩, rfl, List.Forall₂.nil⟩
    · exact ⟨⟨"OpConstant", [2]⟩, rfl, List.Forall₂.cons (by decide) List.Forall₂.nil⟩
    · exact ⟨⟨"OpCall", [1]⟩, rfl, List.Forall₂.cons (by decide) List.Forall₂.nil⟩)⟩

/-! ## Claims on the machine: calls, type mismatch -/

/-- C14. Call protocol.  The machine `m` is at an `OpCall` opcode with operand
`argc`, the callee slot `stack[sp - argc - 1]` exists and `sp` is within the
stack.  If the slot holds a compiled function and the nested run of its code
returns without error in `m1`, then executing the instruction succeeds with:
`sp` is `m.sp - argc`; the callee slot holds the value on top of the stack of
`m1` (`Null` when that stack is empty); the instructions are the caller's; `ip`
is just past the operand; and the run of the caller goes on from there.  A run
that is at `OpReturn` returns at once with `Null` pushed.  If the slot does
not hold a compiled function, `Run` returns the `calling non-function`
error. -/
theorem C14_call_protocol (fuel : Nat) (m : VM) (argc : Nat)
    (hop : m.instructions.get? m.ip = some OpCall)
    (harg : m.instructions.get? (m.ip + 1) = some argc)
    (hsp : argc + 1 ≤ m.sp) (hle : m.sp ≤ StackSize) :
    (∀ fnCode nl np m1, m.stack (m.sp - argc - 1) = some (.CompiledFunction fnCode nl np) →
        Run fuel { m with ip := 0, instructions := fnCode } = .ok () m1 →
        ∃ m2, execute (Run fuel) OpCall { m with ip := m.ip + 1 } = .ok true m2
          ∧ m2.sp = m.sp - argc
          ∧ m2.stack (m.sp - argc - 1)
              = (if m1.sp = 0 then some .Null else m1.stack (m1.sp - 1))
          ∧ m2.instructions = m.instructions ∧ m2.ip = m.ip + 2
          ∧ Run (fuel + 1) m = Run fuel m2)
    ∧ (∀ (n : Nat) (r : VM), r.instructions.get? r.ip = some OpReturn → r.sp < StackSize →
        Run (n + 1) r = .ok () { r with ip := r.ip + 1,
                                        stack := Function.update r.stack r.sp (some .Null),
                                        sp := r.sp + 1 })
    ∧ ((∀ c l p, m.stack (m.sp - argc - 1) ≠ some (.CompiledFunction c l p)) →
        Run (fuel + 1) m
          = .error ("calling non-function: " ++ typeName (m.stack (m.sp - argc - 1)))
              { m with ip := m.ip + 2 }) := by
  refine ⟨?_, ?_, ?_⟩
  · intro fnCode nl np m1 hfn hrun
    have h1 : m1.sp ≤ StackSize := run_sp_le fuel { m with ip := 0, instructions := fnCode } m1 hle hrun
    obtain ⟨m2, he, h2, h3, h4, h5⟩ := call_returns (Run fuel) { m with ip := m.ip + 1 } m1 argc
      fnCode nl np harg hsp hle hfn hrun h1
    refine ⟨m2, he, h2, h3, h4, h5, ?_⟩
    rw [run_succ fuel m OpCall hop, he]
  · intro n r hr hs
    rw [run_succ n r OpReturn hr, execute_OpReturn, vmm_bind_apply,
      push_ok _ { r with ip := r.ip + 1 } hs]
    rfl
  · intro hfn
    rw [run_succ fuel m OpCall hop,
      call_non_function (Run fuel) { m with ip := m.ip + 1 } argc harg hsp hle hfn]

/-- C18. Type mismatch is a run-time error.  From a machine with `sp` within
the stack the two pops succeed (popping the empty stack yields `Null`), and if
one of the two popped operands is not an integer then `OpAdd`, `OpSub`,
`OpMul`, `OpDiv`, `OpGreaterThan` and `OpGreaterEqual` return an error in the
state left by the two pops: nothing is pushed.  `OpMinus` returns an error in
the state left by its pop when the popped operand is not an integer. -/
theorem C18_type_mismatch (run : VMM Unit) (m : VM) (h : m.sp ≤ StackSize) :
    ∃ right left m1 m2, pop m = .ok right m1 ∧ pop m1 = .ok left m2 ∧ m2.sp = m.sp - 2
      ∧ (m.sp = 0 → right = some .Null) ∧ (m.sp ≤ 1 → left = some .Null)
      ∧ ((asInteger left = none ∨ asInteger right = none) →
          ∀ op, (op = OpAdd ∨ op = OpSub ∨ op = OpMul ∨ op = OpDiv ∨ op = OpGreaterThan
              ∨ op = OpGreaterEqual) →
            ∃ msg, execute run op m = .error msg m2)
      ∧ (asInteger right = none → ∃ msg, execute run OpMinus m = .error msg m1) :=
  type_mismatch run m h

/-- C14 at the stream `OpCall 0` with the function `OpTrue; OpReturnValue` in
slot 0: the nested run returns with `true` on top, and after the call slot 0
holds `true`, `sp` is 1 and `ip` is 2 in the caller's stream. -/
theorem C14_call_protocol_witness :
    ∃ m1 m2,
      Run 2 { (vm.New [OpTrue, OpReturnValue] []) with
              stack := Function.update (fun _ => none) 0
                (some (.CompiledFunction [OpTrue, OpReturnValue] 0 0)),
              sp := 1 } = .ok () m1
      ∧ execute (Run 2) OpCall
          { (vm.New [OpCall, 0] []) with
            stack := Function.update (fun _ => none) 0
              (some (.CompiledFunction [OpTrue, OpReturnValue] 0 0)),
            sp := 1, ip := 1 } = .ok true m2
      ∧ m2.sp = 1 ∧ m2.stack 0 = some (.Boolean true)
      ∧ m2.instructions = [OpCall, 0] ∧ m2.ip = 2 := by
  have hrun : Run 2 { (vm.New [OpTrue, OpReturnValue] []) with
              stack := Function.update (fun _ => none) 0
                (some (.CompiledFunction [OpTrue, OpReturnValue] 0 0)),
              sp := 1 }
      = .ok () { (vm.New [OpTrue, OpReturnValue] []) with
              stack := Function.update (Function.update (fun _ => none) 0
                (some (.CompiledFunction [OpTrue, OpReturnValue] 0 0))) 1 (some (.Boolean true)),
              sp := 2, ip := 2 } := rfl
  obtain ⟨m2, h1, h2, h3, h4, h5, _⟩ := (C14_call_protocol 2
    { (vm.New [OpCall, 0] []) with
      stack := Function.update (fun _ => none) 0
        (some (.CompiledFunction [OpTrue, OpReturnValue] 0 0)),
      sp := 1 } 0 rfl rfl (by decide) (by decide)).1 [OpTrue, OpReturnValue] 0 0 _ rfl hrun
  exact ⟨_, m2, hrun, h1, h2, h3, h4, h5⟩

/-- C18 at a machine whose stack holds `Integer 1` below `Boolean true`. -/
theorem C18_type_mismatch_witness :
    ∃ right left m1 m2,
      pop { (vm.New [] []) with
            stack := Function.update (Function.update (fun _ => none) 0 (some (.Integer 1))) 1
              (some (.Boolean true)),
            sp := 2 } = .ok right m1
      ∧ pop m1 = .ok left m2 ∧ m2.sp = 0
      ∧ right = some (.Boolean true) ∧ left = some (.Integer 1)
      ∧ (∃ msg, execute (Run 0) OpAdd
          { (vm.New [] []) with
            stack := Function.update (Function.update (fun _ => none) 0 (some (.Integer 1))) 1
              (some (.Boolean true)),
            sp := 2 } = .error msg m2) := by
  obtain ⟨right, left, m1, m2, h1, h2, h3, _, _, h6, _⟩ := C18_type_mismatch (Run 0)
    { (vm.New [] []) with
      stack := Function.update (Function.update (fun _ => none) 0 (some (.Integer 1))) 1
        (some (.Boolean true)),
      sp := 2 } (by decide)
  have e1 := h1
  rw [pop_top _ (by decide) (by decide)] at e1
  simp only [vm.Result.ok.injEq] at e1
  obtain ⟨er, em⟩ := e1
  subst er em
  have e2 := h2
  rw [pop_top _ (by decide) (by decide)] at e2
  simp only [vm.Result.ok.injEq] at e2
  obtain ⟨el, em2⟩ := e2
  subst el
  exact ⟨_, _, _, m2, h1, h2, h3, rfl, rfl, h6 (Or.inr rfl) OpAdd (Or.inl rfl)⟩

/-! ## Claims on the compiler: locals, failure in a function body, assignment -/

/-- C15. Evaluation at a function nested in another that reads the outer
function's parameter, `fn(a, b) { fn() { b } }` as an expression statement and
the same with named functions, `fn f(a, b) { fn g() { b } }`.  The inner
function's code is `OpGetLocal 1; OpPop; OpReturn` while its `NumLocals` is 0:
the operand 1 is the index of `b` in the outer function's frame. -/
theorem C15_nested_function_reads_outer_local :
    Compile (.ExpressionStatement (.FunctionLiteral ["a", "b"] (.BlockStatement
        [.ExpressionStatement (.FunctionLiteral [] (.BlockStatement
          [.ExpressionStatement (.Identifier "b")]))]))) compiler.New
      = .ok ()
          { instructions := [OpConstant, 0, 1, OpPop],
            constants := [.CompiledFunction [OpGetLocal, 1, OpPop, OpReturn] 0 0,
                          .CompiledFunction [OpConstant, 0, 0, OpPop, OpReturn] 2 2],
            symTable := .root [] 0 }
    ∧ Compile (.FunctionStatement "f" ["a", "b"] (.BlockStatement
        [.FunctionStatement "g" [] (.BlockStatement
          [.ExpressionStatement (.Identifier "b")])])) compiler.New
      = .ok ()
          { instructions := [OpConstant, 0, 1, OpSetGlobal, 0, 0],
            constants := [.CompiledFunction [OpGetLocal, 1, OpPop, OpReturn] 0 0,
                          .CompiledFunction [OpConstant, 0, 0, OpSetGlobal, 0, 2, OpReturn] 3 2],
            symTable := .root [("f", ⟨"f", 0, GlobalScope⟩)] 1 } := by
  decide!

/-- C16. Evaluation at a function whose body reads the undefined variable
`y` after one expression statement, `fn f() { 1; y }`, compiled with a fresh
compiler: `Compile` returns the error with the function's own frame still the
active symbol table and with the instructions of the body in the buffer, and a
`let x = 1;` compiled next with that compiler defines `x` as a local of that
frame and emits `OpSetLocal 0`.  The same holds for the function literal as
an expression statement. -/
theorem C16_failed_body_keeps_inner_frame :
    Compile (.FunctionStatement "f" [] (.BlockStatement
        [.ExpressionStatement (.IntegerLiteral 1), .ExpressionStatement (.Identifier "y")]))
        compiler.New
      = .error "undefined variable y"
          { instructions := [OpConstant, 0, 0, OpPop],
            constants := [.Integer 1],
            symTable := .enclosed (.root [] 0) [] 0 }
    ∧ Compile (.LetStatement "x" (.IntegerLiteral 1))
          { instructions := [OpConstant, 0, 0, OpPop],
            constants := [.Integer 1],
            symTable := .enclosed (.root [] 0) [] 0 }
      = .ok ()
          { instructions := [OpConstant, 0, 0, OpPop, OpConstant, 0, 1, OpSetLocal, 0],
            constants := [.Integer 1, .Integer 1],
            symTable := .enclosed (.root [] 0) [("x", ⟨"x", 0, LocalScope⟩)] 1 }
    ∧ Compile (.ExpressionStatement (.FunctionLiteral [] (.BlockStatement
        [.ExpressionStatement (.IntegerLiteral 1), .ExpressionStatement (.Identifier "y")])))
        compiler.New
      = .error "undefined variable y"
          { instructions := [OpConstant, 0, 0, OpPop],
            constants := [.Integer 1],
            symTable := .enclosed (.root [] 0) [] 0 } := by
  decide!

/-- Compiling an assignment is compiling the value, resolving the name in the
table that leaves, and the store. -/
theorem compile_assignment (name : String) (value : Node) (c : Compiler) :
    Compile (.AssignmentStatement name value) c
      = (match Compile value c with
        | .ok _ c1 =>
          if (c1.symTable.Resolve name).2 = false then
            .error ("undefined variable " ++ name) c1
          else emitSet (c1.symTable.Resolve name).1 c1
        | .error msg c1 => .error msg c1
        | .crash msg => .crash msg) := by
  rw [Compile]
  simp only [bind_pure_comp, compilerM_bind_apply]
  cases h : Compile value c with
  | ok a c1 =>
    simp only [resolve]
    cases h2 : (c1.symTable.Resolve name).2 <;> simp [h2, compiler.fail]
  | error msg c1 => rfl
  | crash msg => rfl

theorem emitSet_global (sym : Symbol) (c : Compiler) (h : sym.Scope = GlobalScope) :
    emitSet sym c = .ok ()
      { c with instructions := c.instructions
                 ++ [OpSetGlobal, sym.Index / 256 % 256, sym.Index % 256] } := by
  unfold emitSet
  rw [if_pos h]
  simp only [bind_pure_comp, Functor.map, compilerM_bind_apply,
    emit_apply _ _ _ _ (Make_wide OpSetGlobal "OpSetGlobal" sym.Index rfl)]
  rfl

theorem emitSet_local (sym : Symbol) (c : Compiler) (h : sym.Scope = LocalScope) :
    emitSet sym c = .ok ()
      { c with instructions := c.instructions ++ [OpSetLocal, sym.Index % 256] } := by
  unfold emitSet
  rw [if_neg (by rw [h]; decide), if_pos h]
  simp only [bind_pure_comp, Functor.map, compilerM_bind_apply,
    emit_apply _ _ _ _ (Make_narrow OpSetLocal "OpSetLocal" sym.Index rfl)]
  rfl

theorem emitSet_symTable (sym : Symbol) (c : Compiler) :
    ∃ cr, emitSet sym c = .ok () cr ∧ cr.symTable = c.symTable
      ∧ cr.constants = c.constants := by
  by_cases hg : sym.Scope = GlobalScope
  · exact ⟨_, emitSet_global sym c hg, rfl, rfl⟩
  · by_cases hl : sym.Scope = LocalScope
    · exact ⟨_, emitSet_local sym c hl, rfl, rfl⟩
    · refine ⟨c, ?_, rfl, rfl⟩
      unfold emitSet
      rw [if_neg hg, if_neg hl]
      rfl

/-- C20 (amended). An assignment whose value compiles, leaving the compiler in
`c1`, resolves the name in the symbol table of `c1`, the table that compiling
the value leaves.  If the name does not resolve there, `Compile` returns the
error `undefined variable <name>` in `c1`.  If it resolves to a Global symbol,
`Compile` appends `OpSetGlobal` with the symbol's index as a 2-byte operand to
the instructions of `c1`; if to a Local symbol, `OpSetLocal` with the index as
a 1-byte operand.  In every case `Compile` returns, and the symbol table and
the constants it leaves are those of `c1`: the assignment step declares
nothing, and the table is the one before the call whenever compiling the value
left it unchanged. -/
theorem C20_assignment_after_value (name : String) (value : Node) (c c1 : Compiler)
    (hv : Compile value c = .ok () c1) :
    ((c1.symTable.Resolve name).2 = false →
        Compile (.AssignmentStatement name value) c
          = .error ("undefined variable " ++ name) c1)
    ∧ (∀ sym, c1.symTable.Resolve name = (sym, true) → sym.Scope = GlobalScope →
        Compile (.AssignmentStatement name value) c
          = .ok () { c1 with instructions := c1.instructions
                               ++ [OpSetGlobal, sym.Index / 256 % 256, sym.Index % 256] })
    ∧ (∀ sym, c1.symTable.Resolve name = (sym, true) → sym.Scope = LocalScope →
        Compile (.AssignmentStatement name value) c
          = .ok () { c1 with instructions := c1.instructions ++ [OpSetLocal, sym.Index % 256] })
    ∧ (∃ cr, (Compile (.AssignmentStatement name value) c = .ok () cr
              ∨ ∃ msg, Compile (.AssignmentStatement name value) c = .error msg cr)
          ∧ cr.symTable = c1.symTable ∧ cr.constants = c1.constants
          ∧ (c1.symTable = c.symTable → cr.symTable = c.symTable)) := by
  rw [compile_assignment, hv]
  refine ⟨fun h => by simp only [h, if_true], fun sym hr hs => ?_, fun sym hr hs => ?_, ?_⟩
  · simp only [hr, Bool.true_eq_false, if_false]
    exact emitSet_global sym c1 hs
  · simp only [hr, Bool.true_eq_false, if_false]
    exact emitSet_local sym c1 hs
  · cases h2 : (c1.symTable.Resolve name).2
    · exact ⟨c1, Or.inr ⟨_, if_pos h2⟩, rfl, rfl, id⟩
    · obtain ⟨cr, he, hs, hc⟩ := emitSet_symTable (c1.symTable.Resolve name).1 c1
      exact ⟨cr, Or.inl ((if_neg (by rw [h2]; decide)).trans he), hs, hc, fun e => hs.trans e⟩

/-- C20 (amended) at `x = 7` with `x` the global 0. -/
theorem C20_assignment_after_value_witness :
    Compile (.IntegerLiteral 7)
        { instructions := [], constants := [], symTable := .root [("x", ⟨"x", 0, GlobalScope⟩)] 1 }
      = .ok () { instructions := [OpConstant, 0, 0], constants := [.Integer 7],
                 symTable := .root [("x", ⟨"x", 0, GlobalScope⟩)] 1 }
    ∧ Compile (.AssignmentStatement "x" (.IntegerLiteral 7))
        { instructions := [], constants := [], symTable := .root [("x", ⟨"x", 0, GlobalScope⟩)] 1 }
      = .ok () { instructions := [OpConstant, 0, 0, OpSetGlobal, 0, 0], constants := [.Integer 7],
                 symTable := .root [("x", ⟨"x", 0, GlobalScope⟩)] 1 } :=
  ⟨by decide!,
   (C20_assignment_after_value "x" (.IntegerLiteral 7)
      { instructions := [], constants := [], symTable := .root [("x", ⟨"x", 0, GlobalScope⟩)] 1 }
      { instructions := [OpConstant, 0, 0], constants := [.Integer 7],
        symTable := .root [("x", ⟨"x", 0, GlobalScope⟩)] 1 }
      (by decide!)).2.1 ⟨"x", 0, GlobalScope⟩ (by decide!) rfl⟩

/-- C20, the claim as stated fails at `x = if (true) { let x = 1; }` compiled
with a fresh compiler: `x` does not resolve before the call, yet `Compile`
returns no error, and the symbol table after the call has the global `x` that
compiling the value declared. -/
theorem C20_assignment_value_declares :
    compiler.New.symTable.Resolve "x" = (⟨"", 0, ""⟩, false)
    ∧ Compile (.AssignmentStatement "x" (.IfExpression (.Boolean true)
          (.BlockStatement [.LetStatement "x" (.IntegerLiteral 1)]) none)) compiler.New
      = .ok ()
          { instructions := [OpTrue, OpJumpNotTruthy, 0, 13, OpConstant, 0, 0, OpSetGlobal, 0, 0,
                             OpJump, 0, 13, OpSetGlobal, 0, 0],
            constants := [.Integer 1],
            symTable := .root [("x", ⟨"x", 0, GlobalScope⟩)] 1 }
    ∧ compiler.New.symTable ≠ .root [("x", ⟨"x", 0, GlobalScope⟩)] 1 := by
  decide!

/-! ## Decimal renderings -/

theorem digitChar_digit (k : Nat) (h : k < 10) :
    (Nat.digitChar k).isDigit = true ∧ (Nat.digitChar k).toNat - 48 = k := by
  interval_cases k <;> decide

/-- The digits `toDigitsCore` puts in front of `ds` are decimal digits whose
value is the number. -/
theorem toDigitsCore_spec (fuel : Nat) :
    ∀ (n : Nat) (ds : List Char), n < fuel →
      ∃ l, Nat.toDigitsCore 10 fuel n ds = l ++ ds ∧ l ≠ []
        ∧ (∀ c ∈ l, c.isDigit = true)
        ∧ l.foldl (fun a c => a * 10 + (c.toNat - 48)) 0 = n := by
  induction fuel with
  | zero => intro n ds h; omega
  | succ fuel ih =>
    intro n ds h
    have hd := digitChar_digit (n % 10) (Nat.mod_lt _ (by decide))
    unfold Nat.toDigitsCore
    by_cases h0 : n / 10 = 0
    · simp only [h0, if_true]
      refine ⟨[Nat.digitChar (n % 10)], rfl, by simp, ?_, ?_⟩
      · intro c hc
        rw [List.mem_singleton] at hc
        rw [hc]
        exact hd.1
      · simp only [List.foldl_cons, List.foldl_nil, Nat.zero_mul, Nat.zero_add]
        rw [hd.2]
        omega
    · simp only [h0, if_false]
      obtain ⟨l, hl, hne, hdig, hval⟩ := ih (n / 10) (Nat.digitChar (n % 10) :: ds) (by omega)
      refine ⟨l ++ [Nat.digitChar (n % 10)], ?_, by simp, ?_, ?_⟩
      · rw [hl, List.append_assoc]
        rfl
      · intro c hc
        rw [List.mem_append, List.mem_singleton] at hc
        rcases hc with hc | hc
        · exact hdig c hc
        · rw [hc]
          exact hd.1
      · rw [List.foldl_append, hval]
        simp only [List.foldl_cons, List.foldl_nil]
        rw [hd.2]
        omega

/-- The decimal rendering of a natural number: digits only, at least one, and
their value is the number. -/
theorem toString_nat_data (n : Nat) :
    (toString n).data ≠ [] ∧ (∀ c ∈ (toString n).data, c.isDigit = true)
      ∧ (toString n).data.foldl (fun a c => a * 10 + (c.toNat - 48)) 0 = n := by
  obtain ⟨l, hl, hne, hdig, hval⟩ := toDigitsCore_spec (n + 1) n [] (Nat.lt_succ_self n)
  have e : (toString n).data = l := by
    show Nat.toDigitsCore 10 (n + 1) n [] = l
    rw [hl, List.append_nil]
  rw [e]
  exact ⟨hne, hdig, hval⟩

theorem toString_nat_inj (a b : Nat) (h : (toString a).data = (toString b).data) : a = b := by
  rw [← (toString_nat_data a).2.2, ← (toString_nat_data b).2.2, h]

/-- The decimal rendering of an integer starts with a digit or with `-`. -/
theorem toString_int_head (v : Int) :
    ∃ c rest, (toString v).data = c :: rest ∧ (c.isDigit = true ∨ c = '-') := by
  cases v with
  | ofNat m =>
    have h := toString_nat_data m
    have e : (toString (Int.ofNat m)).data = (toString m).data := rfl
    rw [e]
    cases hd : (toString m).data with
    | nil => exact absurd hd h.1
    | cons c rest => exact ⟨c, rest, rfl, Or.inl (h.2.1 c (by rw [hd]; exact List.mem_cons_self _ _))⟩
  | negSucc m =>
    exact ⟨'-', (toString (m + 1)).data, rfl, Or.inr rfl⟩

/-- Splitting at the first character that is no digit. -/
theorem digits_append_inj (l1 l2 r1 r2 : List Char) (x : Char) (hx : x.isDigit = false)
    (h1 : ∀ c ∈ l1, c.isDigit = true) (h2 : ∀ c ∈ l2, c.isDigit = true)
    (h : l1 ++ x :: r1 = l2 ++ x :: r2) : l1 = l2 ∧ r1 = r2 := by
  induction l1 generalizing l2 with
  | nil =>
    cases l2 with
    | nil => exact ⟨rfl, by simpa using h⟩
    | cons c l2 =>
      simp only [List.nil_append, List.cons_append, List.cons.injEq] at h
      have := h2 c (List.mem_cons_self _ _)
      rw [← h.1, hx] at this
      exact absurd this (by decide)
  | cons a l1 ih =>
    cases l2 with
    | nil =>
      simp only [List.nil_append, List.cons_append, List.cons.injEq] at h
      have := h1 a (List.mem_cons_self _ _)
      rw [h.1, hx] at this
      exact absurd this (by decide)
    | cons c l2 =>
      simp only [List.cons_append, List.cons.injEq] at h
      obtain ⟨e1, e2⟩ := ih l2 (fun c hc => h1 c (List.mem_cons_of_mem _ hc))
        (fun c hc => h2 c (List.mem_cons_of_mem _ hc)) h.2
      exact ⟨by rw [h.1, e1], e2⟩

/-! ## Inspections of values -/

theorem inspect_fn_data (fnCode : List Nat) (nl np : Nat) :
    (Object.CompiledFunction fnCode nl np).Inspect.data
      = "compiled fn[params=".data ++ ((toString np).data
          ++ ' ' :: ("locals=".data ++ ((toString nl).data ++ "]".data))) := by
  simp only [Object.Inspect, String.data_append]
  simp

/-- The first character of an inspection tells the tag. -/
theorem inspect_head (v : Object) :
    ∃ c rest, v.Inspect.data = c :: rest
      ∧ (if c.isDigit = true ∨ c = '-' then 0 else if c = 't' ∨ c = 'f' then 1
          else if c = 'n' then 2 else 3) = v.tag := by
  cases v with
  | Integer a =>
    obtain ⟨c, rest, h, hc⟩ := toString_int_head a
    exact ⟨c, rest, h, if_pos hc⟩
  | Boolean b =>
    cases b
    · exact ⟨'f', _, rfl, by decide⟩
    · exact ⟨'t', _, rfl, by decide⟩
  | Null => exact ⟨'n', _, rfl, by decide⟩
  | CompiledFunction fnCode nl np =>
    have e : (if 'c'.isDigit = true ∨ 'c' = '-' then 0 else if 'c' = 't' ∨ 'c' = 'f' then 1
        else if 'c' = 'n' then 2 else 3) = 3 := by decide
    exact ⟨'c', _, inspect_fn_data fnCode nl np, e⟩

theorem inspect_tag (v w : Object) (h : v.Inspect = w.Inspect) : v.tag = w.tag := by
  obtain ⟨c, rest, hv, hc⟩ := inspect_head v
  obtain ⟨d, rest2, hw, hd⟩ := inspect_head w
  rw [h, hw] at hv
  simp only [List.cons.injEq] at hv
  rw [← hc, ← hd, hv.1]

/-- Outside the case of two integers, two inspections are the same text
exactly for values of the same tag and payload, the code of a compiled
function left out. -/
theorem inspect_eq_iff (v w : Object) (h : ¬ (v.tag = 0 ∧ w.tag = 0)) :
    v.Inspect = w.Inspect ↔ sameValue v w = true := by
  constructor
  · intro he
    have ht := inspect_tag v w he
    cases v with
    | Integer a => cases w <;> simp [Object.tag] at ht h
    | Boolean a =>
      cases w with
      | Boolean b =>
        cases a <;> cases b <;> first | rfl | exact absurd he (by decide)
      | _ => simp [Object.tag] at ht
    | Null =>
      cases w with
      | Null => rfl
      | _ => simp [Object.tag] at ht
    | CompiledFunction c1 nl np =>
      cases w with
      | CompiledFunction c2 nl2 np2 =>
        have hd := congrArg String.data he
        rw [inspect_fn_data, inspect_fn_data] at hd
        have h1 := List.append_cancel_left hd
        obtain ⟨e1, e2⟩ := digits_append_inj _ _ _ _ ' ' (by decide)
          (toString_nat_data np).2.1 (toString_nat_data np2).2.1 h1
        have h2 := List.append_cancel_right (List.append_cancel_left e2)
        have hnp := toString_nat_inj np np2 e1
        have hnl := toString_nat_inj nl nl2 h2
        simp [sameValue, hnp, hnl]
      | _ => simp [Object.tag] at ht
  · intro hs
    cases v with
    | Integer a => cases w <;> simp [Object.tag, sameValue] at hs h
    | Boolean a =>
      cases w with
      | Boolean b =>
        simp only [sameValue, decide_eq_true_eq] at hs
        rw [hs]
      | _ => simp [sameValue] at hs
    | Null =>
      cases w with
      | Null => rfl
      | _ => simp [sameValue] at hs
    | CompiledFunction c1 nl np =>
      cases w with
      | CompiledFunction c2 nl2 np2 =>
        simp only [sameValue, decide_eq_true_eq] at hs
        simp only [Object.Inspect, hs.1, hs.2]
      | _ => simp [sameValue] at hs

theorem decide_inspect (v w : Object) (h : ¬ (v.tag = 0 ∧ w.tag = 0)) :
    decide (v.Inspect = w.Inspect) = sameValue v w := by
  rw [Bool.eq_iff_iff, decide_eq_true_eq]
  exact inspect_eq_iff v w h

/-- `OpEqual` and `OpNotEqual` on two values on top of the stack. -/
theorem execute_equal (run : VMM Unit) (m : VM) (v w : Object) (h2 : 2 ≤ m.sp)
    (hle : m.sp ≤ StackSize) (hl : m.stack (m.sp - 2) = some v)
    (hr : m.stack (m.sp - 1) = some w) :
    ∃ m2 m3, execute run OpEqual m = .ok true m2 ∧ m2.sp = m.sp - 1
      ∧ m2.stack (m.sp - 2) = some (.Boolean (sameValue v w))
      ∧ execute run OpNotEqual m = .ok true m3 ∧ m3.sp = m.sp - 1
      ∧ m3.stack (m.sp - 2) = some (.Boolean (!sameValue v w)) := by
  have hp1 : pop m = .ok (some w)
      { m with sp := m.sp - 1, stack := Function.update m.stack (m.sp - 1) none } := by
    rw [pop_top m (by omega) hle, hr]
  have hp2 : pop { m with sp := m.sp - 1, stack := Function.update m.stack (m.sp - 1) none }
      = .ok (some v)
          { m with sp := m.sp - 1 - 1,
                   stack := Function.update (Function.update m.stack (m.sp - 1) none)
                     (m.sp - 1 - 1) none } := by
    rw [pop_top _ (by show 0 < m.sp - 1; omega) (by show m.sp - 1 ≤ StackSize; omega)]
    show vm.Result.ok (Function.update m.stack (m.sp - 1) none (m.sp - 1 - 1)) _ = _
    rw [Function.update_noteq (by omega), show m.sp - 1 - 1 = m.sp - 2 from by omega, hl]
  have hpush : ∀ (b : Bool), ∃ m2, (do push (some (.Boolean b)); pure true : VMM Bool)
        { m with sp := m.sp - 1 - 1,
                 stack := Function.update (Function.update m.stack (m.sp - 1) none)
                   (m.sp - 1 - 1) none } = .ok true m2 ∧ m2.sp = m.sp - 1
        ∧ m2.stack (m.sp - 2) = some (.Boolean b) := by
    intro b
    rw [vmm_bind_apply, push_ok _ _ (by show m.sp - 1 - 1 < StackSize; omega)]
    refine ⟨_, rfl, by show m.sp - 1 - 1 + 1 = m.sp - 1; omega, ?_⟩
    show Function.update _ (m.sp - 1 - 1) _ (m.sp - 2) = _
    rw [show m.sp - 1 - 1 = m.sp - 2 from by omega, Function.update_same]
  have hnot : ∀ (a b : String), decide (a ≠ b) = !decide (a = b) := by
    intro a b
    by_cases e : a = b <;> simp [e]
  have hnoti : ∀ (a b : Int), decide (a ≠ b) = !decide (a = b) := by
    intro a b
    by_cases e : a = b <;> simp [e]
  rw [execute_comparison run _ (Or.inl rfl), execute_comparison run _ (Or.inr (Or.inl rfl))]
  simp only [executeComparison, vmm_bind_apply, hp1, hp2]
  by_cases hint : v.tag = 0 ∧ w.tag = 0
  · cases v with
    | Integer a =>
      cases w with
      | Integer b =>
        obtain ⟨m2, e1, e2, e3⟩ := hpush (decide (a = b))
        obtain ⟨m3, f1, f2, f3⟩ := hpush (!decide (a = b))
        rw [vmm_bind_apply] at e1 f1
        refine ⟨m2, m3, ?_, e2, e3, ?_, f2, f3⟩
        · simpa [asInteger] using e1
        · simpa [asInteger, hnoti] using f1
      | _ => simp [Object.tag] at hint
    | _ => simp [Object.tag] at hint
  · obtain ⟨m2, e1, e2, e3⟩ := hpush (sameValue v w)
    obtain ⟨m3, f1, f2, f3⟩ := hpush (!sameValue v w)
    rw [vmm_bind_apply, ← decide_inspect v w hint] at e1 f1
    refine ⟨m2, m3, ?_, e2, e3, ?_, f2, f3⟩
    · cases v <;> cases w <;> first
        | (simp [Object.tag] at hint; done)
        | simpa [asInteger, inspect, vmm_bind_apply, vmm_pure_apply] using e1
    · cases v <;> cases w <;> first
        | (simp [Object.tag] at hint; done)
        | simpa [asInteger, inspect, vmm_bind_apply, vmm_pure_apply, hnot] using f1

/-! ## Machine: single instructions of a run -/

theorem run_step (k : Nat) (m m1 : VM) (op : Nat) (hop : m.instructions.get? m.ip = some op)
    (he : execute (Run k) op { m with ip := m.ip + 1 } = .ok true m1) :
    Run (k + 1) m = Run k m1 := by
  rw [run_succ k m op hop, he]

theorem step_OpConstant (k : Nat) (m : VM) (hi lo : Nat) (c : Object)
    (h0 : m.instructions.get? m.ip = some OpConstant)
    (h1 : m.instructions.get? (m.ip + 1) = some hi)
    (h2 : m.instructions.get? (m.ip + 1 + 1) = some lo)
    (hc : m.constants.get? (hi <<< 8 ||| lo) = some c) (hs : m.sp < StackSize) :
    Run (k + 1) m = Run k { m with ip := m.ip + 1 + 2,
                                   stack := Function.update m.stack m.sp (some c),
                                   sp := m.sp + 1 } := by
  refine run_step k m _ _ h0 ?_
  have e : execute (Run k) OpConstant = (do
      let idx ← readUint16
      advance 2
      let c ← constantAt idx
      push (some c)
      pure true) := rfl
  have hs2 : ¬ (m.sp ≥ StackSize) := by omega
  rw [e]
  simp only [vmm_bind_apply, readUint16, h1, h2, advance, constantAt, hc, push, hs2, if_false,
    vmm_pure_apply]

theorem step_OpGetGlobal (k : Nat) (m : VM) (hi lo : Nat)
    (h0 : m.instructions.get? m.ip = some OpGetGlobal)
    (h1 : m.instructions.get? (m.ip + 1) = some hi)
    (h2 : m.instructions.get? (m.ip + 1 + 1) = some lo)
    (hidx : hi <<< 8 ||| lo < GlobalsSize) (hs : m.sp < StackSize) :
    Run (k + 1) m = Run k { m with ip := m.ip + 1 + 2,
                                   stack := Function.update m.stack m.sp
                                     (m.globals (hi <<< 8 ||| lo)),
                                   sp := m.sp + 1 } := by
  refine run_step k m _ _ h0 ?_
  have e : execute (Run k) OpGetGlobal = (do
      let idx ← readUint16
      advance 2
      let v ← globalAt idx
      push v
      pure true) := rfl
  have hs2 : ¬ (m.sp ≥ StackSize) := by omega
  rw [e]
  simp only [vmm_bind_apply, readUint16, h1, h2, advance, globalAt, hidx, if_true, push, hs2,
    if_false, vmm_pure_apply]

theorem step_OpSetGlobal (k : Nat) (m : VM) (hi lo : Nat)
    (h0 : m.instructions.get? m.ip = some OpSetGlobal)
    (h1 : m.instructions.get? (m.ip + 1) = some hi)
    (h2 : m.instructions.get? (m.ip + 1 + 1) = some lo)
    (hidx : hi <<< 8 ||| lo < GlobalsSize) (h0s : 0 < m.sp) (hs : m.sp ≤ StackSize) :
    Run (k + 1) m = Run k { m with ip := m.ip + 1 + 2,
                                   sp := m.sp - 1,
                                   stack := Function.update m.stack (m.sp - 1) none,
                                   globals := Function.update m.globals (hi <<< 8 ||| lo)
                                     (m.stack (m.sp - 1)) } := by
  refine run_step k m _ _ h0 ?_
  have e : execute (Run k) OpSetGlobal = (do
      let idx ← readUint16
      advance 2
      let v ← pop
      setGlobal idx v
      pure true) := rfl
  rw [e]
  simp only [vmm_bind_apply, readUint16, h1, h2, advance,
    pop_top { m with ip := m.ip + 1 + 2 } h0s hs, setGlobal, hidx, if_true, vmm_pure_apply]

theorem step_OpJump (k : Nat) (m : VM) (hi lo : Nat)
    (h0 : m.instructions.get? m.ip = some OpJump)
    (h1 : m.instructions.get? (m.ip + 1) = some hi)
    (h2 : m.instructions.get? (m.ip + 1 + 1) = some lo) :
    Run (k + 1) m = Run k { m with ip := hi <<< 8 ||| lo } := by
  refine run_step k m _ _ h0 ?_
  have e : execute (Run k) OpJump = (do
      let pos ← readUint16
      jump pos
      pure true) := rfl
  rw [e]
  simp only [vmm_bind_apply, readUint16, h1, h2, jump, vmm_pure_apply]

theorem step_OpJumpNotTruthy (k : Nat) (m : VM) (hi lo : Nat)
    (h0 : m.instructions.get? m.ip = some OpJumpNotTruthy)
    (h1 : m.instructions.get? (m.ip + 1) = some hi)
    (h2 : m.instructions.get? (m.ip + 1 + 1) = some lo)
    (h0s : 0 < m.sp) (hs : m.sp ≤ StackSize) :
    Run (k + 1) m = Run k { m with ip := if isTruthy (m.stack (m.sp - 1)) then m.ip + 1 + 2
                                         else hi <<< 8 ||| lo,
                                   sp := m.sp - 1,
                                   stack := Function.update m.stack (m.sp - 1) none } := by
  refine run_step k m _ _ h0 ?_
  have e : execute (Run k) OpJumpNotTruthy = (do
      let pos ← readUint16
      advance 2
      let condition ← pop
      if !isTruthy condition then
        jump pos
      pure true) := rfl
  rw [e]
  simp only [vmm_bind_apply, readUint16, h1, h2, advance,
    pop_top { m with ip := m.ip + 1 + 2 } h0s hs]
  cases isTruthy (m.stack (m.sp - 1)) <;> rfl

theorem step_OpPrint (k : Nat) (m : VM) (v : Object)
    (h0 : m.instructions.get? m.ip = some OpPrint)
    (h0s : 0 < m.sp) (hs : m.sp ≤ StackSize) (hv : m.stack (m.sp - 1) = some v) :
    Run (k + 1) m = Run k { m with ip := m.ip + 1,
                                   sp := m.sp - 1,
                                   stack := Function.update m.stack (m.sp - 1) none,
                                   output := m.output ++ [v.Inspect] } := by
  refine run_step k m _ _ h0 ?_
  have e : execute (Run k) OpPrint = (do
      let v ← pop
      let line ← inspect v
      (fun vm => Result.ok () { vm with output := vm.output ++ [line] })
      pure true) := rfl
  rw [e]
  simp only [vmm_bind_apply, pop_top { m with ip := m.ip + 1 } h0s hs, hv, inspect,
    vmm_pure_apply]

/-- The state after two pops from a stack of at least two values. -/
theorem pop_two (m : VM) (l r : Option Object) (h2 : 2 ≤ m.sp) (hs : m.sp ≤ StackSize)
    (hl : m.stack (m.sp - 2) = l) (hr : m.stack (m.sp - 1) = r) :
    pop m = .ok r { m with sp := m.sp - 1, stack := Function.update m.stack (m.sp - 1) none }
    ∧ pop { m with sp := m.sp - 1, stack := Function.update m.stack (m.sp - 1) none }
      = .ok l { m with sp := m.sp - 2,
                       stack := Function.update (Function.update m.stack (m.sp - 1) none)
                         (m.sp - 2) none } := by
  constructor
  · rw [pop_top m (by omega) hs, hr]
  · rw [pop_top _ (by show 0 < m.sp - 1; omega) (by show m.sp - 1 ≤ StackSize; omega)]
    show vm.Result.ok (Function.update m.stack (m.sp - 1) none (m.sp - 1 - 1))
      { m with sp := m.sp - 1 - 1,
               stack := Function.update (Function.update m.stack (m.sp - 1) none)
                 (m.sp - 1 - 1) none } = _
    rw [show m.sp - 1 - 1 = m.sp - 2 from by omega, Function.update_noteq (by omega), hl]

theorem step_OpGreaterThan (k : Nat) (m : VM) (l r : Int)
    (h0 : m.instructions.get? m.ip = some OpGreaterThan)
    (h2 : 2 ≤ m.sp) (hs : m.sp ≤ StackSize)
    (hl : m.stack (m.sp - 2) = some (.Integer l)) (hr : m.stack (m.sp - 1) = some (.Integer r)) :
    Run (k + 1) m = Run k { m with ip := m.ip + 1,
                                   sp := m.sp - 2 + 1,
                                   stack := Function.update
                                     (Function.update (Function.update m.stack (m.sp - 1) none)
                                       (m.sp - 2) none)
                                     (m.sp - 2) (some (.Boolean (decide (l > r)))) } := by
  refine run_step k m _ _ h0 ?_
  obtain ⟨hp1, hp2⟩ := pop_two { m with ip := m.ip + 1 } _ _ h2 hs hl hr
  have hs2 : ¬ (m.sp - 2 ≥ StackSize) := by omega
  rw [execute_comparison _ _ (Or.inr (Or.inr (Or.inl rfl)))]
  simp only [executeComparison, vmm_bind_apply, hp1, hp2, asInteger]
  simp [push, hs2, vmm_pure_apply]

theorem step_OpAdd (k : Nat) (m : VM) (l r : Int)
    (h0 : m.instructions.get? m.ip = some OpAdd)
    (h2 : 2 ≤ m.sp) (hs : m.sp ≤ StackSize)
    (hl : m.stack (m.sp - 2) = some (.Integer l)) (hr : m.stack (m.sp - 1) = some (.Integer r)) :
    Run (k + 1) m = Run k { m with ip := m.ip + 1,
                                   sp := m.sp - 2 + 1,
                                   stack := Function.update
                                     (Function.update (Function.update m.stack (m.sp - 1) none)
                                       (m.sp - 2) none)
                                     (m.sp - 2) (some (.Integer (wrapInt64 (l + r)))) } := by
  refine run_step k m _ _ h0 ?_
  obtain ⟨hp1, hp2⟩ := pop_two { m with ip := m.ip + 1 } _ _ h2 hs hl hr
  have hs2 : ¬ (m.sp - 2 ≥ StackSize) := by omega
  rw [execute_binary _ _ (Or.inl rfl)]
  simp only [executeBinaryOperation, vmm_bind_apply, hp1, hp2, asInteger]
  simp [push, hs2, vmm_pure_apply]

/-! ## The counting loop -/

theorem compile_countLoop (a b : Int) :
    Compile (countLoop a b) compiler.New
      = .ok ()
          { instructions := countLoopCode,
            constants := [.Integer a, .Integer b, .Integer 1],
            symTable := .root [("x", ⟨"x", 0, GlobalScope⟩)] 1 } := by
  simp [countLoop, countLoopCode, Compile, CompileAll, compilerM_bind_apply,
    compilerM_pure_apply, addConstant, define, resolve, emitSet, emitGet, lenInstructions,
    emit_apply _ _ _ _ (Make_wide OpConstant "OpConstant" _ rfl),
    emit_apply _ _ _ _ (Make_wide OpSetGlobal "OpSetGlobal" _ rfl),
    emit_apply _ _ _ _ (Make_wide OpGetGlobal "OpGetGlobal" _ rfl),
    emit_apply _ _ _ _ (Make_wide OpJumpNotTruthy "OpJumpNotTruthy" _ rfl),
    emit_apply _ _ _ _ (Make_wide OpJump "OpJump" _ rfl),
    emit_apply _ _ _ _ (Make_nullary OpGreaterThan "OpGreaterThan" rfl),
    emit_apply _ _ _ _ (Make_nullary OpAdd "OpAdd" rfl),
    emit_apply _ _ _ _ (Make_nullary OpPrint "OpPrint" rfl),
    compiler.New, NewSymbolTable, SymbolTable.Define, SymbolTable.Resolve, SymbolTable.storeSet,
    replaceOperand, replaceInstruction, overwrite,
    Make_wide OpJumpNotTruthy "OpJumpNotTruthy" _ rfl]

/-- One iteration of the loop: from the loop start with `x < b` in global 0
back to the loop start with `x + 1` there. -/
theorem countLoop_iteration (a b x : Int) (globals stack : Nat → Option Object)
    (out : List String) (k : Nat) (hx : x < b) (hg : globals 0 = some (.Integer x)) :
    ∃ stack1, Run (k + 9)
      { constants := [.Integer a, .Integer b, .Integer 1], globals := globals, stack := stack,
        sp := 0, ip := 6, instructions := countLoopCode, output := out }
      = Run k
      { constants := [.Integer a, .Integer b, .Integer 1],
        globals := Function.update globals 0 (some (.Integer (wrapInt64 (x + 1)))),
        stack := stack1, sp := 0, ip := 6, instructions := countLoopCode, output := out } := by
  apply Exists.intro
  refine (step_OpConstant _ _ 0 1 (.Integer b) ?_ ?_ ?_ ?_ ?_).trans ?_
  · rfl
  · rfl
  · rfl
  · rfl
  · simp
  dsimp only
  refine (step_OpGetGlobal _ _ 0 0 ?_ ?_ ?_ ?_ ?_).trans ?_
  · rfl
  · rfl
  · rfl
  · decide
  · simp
  dsimp only
  refine (step_OpGreaterThan _ _ b x ?_ ?_ ?_ ?_ ?_).trans ?_
  · rfl
  · rfl
  · exact Nat.le_of_lt (by decide : 2 < StackSize)
  · rfl
  · simp [hg]
  dsimp only
  refine (step_OpJumpNotTruthy _ _ 0 29 ?_ ?_ ?_ ?_ ?_).trans ?_
  · rfl
  · rfl
  · rfl
  · simp
  · simp
  dsimp only
  rw [show isTruthy (Function.update (Function.update (Function.update
      (Function.update (Function.update stack 0 (some (Object.Integer b))) (0 + 1)
        (globals (0 <<< 8 ||| 0))) (0 + 1 + 1 - 1) none) (0 + 1 + 1 - 2) none)
      (0 + 1 + 1 - 2) (some (Object.Boolean (decide (b > x)))) (0 + 1 + 1 - 2 + 1 - 1)) = true
    from by simp [isTruthy, hx]]
  simp only [if_true, Nat.reduceAdd, Nat.reduceSub]
  refine (step_OpGetGlobal _ _ 0 0 ?_ ?_ ?_ ?_ ?_).trans ?_
  · rfl
  · rfl
  · rfl
  · decide
  · simp
  dsimp only
  refine (step_OpConstant _ _ 0 2 (.Integer 1) ?_ ?_ ?_ ?_ ?_).trans ?_
  · rfl
  · rfl
  · rfl
  · rfl
  · simp
  dsimp only
  refine (step_OpAdd _ _ x 1 ?_ ?_ ?_ ?_ ?_).trans ?_
  · rfl
  · rfl
  · exact Nat.le_of_lt (by decide : 2 < StackSize)
  · simp [hg]
  · rfl
  dsimp only
  refine (step_OpSetGlobal _ _ 0 0 ?_ ?_ ?_ ?_ ?_ ?_).trans ?_
  · rfl
  · rfl
  · rfl
  · decide
  · simp
  · simp
  dsimp only
  refine (step_OpJump _ _ 0 6 ?_ ?_ ?_).trans ?_
  · rfl
  · rfl
  · rfl
  rfl

/-- Leaving the loop: from the loop start with `b <= x` in global 0 the run
prints `x` and returns. -/
theorem countLoop_exit (a b x : Int) (globals stack : Nat → Option Object)
    (out : List String) (k : Nat) (hx : b ≤ x) (hg : globals 0 = some (.Integer x)) :
    ∃ stack1, Run (k + 7)
      { constants := [.Integer a, .Integer b, .Integer 1], globals := globals, stack := stack,
        sp := 0, ip := 6, instructions := countLoopCode, output := out }
      = .ok ()
      { constants := [.Integer a, .Integer b, .Integer 1], globals := globals, stack := stack1,
        sp := 0, ip := 33, instructions := countLoopCode, output := out ++ [toString x] } := by
  have hnot : ¬ (b > x) := by omega
  apply Exists.intro
  refine (step_OpConstant _ _ 0 1 (.Integer b) ?_ ?_ ?_ ?_ ?_).trans ?_
  · rfl
  · rfl
  · rfl
  · rfl
  · simp
  dsimp only
  refine (step_OpGetGlobal _ _ 0 0 ?_ ?_ ?_ ?_ ?_).trans ?_
  · rfl
  · rfl
  · rfl
  · decide
  · simp
  dsimp only
  refine (step_OpGreaterThan _ _ b x ?_ ?_ ?_ ?_ ?_).trans ?_
  · rfl
  · rfl
  · exact Nat.le_of_lt (by decide : 2 < StackSize)
  · rfl
  · simp [hg]
  dsimp only
  refine (step_OpJumpNotTruthy _ _ 0 29 ?_ ?_ ?_ ?_ ?_).trans ?_
  · rfl
  · rfl
  · rfl
  · simp
  · simp
  dsimp only
  rw [show isTruthy (Function.update (Function.update (Function.update
      (Function.update (Function.update stack 0 (some (Object.Integer b))) (0 + 1)
        (globals (0 <<< 8 ||| 0))) (0 + 1 + 1 - 1) none) (0 + 1 + 1 - 2) none)
      (0 + 1 + 1 - 2) (some (Object.Boolean (decide (b > x)))) (0 + 1 + 1 - 2 + 1 - 1)) = false
    from by simp [isTruthy, hnot]]
  simp only [Bool.false_eq_true, if_false, Nat.reduceAdd, Nat.reduceSub]
  refine (step_OpGetGlobal _ _ 0 0 ?_ ?_ ?_ ?_ ?_).trans ?_
  · rfl
  · rfl
  · rfl
  · decide
  · simp
  dsimp only
  refine (step_OpPrint _ _ (.Integer x) ?_ ?_ ?_ ?_).trans ?_
  · rfl
  · simp
  · simp
  · simp [hg]
  dsimp only
  exact run_end _ _ (by show countLoopCode.length ≤ (0 <<< 8 ||| 29) + 1 + 2 + 1; decide)

theorem wrapInt64_of_isInt64 (x : Int) (h : IsInt64 x) : wrapInt64 x = x := by
  unfold IsInt64 at h
  unfold wrapInt64
  omega

/-- From the loop start with `x` in global 0 the run goes round the loop
`b - x` times (not at all when `b <= x`), prints the greater of `x` and `b`,
and returns. -/
theorem countLoop_runs (a b : Int) (hb : IsInt64 b) (n : Nat) :
    ∀ (x : Int) (globals stack : Nat → Option Object) (out : List String),
      IsInt64 x → (b - x).toNat = n → globals 0 = some (.Integer x) →
      ∀ fuel, 9 * n + 7 ≤ fuel →
      ∃ m1, Run fuel
        { constants := [.Integer a, .Integer b, .Integer 1], globals := globals, stack := stack,
          sp := 0, ip := 6, instructions := countLoopCode, output := out }
        = .ok () m1 ∧ m1.output = out ++ [toString (max x b)] := by
  induction n with
  | zero =>
    intro x globals stack out hx hn hg fuel hfuel
    have hbx : b ≤ x := by omega
    obtain ⟨stack1, e⟩ := countLoop_exit a b x globals stack out (fuel - 7) hbx hg
    rw [show fuel - 7 + 7 = fuel from by omega] at e
    exact ⟨_, e, by rw [max_eq_left hbx]⟩
  | succ n ih =>
    intro x globals stack out hx hn hg fuel hfuel
    have hxb : x < b := by omega
    obtain ⟨stack1, e⟩ := countLoop_iteration a b x globals stack out (fuel - 9) hxb hg
    rw [show fuel - 9 + 9 = fuel from by omega] at e
    have hx1 : IsInt64 (x + 1) := by
      unfold IsInt64 at hx hb ⊢
      omega
    rw [wrapInt64_of_isInt64 _ hx1] at e
    obtain ⟨m1, e1, o1⟩ := ih (x + 1) _ stack1 out hx1 (by omega) (Function.update_same _ _ _)
      (fuel - 9) (by omega)
    refine ⟨m1, e.trans e1, ?_⟩
    rw [o1, max_eq_right (by omega : x + 1 ≤ b), max_eq_right (by omega : x ≤ b)]

/-- The first two instructions put `a` in global 0 and reach the loop start. -/
theorem countLoop_start (a b : Int) (k : Nat) :
    ∃ globals1 stack1, Run (k + 2)
        (vm.New countLoopCode [.Integer a, .Integer b, .Integer 1])
      = Run k
        { constants := [.Integer a, .Integer b, .Integer 1], globals := globals1,
          stack := stack1, sp := 0, ip := 6, instructions := countLoopCode, output := [] }
      ∧ globals1 0 = some (.Integer a) := by
  refine ⟨Function.update (fun _ => none) 0 (some (.Integer a)), ?_⟩
  apply Exists.intro
  refine ⟨?_, Function.update_same _ _ _⟩
  refine (step_OpConstant _ _ 0 0 (.Integer a) ?_ ?_ ?_ ?_ ?_).trans ?_
  · rfl
  · rfl
  · rfl
  · rfl
  · simp [vm.New]
  dsimp only [vm.New]
  refine (step_OpSetGlobal _ _ 0 0 ?_ ?_ ?_ ?_ ?_ ?_).trans ?_
  · rfl
  · rfl
  · rfl
  · decide
  · simp
  · simp
  dsimp only
  rfl

theorem sameValue_refl (v : Object) : sameValue v v = true := by
  cases v <;> simp [sameValue]

theorem sameValue_iff_eq (v w : Object) (h : ¬ (v.tag = 3 ∧ w.tag = 3)) :
    sameValue v w = true ↔ v = w := by
  constructor
  · intro hs
    cases v <;> cases w <;> simp [sameValue, Object.tag] at hs h ⊢
    all_goals exact hs
  · intro e
    rw [e]
    exact sameValue_refl w

/-! ## Claims on the machine: the counting loop, equality -/

/-- C17. For 64-bit integers `a` and `b`, the tree of
`let x = a; while (x < b) { x = x + 1; } print x;` (the literals `a` and `b` as
`IntegerLiteral` nodes) compiles without error to the instructions
`countLoopCode`, and the compiled program run on a fresh machine with a step
budget of at least `9 * (b - a) + 9` (9 when `a > b`) returns without error
having printed exactly one line: the decimal rendering of `b` when `a <= b`,
of `a` when `a > b`. -/
theorem C17_counting_loop (a b : Int) (ha : IsInt64 a) (hb : IsInt64 b) (fuel : Nat)
    (hfuel : 9 * (b - a).toNat + 9 ≤ fuel) :
    ∃ c m, Compile (countLoop a b) compiler.New = .ok () c
      ∧ c.instructions = countLoopCode
      ∧ Run fuel (vm.New c.instructions c.constants) = .ok () m
      ∧ m.output = [toString (if a ≤ b then b else a)] := by
  obtain ⟨globals1, stack1, e, hg⟩ := countLoop_start a b (fuel - 2)
  rw [show fuel - 2 + 2 = fuel from by omega] at e
  obtain ⟨m, e1, o1⟩ := countLoop_runs a b hb (b - a).toNat a globals1 stack1 [] ha rfl hg
    (fuel - 2) (by omega)
  refine ⟨_, m, compile_countLoop a b, rfl, e.trans e1, ?_⟩
  rw [o1]
  by_cases hab : a ≤ b
  · rw [if_pos hab, max_eq_right hab]
    rfl
  · rw [if_neg hab, max_eq_left (by omega)]
    rfl

/-- C17 at `a = 1`, `b = 4`: the run prints `4`. -/
theorem C17_counting_loop_witness :
    ∃ c m, Compile (countLoop 1 4) compiler.New = .ok () c
      ∧ c.instructions = countLoopCode
      ∧ Run 36 (vm.New c.instructions c.constants) = .ok () m
      ∧ m.output = ["4"] := by
  obtain ⟨c, m, h1, h2, h3, h4⟩ := C17_counting_loop 1 4 (by unfold IsInt64; decide)
    (by unfold IsInt64; decide) 36 (by decide)
  exact ⟨c, m, h1, h2, h3, h4.trans (by decide)⟩

/-- C19 (amended). `OpEqual` on two values `v` (below) and `w` (on top) of the
stack pops both and pushes `Boolean (sameValue v w)`: true exactly when `v` and
`w` have the same tag and the same payload, where for two compiled functions
only `NumLocals` and `NumParameters` are compared and the code is not.
`OpNotEqual` pushes the negation.  Unless both values are compiled functions,
`sameValue v w` holds exactly when `v = w`. -/
theorem C19_equality_by_inspection (run : VMM Unit) (m : VM) (v w : Object) (h2 : 2 ≤ m.sp)
    (hle : m.sp ≤ StackSize) (hl : m.stack (m.sp - 2) = some v)
    (hr : m.stack (m.sp - 1) = some w) :
    ∃ m2 m3, execute run OpEqual m = .ok true m2 ∧ m2.sp = m.sp - 1
      ∧ m2.stack (m.sp - 2) = some (.Boolean (sameValue v w))
      ∧ execute run OpNotEqual m = .ok true m3 ∧ m3.sp = m.sp - 1
      ∧ m3.stack (m.sp - 2) = some (.Boolean (!sameValue v w))
      ∧ (¬ (v.tag = 3 ∧ w.tag = 3) → (sameValue v w = true ↔ v = w))
      ∧ (v = w → sameValue v w = true) := by
  obtain ⟨m2, m3, h1, h2, h3, h4, h5, h6⟩ := execute_equal run m v w h2 hle hl hr
  exact ⟨m2, m3, h1, h2, h3, h4, h5, h6, sameValue_iff_eq v w,
    fun e => by rw [e]; exact sameValue_refl w⟩

/-- C19 (amended) at `Integer 1` below `Boolean true`: `OpEqual` pushes
`false`, `OpNotEqual` pushes `true`. -/
theorem C19_equality_by_inspection_witness :
    ∃ m2 m3,
      execute (Run 0) OpEqual
        { (vm.New [] []) with
          stack := Function.update (Function.update (fun _ => none) 0 (some (.Integer 1))) 1
            (some (.Boolean true)),
          sp := 2 } = .ok true m2
      ∧ m2.sp = 1 ∧ m2.stack 0 = some (.Boolean false)
      ∧ execute (Run 0) OpNotEqual
        { (vm.New [] []) with
          stack := Function.update (Function.update (fun _ => none) 0 (some (.Integer 1))) 1
            (some (.Boolean true)),
          sp := 2 } = .ok true m3
      ∧ m3.sp = 1 ∧ m3.stack 0 = some (.Boolean true) := by
  obtain ⟨m2, m3, h1, h2, h3, h4, h5, h6, _⟩ := C19_equality_by_inspection (Run 0)
    { (vm.New [] []) with
      stack := Function.update (Function.update (fun _ => none) 0 (some (.Integer 1))) 1
        (some (.Boolean true)),
      sp := 2 } (.Integer 1) (.Boolean true) (Nat.le_refl 2) (by decide) rfl rfl
  exact ⟨m2, m3, h1, h2, h3, h4, h5, h6⟩

/-- C19, the claim as stated fails at two compiled functions that differ in
their code only, `OpTrue; OpReturnValue` and `OpFalse; OpReturnValue`, both
with no locals and no parameters: `OpEqual` pushes `true` although the two
values are different. -/
theorem C19_functions_equal_despite_code :
    Object.CompiledFunction [OpTrue, OpReturnValue] 0 0
      ≠ Object.CompiledFunction [OpFalse, OpReturnValue] 0 0
    ∧ ∃ m2,
      execute (Run 0) OpEqual
        { (vm.New [] []) with
          stack := Function.update (Function.update (fun _ => none) 0
              (some (.CompiledFunction [OpTrue, OpReturnValue] 0 0))) 1
            (some (.CompiledFunction [OpFalse, OpReturnValue] 0 0)),
          sp := 2 } = .ok true m2
      ∧ m2.sp = 1 ∧ m2.stack 0 = some (.Boolean true) := by
  refine ⟨by decide, ?_⟩
  obtain ⟨m2, _, h1, h2, h3, _⟩ := execute_equal (Run 0)
    { (vm.New [] []) with
      stack := Function.update (Function.update (fun _ => none) 0
          (some (.CompiledFunction [OpTrue, OpReturnValue] 0 0))) 1
        (some (.CompiledFunction [OpFalse, OpReturnValue] 0 0)),
      sp := 2 } (.CompiledFunction [OpTrue, OpReturnValue] 0 0)
    (.CompiledFunction [OpFalse, OpReturnValue] 0 0) (Nat.le_refl 2) (by decide) rfl rfl
  exact ⟨m2, h1, h2, h3⟩

/-! ## Machine: streams of pushes -/

theorem get?_append_cons_succ_succ {α : Type} (pre : List α) (x y z : α) (rest : List α) :
    (pre ++ x :: y :: z :: rest).get? (pre.length + 1 + 1) = some z := by
  rw [show pre ++ x :: y :: z :: rest = (pre ++ [x]) ++ y :: z :: rest from by simp,
    show pre.length + 1 + 1 = (pre ++ [x]).length + 1 from by simp]
  exact get?_append_cons_succ _ _ _ _

theorem wide_operand (i : Nat) : (i / 256 % 256) <<< 8 ||| (i % 256) = i % 65536 := by
  rw [shiftLeft8_or _ _ (Nat.mod_lt _ (by decide))]
  omega

/-- One instruction that pushes one value: with a free slot the run goes on
with one more value on the stack, with a full stack it returns
`stack overflow`. -/
theorem step_pushesOne (k : Nat) (m : VM) (e : Opcode × List Nat) (pre bytes post : List Nat)
    (hp : PushesOne m.constants e) (hmk : Make e.1 e.2 = some bytes)
    (hins : m.instructions = pre ++ (bytes ++ post)) (hip : m.ip = pre.length) :
    (m.sp < StackSize →
      ∃ m1, Run (k + 1) m = Run k m1 ∧ m1.sp = m.sp + 1 ∧ m1.ip = (pre ++ bytes).length
        ∧ m1.instructions = m.instructions ∧ m1.constants = m.constants)
    ∧ (m.sp = StackSize →
      ∃ m1, Run (k + 1) m = .error "stack overflow" m1 ∧ m1.sp = StackSize) := by
  have nullary : ∀ op name, definitions op = some ⟨name, []⟩ → e = (op, []) →
      (op = OpTrue ∨ op = OpFalse ∨ op = OpNull) →
      (m.sp < StackSize →
        ∃ m1, Run (k + 1) m = Run k m1 ∧ m1.sp = m.sp + 1 ∧ m1.ip = (pre ++ bytes).length
          ∧ m1.instructions = m.instructions ∧ m1.constants = m.constants)
      ∧ (m.sp = StackSize →
        ∃ m1, Run (k + 1) m = .error "stack overflow" m1 ∧ m1.sp = StackSize) := by
    intro op name hdef he hop
    rw [he, Make_nullary op name hdef, Option.some.injEq] at hmk
    subst hmk
    have hget : m.instructions.get? m.ip = some op := by
      rw [hins, hip]
      exact get?_append_cons pre op post
    obtain ⟨v, hv⟩ := execute_push_ops (Run k) op hop
    constructor
    · intro hs
      refine ⟨{ m with ip := m.ip + 1, stack := Function.update m.stack m.sp (some v),
                       sp := m.sp + 1 }, ?_, ?_, ?_, ?_, ?_⟩
      · rw [run_succ k m op hget, hv, vmm_bind_apply,
          push_ok _ { m with ip := m.ip + 1 } hs]
        rfl
      · rfl
      · show m.ip + 1 = (pre ++ [op]).length
        rw [hip, List.length_append]
        rfl
      · rfl
      · rfl
    · intro hs
      refine ⟨{ m with ip := m.ip + 1 }, ?_, ?_⟩
      · rw [run_succ k m op hget, hv, vmm_bind_apply,
          push_overflow _ { m with ip := m.ip + 1 } (by show StackSize ≤ m.sp; omega)]
      · exact hs
  rcases hp with he | he | he | ⟨i, he, hi⟩ | ⟨i, he, hi⟩
  · exact nullary OpTrue "OpTrue" rfl he (Or.inl rfl)
  · exact nullary OpFalse "OpFalse" rfl he (Or.inr (Or.inl rfl))
  · exact nullary OpNull "OpNull" rfl he (Or.inr (Or.inr rfl))
  · rw [he, Make_wide OpConstant "OpConstant" i rfl, Option.some.injEq] at hmk
    subst hmk
    have h0 : m.instructions.get? m.ip = some OpConstant := by
      rw [hins, hip]
      exact get?_append_cons pre _ _
    have h1 : m.instructions.get? (m.ip + 1) = some (i / 256 % 256) := by
      rw [hins, hip]
      exact get?_append_cons_succ pre _ _ _
    have h2 : m.instructions.get? (m.ip + 1 + 1) = some (i % 256) := by
      rw [hins, hip]
      exact get?_append_cons_succ_succ pre _ _ _ _
    have hlt : i % 65536 < m.constants.length := Nat.lt_of_le_of_lt (Nat.mod_le _ _) hi
    have hc : m.constants.get? ((i / 256 % 256) <<< 8 ||| (i % 256))
        = some (m.constants.get ⟨i % 65536, hlt⟩) := by
      rw [wide_operand]
      exact List.get?_eq_get hlt
    constructor
    · intro hs
      refine ⟨_, step_OpConstant k m _ _ _ h0 h1 h2 hc hs, rfl, ?_, rfl, rfl⟩
      show m.ip + 1 + 2 = (pre ++ [OpConstant, i / 256 % 256, i % 256]).length
      rw [hip, List.length_append]
      rfl
    · intro hs
      have e : execute (Run k) OpConstant = (do
          let idx ← readUint16
          advance 2
          let c ← constantAt idx
          push (some c)
          pure true) := rfl
      refine ⟨{ m with ip := m.ip + 1 + 2 }, ?_, hs⟩
      rw [run_succ k m OpConstant h0, e]
      simp only [vmm_bind_apply, readUint16, h1, h2, advance, constantAt, hc]
      rw [push_overflow _ _ (by show StackSize ≤ m.sp; omega)]
  · rw [he, Make_wide OpGetGlobal "OpGetGlobal" i rfl, Option.some.injEq] at hmk
    subst hmk
    have h0 : m.instructions.get? m.ip = some OpGetGlobal := by
      rw [hins, hip]
      exact get?_append_cons pre _ _
    have h1 : m.instructions.get? (m.ip + 1) = some (i / 256 % 256) := by
      rw [hins, hip]
      exact get?_append_cons_succ pre _ _ _
    have h2 : m.instructions.get? (m.ip + 1 + 1) = some (i % 256) := by
      rw [hins, hip]
      exact get?_append_cons_succ_succ pre _ _ _ _
    have hidx : (i / 256 % 256) <<< 8 ||| (i % 256) < GlobalsSize := by
      rw [wide_operand]
      exact Nat.mod_lt _ (by decide)
    constructor
    · intro hs
      refine ⟨_, step_OpGetGlobal k m _ _ h0 h1 h2 hidx hs, rfl, ?_, rfl, rfl⟩
      show m.ip + 1 + 2 = (pre ++ [OpGetGlobal, i / 256 % 256, i % 256]).length
      rw [hip, List.length_append]
      rfl
    · intro hs
      have e : execute (Run k) OpGetGlobal = (do
          let idx ← readUint16
          advance 2
          let v ← globalAt idx
          push v
          pure true) := rfl
      refine ⟨{ m with ip := m.ip + 1 + 2 }, ?_, hs⟩
      rw [run_succ k m OpGetGlobal h0, e]
      simp only [vmm_bind_apply, readUint16, h1, h2, advance, globalAt, hidx, if_true]
      rw [push_overflow _ _ (by show StackSize ≤ m.sp; omega)]

/-- A run over `k + 1` or more instructions that each push one value, from a
stack with `k` free slots, returns `stack overflow` at the last of them. -/
theorem run_pushesOne_overflow (k : Nat) :
    ∀ (prog : List (Opcode × List Nat)) (body pre : List Nat) (m : VM) (fuel : Nat),
      (∀ e ∈ prog, PushesOne m.constants e) → assemble prog = some body →
      m.instructions = pre ++ body → m.ip = pre.length → m.sp + k = StackSize →
      k + 1 ≤ prog.length → k + 1 ≤ fuel →
      ∃ m1, Run fuel m = .error "stack overflow" m1 ∧ m1.sp = StackSize := by
  induction k with
  | zero =>
    intro prog body pre m fuel hp hasm hins hip hsp hlen hfuel
    obtain ⟨f, rfl⟩ : ∃ f, fuel = f + 1 := ⟨fuel - 1, by omega⟩
    cases prog with
    | nil => simp at hlen
    | cons e rest =>
      obtain ⟨op, operands⟩ := e
      simp only [assemble] at hasm
      cases hmk : Make op operands with
      | none => simp [hmk] at hasm
      | some bytes =>
        cases hrest : assemble rest with
        | none => simp [hmk, hrest] at hasm
        | some tail =>
          simp only [hmk, hrest, Option.some.injEq] at hasm
          subst hasm
          exact (step_pushesOne f m (op, operands) pre bytes tail
            (hp _ (List.mem_cons_self _ _)) hmk hins hip).2 (by omega)
  | succ k ih =>
    intro prog body pre m fuel hp hasm hins hip hsp hlen hfuel
    obtain ⟨f, rfl⟩ : ∃ f, fuel = f + 1 := ⟨fuel - 1, by omega⟩
    cases prog with
    | nil => simp at hlen
    | cons e rest =>
      obtain ⟨op, operands⟩ := e
      simp only [assemble] at hasm
      cases hmk : Make op operands with
      | none => simp [hmk] at hasm
      | some bytes =>
        cases hrest : assemble rest with
        | none => simp [hmk, hrest] at hasm
        | some tail =>
          simp only [hmk, hrest, Option.some.injEq] at hasm
          subst hasm
          obtain ⟨m1, e1, s1, i1, n1, c1⟩ := (step_pushesOne f m (op, operands) pre bytes tail
            (hp _ (List.mem_cons_self _ _)) hmk hins hip).1 (by omega)
          rw [e1]
          exact ih rest tail (pre ++ bytes) m1 f
            (fun e he => by rw [c1]; exact hp e (List.mem_cons_of_mem _ he)) hrest
            (by rw [n1, hins, List.append_assoc]) i1 (by omega)
            (by simpa using hlen) (by omega)

/-! ## Claim on the ceiling of the stack -/

/-- C13. The value stack has a ceiling of `StackSize = 2048` slots.  `push`
with `sp < 2048` stores the value at `stack[sp]` and increments `sp`; with
`sp >= 2048` it returns the error `stack overflow` and leaves the machine as it
was.  A fresh machine run on a stream of at least 2049 instructions, each
`OpTrue`, `OpFalse` or `OpNull`, returns `stack overflow` at the 2049th push:
`sp` is 2048 and `ip` is just past the 2049th opcode.  The same holds for a
stream assembled from at least 2049 instructions that each push one value and
pop none, `OpConstant` and `OpGetGlobal` with an index in range included. -/
theorem C13_stack_ceiling :
    StackSize = 2048
    ∧ (∀ (o : Option Object) (m : VM), m.sp < StackSize →
        push o m = .ok () { m with stack := Function.update m.stack m.sp o, sp := m.sp + 1 })
    ∧ (∀ (o : Option Object) (m : VM), StackSize ≤ m.sp → push o m = .error "stack overflow" m)
    ∧ (∀ (ins : Instructions) (constants : List Object) (fuel : Nat),
        (∀ op ∈ ins, op = OpTrue ∨ op = OpFalse ∨ op = OpNull) → 2049 ≤ ins.length →
        2049 ≤ fuel →
        ∃ m1, Run fuel (vm.New ins constants) = .error "stack overflow" m1
          ∧ m1.sp = 2048 ∧ m1.ip = 2049)
    ∧ (∀ (prog : List (Opcode × List Nat)) (ins : Instructions) (constants : List Object)
        (fuel : Nat),
        (∀ e ∈ prog, PushesOne constants e) → assemble prog = some ins →
        2049 ≤ prog.length → 2049 ≤ fuel →
        ∃ m1, Run fuel (vm.New ins constants) = .error "stack overflow" m1 ∧ m1.sp = 2048) := by
  refine ⟨rfl, push_ok, push_overflow, ?_, ?_⟩
  · intro ins constants fuel hops hlen hfuel
    obtain ⟨m1, h1, h2, h3⟩ := run_pushes_overflow ins hops 2048 (vm.New ins constants) fuel rfl
      (by show 0 + 2048 = 2048; rfl) (by show 0 + 2048 < ins.length; omega) (by omega)
    exact ⟨m1, h1, h2, by rw [h3]; show 0 + 2048 + 1 = 2049; rfl⟩
  · intro prog ins constants fuel hp hasm hlen hfuel
    exact run_pushesOne_overflow 2048 prog ins [] (vm.New ins constants) fuel hp hasm rfl rfl
      (by show 0 + 2048 = 2048; rfl) hlen hfuel

/-- C13 at the stream of 2049 `OpTrue`. -/
theorem C13_stack_ceiling_witness :
    ∃ m1, Run 2049 (vm.New (List.replicate 2049 OpTrue) []) = .error "stack overflow" m1
      ∧ m1.sp = 2048 ∧ m1.ip = 2049 :=
  C13_stack_ceiling.2.2.2.1 (List.replicate 2049 OpTrue) [] 2049
    (fun op hop => Or.inl (List.eq_of_mem_replicate hop))
    (by rw [List.length_replicate]) (Nat.le_refl _)

/-! ## Symbol table: sequences of definitions -/

theorem defineAll_snoc (s : SymbolTable) (names : List String) (m : String) :
    s.defineAll (names ++ [m]) = ((s.defineAll names).Define m).2 := by
  simp [SymbolTable.defineAll, List.foldl_append]

theorem define_store (s : SymbolTable) (m : String) :
    (s.Define m).2.store = SymbolTable.storeSet s.store m ⟨m, s.numDefs, s.ownScope⟩
    ∧ (s.Define m).2.numDefs = s.numDefs + 1 ∧ (s.Define m).2.ownScope = s.ownScope := by
  cases s <;> exact ⟨rfl, rfl, rfl⟩

/-- What a frame stores after a sequence of definitions on a fresh frame: the
counter is the number of definitions, and the symbol stored under a name
carries that name, the scope of the frame, and the position of the last
definition of the name as its index. -/
theorem defineAll_inv (s : SymbolTable) (hs : s.Fresh) (names : List String) :
    (s.defineAll names).numDefs = names.length
    ∧ (s.defineAll names).ownScope = s.ownScope
    ∧ (∀ k sym, (s.defineAll names).store.lookup k = some sym →
        sym.Name = k ∧ sym.Scope = s.ownScope ∧ sym.Index < names.length
          ∧ names.get? sym.Index = some k ∧ ∀ j, sym.Index < j → names.get? j ≠ some k)
    ∧ (∀ k, k ∈ names → ((s.defineAll names).store.lookup k).isSome = true) := by
  induction names using List.reverseRecOn with
  | nil =>
    refine ⟨hs.2, rfl, ?_, ?_⟩
    · intro k sym h
      have : (s.defineAll []).store = [] := hs.1
      rw [this] at h
      simp at h
    · intro k hk
      simp at hk
  | append_singleton names m ih =>
    obtain ⟨ih1, ih2, ih3, ih4⟩ := ih
    obtain ⟨d1, d2, d3⟩ := define_store (s.defineAll names) m
    rw [defineAll_snoc, d1, d2, d3, ih1, ih2]
    refine ⟨by simp, rfl, ?_, ?_⟩
    · intro k sym h
      by_cases hk : k = m
      · subst hk
        rw [lookup_storeSet_self, Option.some.injEq] at h
        subst h
        refine ⟨rfl, rfl, by simp, ?_, ?_⟩
        · simp
        · intro j hj
          have : (names ++ [k]).get? j = none := by
            rw [List.get?_eq_none]
            simp only [List.length_append, List.length_singleton]
            exact hj
          rw [this]
          simp
      · rw [lookup_storeSet_other _ _ _ _ hk] at h
        obtain ⟨h1, h2, h3, h4, h5⟩ := ih3 k sym h
        refine ⟨h1, h2, by simp only [List.length_append, List.length_singleton]; omega, ?_, ?_⟩
        · rw [List.get?_eq_getElem?, List.getElem?_append_left h3, ← List.get?_eq_getElem?]
          exact h4
        · intro j hj
          by_cases hjn : j < names.length
          · rw [List.get?_eq_getElem?, List.getElem?_append_left hjn, ← List.get?_eq_getElem?]
            exact h5 j hj
          · by_cases hje : j = names.length
            · subst hje
              rw [List.get?_eq_getElem?, List.getElem?_append_right (Nat.le_refl _), Nat.sub_self]
              simp only [List.getElem?_cons_zero, ne_eq, Option.some.injEq]
              exact fun e => hk e.symm
            · have : (names ++ [m]).get? j = none := by
                rw [List.get?_eq_none]
                simp only [List.length_append, List.length_singleton]
                omega
              rw [this]
              simp
    · intro k hk
      by_cases hkm : k = m
      · subst hkm
        rw [lookup_storeSet_self]
        rfl
      · rw [lookup_storeSet_other _ _ _ _ hkm]
        apply ih4
        simpa [hkm] using hk

/-- C24 (amended). After any sequence of `Define` calls on a fresh frame, the
counter `numDefs` is the number of calls; the symbol stored under a name
carries that name, the scope Global if the frame is the root and Local
otherwise, and as its index the position (from 0) of the last `Define` of that
name, so the stored indices are below `numDefs` and distinct for distinct
names; the names stored are the names defined; and when no name was defined
twice the stored indices are exactly `0, 1, ..., n-1`. -/
theorem C24_symbol_indices (s : SymbolTable) (hs : s.Fresh) (names : List String) :
    (s.defineAll names).numDefs = names.length
    ∧ (∀ k sym, (s.defineAll names).store.lookup k = some sym →
        sym.Name = k ∧ sym.Scope = s.ownScope ∧ sym.Index < names.length
          ∧ names.get? sym.Index = some k ∧ ∀ j, sym.Index < j → names.get? j ≠ some k)
    ∧ (∀ k1 k2 sym1 sym2, (s.defineAll names).store.lookup k1 = some sym1 →
        (s.defineAll names).store.lookup k2 = some sym2 → sym1.Index = sym2.Index → k1 = k2)
    ∧ (∀ k, k ∈ names ↔ ((s.defineAll names).store.lookup k).isSome = true)
    ∧ (names.Nodup → ∀ i, i < names.length →
        ∃ k sym, (s.defineAll names).store.lookup k = some sym ∧ sym.Index = i) := by
  obtain ⟨h1, _, h3, h4⟩ := defineAll_inv s hs names
  refine ⟨h1, h3, ?_, ?_, ?_⟩
  · intro k1 k2 sym1 sym2 e1 e2 hidx
    have a1 := (h3 k1 sym1 e1).2.2.2.1
    have a2 := (h3 k2 sym2 e2).2.2.2.1
    rw [hidx, a2, Option.some.injEq] at a1
    exact a1.symm
  · intro k
    refine ⟨h4 k, fun hk => ?_⟩
    cases hl : (s.defineAll names).store.lookup k with
    | none => rw [hl] at hk; exact absurd hk (by decide)
    | some sym => exact List.get?_mem (h3 k sym hl).2.2.2.1
  · intro hnd i hi
    have hget : names.get? i = some (names.get ⟨i, hi⟩) := List.get?_eq_get hi
    have hmem : names.get ⟨i, hi⟩ ∈ names := List.get_mem _ _ _
    cases hl : (s.defineAll names).store.lookup (names.get ⟨i, hi⟩) with
    | none =>
      have := h4 _ hmem
      rw [hl] at this
      exact absurd this (by decide)
    | some sym =>
      refine ⟨_, sym, hl, ?_⟩
      obtain ⟨_, _, b3, b4, b5⟩ := h3 _ sym hl
      rcases Nat.lt_trichotomy sym.Index i with hlt | heq | hgt
      · exact absurd hget (b5 i hlt)
      · exact heq
      · exact absurd (hget.trans b4.symm) (List.nodup_iff_get?_ne_get?.mp hnd i sym.Index hgt b3)

/-- C24 (amended) at the root frame after `Define` of `a` and `b`. -/
theorem C24_symbol_indices_witness :
    NewSymbolTable.Fresh
    ∧ (NewSymbolTable.defineAll ["a", "b"]).numDefs = 2
    ∧ (["a", "b"].Nodup → ∀ i, i < 2 →
        ∃ k sym, (NewSymbolTable.defineAll ["a", "b"]).store.lookup k = some sym
          ∧ sym.Index = i) :=
  ⟨⟨rfl, rfl⟩, (C24_symbol_indices NewSymbolTable ⟨rfl, rfl⟩ ["a", "b"]).1,
    (C24_symbol_indices NewSymbolTable ⟨rfl, rfl⟩ ["a", "b"]).2.2.2.2⟩

/-- C24, the claim as stated fails when a name is defined twice in one frame,
as in `let x = 1; let x = 2;`: after the two `Define` calls on the fresh root
frame the frame stores one name, `x`, with index 1 and not 0, and `numDefs` is
2; the compiler emits `OpSetGlobal 0` and then `OpSetGlobal 1`. -/
theorem C24_redefinition_leaves_gap :
    NewSymbolTable.Fresh
    ∧ NewSymbolTable.defineAll ["x", "x"] = .root [("x", ⟨"x", 1, GlobalScope⟩)] 2
    ∧ Compile (.Program [.LetStatement "x" (.IntegerLiteral 1),
        .LetStatement "x" (.IntegerLiteral 2)]) compiler.New
      = .ok ()
          { instructions := [OpConstant, 0, 0, OpSetGlobal, 0, 0, OpConstant, 0, 1,
              OpSetGlobal, 0, 1],
            constants := [.Integer 1, .Integer 2],
            symTable := .root [("x", ⟨"x", 1, GlobalScope⟩)] 2 } :=
  ⟨⟨rfl, rfl⟩, by decide!, by decide!⟩

/-! ## Disassembly of streams that are not well-formed -/

theorem definitions_undefined (op : Opcode) (h : 27 ≤ op) : definitions op = none := by
  have hne : ∀ k : Nat, k < 27 → (op == k) = false := by
    intro k hk
    rw [beq_eq_false_iff_ne]
    intro e
    rw [e] at h
    exact absurd hk (Nat.not_lt.mpr h)
  simp only [definitions, definitionsTable, List.lookup, OpConstant, OpAdd, OpSub, OpMul, OpDiv,
    OpTrue, OpFalse, OpNull, OpEqual, OpNotEqual, OpGreaterThan, OpLessThan, OpGreaterEqual,
    OpLessEqual, OpBang, OpMinus, OpPop, OpJump, OpJumpNotTruthy, OpGetGlobal, OpSetGlobal,
    OpGetLocal, OpSetLocal, OpCall, OpReturnValue, OpReturn, OpPrint]
  simp only [hne _ (by decide : (0 : Nat) < 27), hne _ (by decide : (1 : Nat) < 27),
    hne _ (by decide : (2 : Nat) < 27), hne _ (by decide : (3 : Nat) < 27),
    hne _ (by decide : (4 : Nat) < 27), hne _ (by decide : (5 : Nat) < 27),
    hne _ (by decide : (6 : Nat) < 27), hne _ (by decide : (7 : Nat) < 27),
    hne _ (by decide : (8 : Nat) < 27), hne _ (by decide : (9 : Nat) < 27),
    hne _ (by decide : (10 : Nat) < 27), hne _ (by decide : (11 : Nat) < 27),
    hne _ (by decide : (12 : Nat) < 27), hne _ (by decide : (13 : Nat) < 27),
    hne _ (by decide : (14 : Nat) < 27), hne _ (by decide : (15 : Nat) < 27),
    hne _ (by decide : (16 : Nat) < 27), hne _ (by decide : (17 : Nat) < 27),
    hne _ (by decide : (18 : Nat) < 27), hne _ (by decide : (19 : Nat) < 27),
    hne _ (by decide : (20 : Nat) < 27), hne _ (by decide : (21 : Nat) < 27),
    hne _ (by decide : (22 : Nat) < 27), hne _ (by decide : (23 : Nat) < 27),
    hne _ (by decide : (24 : Nat) < 27), hne _ (by decide : (25 : Nat) < 27),
    hne _ (by decide : (26 : Nat) < 27)]

/-- At an undefined opcode the loop of `Instructions.String` goes round without
advancing, whatever the budget. -/
theorem stringLoop_undefined (ins : Instructions) (i : Nat) (op : Opcode)
    (hget : ins.get? i = some op) (hdef : definitions op = none) :
    ∀ (fuel : Nat) (out : String), stringLoop fuel ins i out = .outOfFuel := by
  intro fuel
  induction fuel with
  | zero => intro out; rfl
  | succ fuel ih =>
    intro out
    rw [stringLoop]
    simp only [hget, Lookup, hdef]
    exact ih _

/-- C27. Evaluation at byte sequences that are not well-formed.  On a
sequence that starts with an undefined opcode byte (any byte from 27 on), such
as the one-byte sequence `[27]`, the loop of `Instructions.String` writes the
error line and goes round at the same offset: no budget of iterations lets it
return.  On `OpConstant` with no or one operand byte after it the call panics
with an index out of range. -/
theorem C27_string_does_not_return :
    (∀ (op : Opcode) (rest : Instructions) (fuel : Nat), 27 ≤ op →
        Instructions.String fuel (op :: rest) = .outOfFuel)
    ∧ (∀ fuel : Nat, Instructions.String fuel [27] ≠ .done "ERROR: opcode 27 undefined\n")
    ∧ (∀ fuel : Nat, Instructions.String (fuel + 1) [OpConstant] = .crash "index out of range")
    ∧ (∀ fuel : Nat, Instructions.String (fuel + 1) [OpConstant, 1]
        = .crash "index out of range") := by
  have h1 : ∀ (op : Opcode) (rest : Instructions) (fuel : Nat), 27 ≤ op →
      Instructions.String fuel (op :: rest) = .outOfFuel := fun op rest fuel h =>
    stringLoop_undefined (op :: rest) 0 op rfl (definitions_undefined op h) fuel ""
  refine ⟨h1, fun fuel => ?_, fun fuel => rfl, fun fuel => rfl⟩
  rw [h1 27 [] fuel (Nat.le_refl _)]
  exact fun h => StringResult.noConfusion h

/-! ## Claims on the machine: locals, panics -/

theorem execute_local (run : VMM Unit) (op : Opcode) (h : op = OpGetLocal ∨ op = OpSetLocal)
    (m : VM) : execute run op m = .error ("unsupported opcode: " ++ toString op) m := by
  rcases h with rfl | rfl <;> rfl

/-- The error of the nested run of a call is the error of the call. -/
theorem call_error (run : VMM Unit) (m m1 : VM) (argc : Nat) (fnCode : List Nat)
    (nl np : Nat) (msg : String) (harg : m.instructions.get? m.ip = some argc)
    (hsp : argc + 1 ≤ m.sp) (hle : m.sp ≤ StackSize)
    (hfn : m.stack (m.sp - argc - 1) = some (.CompiledFunction fnCode nl np))
    (hrun : run { m with ip := 0, instructions := fnCode } = .error msg m1) :
    execute run OpCall m = .error msg m1 := by
  have hslot : calleeSlot argc { m with ip := m.ip + 1 }
      = .ok (m.sp - argc - 1, m.stack (m.sp - argc - 1)) { m with ip := m.ip + 1 } := by
    unfold calleeSlot
    rw [if_neg (by show ¬ m.sp < argc + 1; omega),
      if_pos (by show m.sp - argc - 1 < StackSize; omega)]
  rw [execute_OpCall]
  simp only [vmm_bind_apply, readByte, harg, advance, hslot, hfn, hrun]

theorem compile_identifier_local (name : String) (sym : Symbol) (c : Compiler)
    (hr : c.symTable.Resolve name = (sym, true)) (hs : sym.Scope = LocalScope) :
    Compile (.Identifier name) c
      = .ok () { c with instructions := c.instructions ++ [OpGetLocal, sym.Index % 256] } := by
  rw [Compile]
  simp only [bind_pure_comp, compilerM_bind_apply, resolve, hr]
  simp only [Bool.not_true, Bool.false_eq_true, if_false, emitGet]
  rw [if_neg (by rw [hs]; decide), if_pos hs]
  simp only [bind_pure_comp, Functor.map, compilerM_bind_apply,
    emit_apply _ _ _ _ (Make_narrow OpGetLocal "OpGetLocal" sym.Index rfl)]
  rfl

theorem compile_let_local (name : String) (value : Node) (c c1 : Compiler) (o : SymbolTable)
    (st : List (String × Symbol)) (n : Nat) (hv : Compile value c = .ok () c1)
    (ht : c1.symTable = .enclosed o st n) :
    Compile (.LetStatement name value) c
      = .ok () { c1 with instructions := c1.instructions ++ [OpSetLocal, n % 256],
                         symTable := .enclosed o (SymbolTable.storeSet st name
                           ⟨name, n, LocalScope⟩) (n + 1) } := by
  rw [Compile]
  simp only [bind_pure_comp, compilerM_bind_apply, hv, define, ht, SymbolTable.Define]
  rw [emitSet_local _ _ rfl]

/-- The machine does not honour locals.  Executing `OpGetLocal` or
`OpSetLocal` returns the error `unsupported opcode: <op>` and leaves the
machine as it is; a run that is at such an opcode returns that error with the
stack and `sp` unchanged; and the error of the nested run of a call is
returned by the calling run.  The compiler emits `OpGetLocal` for an
identifier that resolves to a Local symbol and `OpSetLocal` for a `let` inside
a function frame.  The tree of `fn id(a) { return a; } print id(1);` compiles,
and its run returns `unsupported opcode: 21`, having printed nothing. -/
theorem locals_unsupported :
    (∀ (run : VMM Unit) (op : Opcode) (m : VM), op = OpGetLocal ∨ op = OpSetLocal →
        execute run op m = .error ("unsupported opcode: " ++ toString op) m)
    ∧ (∀ (fuel : Nat) (m : VM) (op : Opcode), m.instructions.get? m.ip = some op →
        op = OpGetLocal ∨ op = OpSetLocal →
        Run (fuel + 1) m
          = .error ("unsupported opcode: " ++ toString op) { m with ip := m.ip + 1 })
    ∧ (∀ (fuel : Nat) (m m1 : VM) (argc : Nat) (fnCode : List Nat) (nl np : Nat) (msg : String),
        m.instructions.get? m.ip = some OpCall → m.instructions.get? (m.ip + 1) = some argc →
        argc + 1 ≤ m.sp → m.sp ≤ StackSize →
        m.stack (m.sp - argc - 1) = some (.CompiledFunction fnCode nl np) →
        Run fuel { m with ip := 0, instructions := fnCode } = .error msg m1 →
        Run (fuel + 1) m = .error msg m1)
    ∧ (∀ (name : String) (sym : Symbol) (c : Compiler),
        c.symTable.Resolve name = (sym, true) → sym.Scope = LocalScope →
        Compile (.Identifier name) c
          = .ok () { c with instructions := c.instructions ++ [OpGetLocal, sym.Index % 256] })
    ∧ (∀ (name : String) (value : Node) (c c1 : Compiler) (o : SymbolTable)
        (st : List (String × Symbol)) (n : Nat),
        Compile value c = .ok () c1 → c1.symTable = .enclosed o st n →
        ∃ c2, Compile (.LetStatement name value) c = .ok () c2
          ∧ c2.instructions = c1.instructions ++ [OpSetLocal, n % 256])
    ∧ Compile (.Program [.FunctionStatement "id" ["a"]
          (.BlockStatement [.ReturnStatement (some (.Identifier "a"))]),
        .PrintStatement (.CallExpression (.Identifier "id") [.IntegerLiteral 1])]) compiler.New
      = .ok ()
          { instructions := [OpConstant, 0, 0, OpSetGlobal, 0, 0, OpGetGlobal, 0, 0,
              OpConstant, 0, 1, OpCall, 1, OpPrint],
            constants := [.CompiledFunction [OpGetLocal, 0, OpReturnValue, OpReturn] 1 1,
              .Integer 1],
            symTable := .root [("id", ⟨"id", 0, GlobalScope⟩)] 1 }
    ∧ (Run 20 (vm.New [OpConstant, 0, 0, OpSetGlobal, 0, 0, OpGetGlobal, 0, 0,
              OpConstant, 0, 1, OpCall, 1, OpPrint]
          [.CompiledFunction [OpGetLocal, 0, OpReturnValue, OpReturn] 1 1,
              .Integer 1])).errorMessage = some "unsupported opcode: 21"
    ∧ (Run 20 (vm.New [OpConstant, 0, 0, OpSetGlobal, 0, 0, OpGetGlobal, 0, 0,
              OpConstant, 0, 1, OpCall, 1, OpPrint]
          [.CompiledFunction [OpGetLocal, 0, OpReturnValue, OpReturn] 1 1,
              .Integer 1])).printed = some [] := by
  refine ⟨fun run op m h => execute_local run op h m, ?_, ?_, compile_identifier_local, ?_,
    by decide!, by decide!, by decide!⟩
  · intro fuel m op hget hop
    rw [run_succ fuel m op hget, execute_local _ op hop]
  · intro fuel m m1 argc fnCode nl np msg hop harg hsp hle hfn hrun
    rw [run_succ fuel m OpCall hop,
      call_error (Run fuel) { m with ip := m.ip + 1 } m1 argc fnCode nl np msg harg hsp hle hfn
        hrun]
  · intro name value c c1 o st n hv ht
    exact ⟨_, compile_let_local name value c c1 o st n hv ht, rfl⟩

/-- C25. Evaluation at two function literals whose executed body contains a
`let`, or reads a parameter, before a nested function literal.  For
`fn f() { let y = 2; fn() { 1 }; } print f();` the bytes of `let y = 2`
(`OpConstant 0`, `OpSetLocal 0`) end in the code of the nested function, the
code of `f` is `OpConstant 2`, `OpPop`, `OpReturn`, and the run returns without
an error, having printed `null`.  For `fn g(a) { a; fn() { 1 }; } print g(7);`
the bytes of the read of `a` (`OpGetLocal 0`, `OpPop`) end in the code of the
nested function likewise, and the run returns without an error, having printed
`null`.  Neither call returns the runtime error `unsupported opcode`. -/
theorem C25_nested_literal_takes_local_opcodes :
    Compile (.Program [.FunctionStatement "f" []
          (.BlockStatement [.LetStatement "y" (.IntegerLiteral 2),
            .ExpressionStatement (.FunctionLiteral []
              (.BlockStatement [.ExpressionStatement (.IntegerLiteral 1)]))]),
        .PrintStatement (.CallExpression (.Identifier "f") [])]) compiler.New
      = .ok ()
          { instructions := [OpConstant, 0, 3, OpSetGlobal, 0, 0, OpGetGlobal, 0, 0,
              OpCall, 0, OpPrint],
            constants := [.Integer 2, .Integer 1,
              .CompiledFunction [OpConstant, 0, 0, OpSetLocal, 0, OpConstant, 0, 1, OpPop,
                OpReturn] 0 0,
              .CompiledFunction [OpConstant, 0, 2, OpPop, OpReturn] 1 0],
            symTable := .root [("f", ⟨"f", 0, GlobalScope⟩)] 1 }
    ∧ (Run 20 (vm.New [OpConstant, 0, 3, OpSetGlobal, 0, 0, OpGetGlobal, 0, 0,
              OpCall, 0, OpPrint]
          [.Integer 2, .Integer 1,
            .CompiledFunction [OpConstant, 0, 0, OpSetLocal, 0, OpConstant, 0, 1, OpPop,
              OpReturn] 0 0,
            .CompiledFunction [OpConstant, 0, 2, OpPop, OpReturn] 1 0])).errorMessage = none
    ∧ (Run 20 (vm.New [OpConstant, 0, 3, OpSetGlobal, 0, 0, OpGetGlobal, 0, 0,
              OpCall, 0, OpPrint]
          [.Integer 2, .Integer 1,
            .CompiledFunction [OpConstant, 0, 0, OpSetLocal, 0, OpConstant, 0, 1, OpPop,
              OpReturn] 0 0,
            .CompiledFunction [OpConstant, 0, 2, OpPop, OpReturn] 1 0])).printed
        = some ["null"]
    ∧ Compile (.Program [.FunctionStatement "g" ["a"]
          (.BlockStatement [.ExpressionStatement (.Identifier "a"),
            .ExpressionStatement (.FunctionLiteral []
              (.BlockStatement [.ExpressionStatement (.IntegerLiteral 1)]))]),
        .PrintStatement (.CallExpression (.Identifier "g") [.IntegerLiteral 7])]) compiler.New
      = .ok ()
          { instructions := [OpConstant, 0, 2, OpSetGlobal, 0, 0, OpGetGlobal, 0, 0,
              OpConstant, 0, 3, OpCall, 1, OpPrint],
            constants := [.Integer 1,
              .CompiledFunction [OpGetLocal, 0, OpPop, OpConstant, 0, 0, OpPop, OpReturn] 0 0,
              .CompiledFunction [OpConstant, 0, 1, OpPop, OpReturn] 1 1,
              .Integer 7],
            symTable := .root [("g", ⟨"g", 0, GlobalScope⟩)] 1 }
    ∧ (Run 20 (vm.New [OpConstant, 0, 2, OpSetGlobal, 0, 0, OpGetGlobal, 0, 0,
              OpConstant, 0, 3, OpCall, 1, OpPrint]
          [.Integer 1,
            .CompiledFunction [OpGetLocal, 0, OpPop, OpConstant, 0, 0, OpPop, OpReturn] 0 0,
            .CompiledFunction [OpConstant, 0, 1, OpPop, OpReturn] 1 1,
            .Integer 7])).errorMessage = none
    ∧ (Run 20 (vm.New [OpConstant, 0, 2, OpSetGlobal, 0, 0, OpGetGlobal, 0, 0,
              OpConstant, 0, 3, OpCall, 1, OpPrint]
          [.Integer 1,
            .CompiledFunction [OpGetLocal, 0, OpPop, OpConstant, 0, 0, OpPop, OpReturn] 0 0,
            .CompiledFunction [OpConstant, 0, 1, OpPop, OpReturn] 1 1,
            .Integer 7])).printed = some ["null"] := by
  refine ⟨by decide!, by decide!, by decide!, by decide!, by decide!, by decide!⟩

/-- C26. Evaluation at two trees that `Compile` accepts.  For
`fn f(a) { 1 } f(if (true) { 1 });` the if-expression leaves no value on the
stack, so `OpCall 1` finds `sp = 1` and indexes the stack at `sp - argc - 1`,
below 0: the run panics with an index out of range.  For
`let x = 5; fn f() { 1 } print x;` the run reads the unset global 0 and
`OpPrint` calls `Inspect` on the nil value: the run panics with a nil
dereference.  Neither failure is an error returned by `Run`. -/
theorem C26_run_panics_on_compiler_output :
    Compile (.Program [.FunctionStatement "f" ["a"]
          (.BlockStatement [.ExpressionStatement (.IntegerLiteral 1)]),
        .ExpressionStatement (.CallExpression (.Identifier "f")
          [.IfExpression (.Boolean true)
            (.BlockStatement [.ExpressionStatement (.IntegerLiteral 1)]) none])]) compiler.New
      = .ok ()
          { instructions := [OpConstant, 0, 1, OpSetGlobal, 0, 0, OpGetGlobal, 0, 0, OpTrue,
              OpJumpNotTruthy, 0, 20, OpConstant, 0, 2, OpPop, OpJump, 0, 20, OpCall, 1, OpPop],
            constants := [.Integer 1, .CompiledFunction [OpConstant, 0, 0, OpPop, OpReturn] 1 1,
              .Integer 1],
            symTable := .root [("f", ⟨"f", 0, GlobalScope⟩)] 1 }
    ∧ (Run 20 (vm.New [OpConstant, 0, 1, OpSetGlobal, 0, 0, OpGetGlobal, 0, 0, OpTrue,
              OpJumpNotTruthy, 0, 20, OpConstant, 0, 2, OpPop, OpJump, 0, 20, OpCall, 1, OpPop]
          [.Integer 1, .CompiledFunction [OpConstant, 0, 0, OpPop, OpReturn] 1 1,
              .Integer 1])).crashMessage = some "index out of range"
    ∧ Compile (.Program [.LetStatement "x" (.IntegerLiteral 5),
        .FunctionStatement "f" [] (.BlockStatement [.ExpressionStatement (.IntegerLiteral 1)]),
        .PrintStatement (.Identifier "x")]) compiler.New
      = .ok ()
          { instructions := [OpConstant, 0, 2, OpSetGlobal, 0, 1, OpGetGlobal, 0, 0, OpPrint],
            constants := [.Integer 5, .Integer 1,
              .CompiledFunction [OpConstant, 0, 0, OpSetGlobal, 0, 0, OpConstant, 0, 1, OpPop,
                OpReturn] 0 0],
            symTable := .root [("f", ⟨"f", 1, GlobalScope⟩), ("x", ⟨"x", 0, GlobalScope⟩)] 2 }
    ∧ (Run 20 (vm.New [OpConstant, 0, 2, OpSetGlobal, 0, 1, OpGetGlobal, 0, 0, OpPrint]
          [.Integer 5, .Integer 1,
            .CompiledFunction [OpConstant, 0, 0, OpSetGlobal, 0, 0, OpConstant, 0, 1, OpPop,
              OpReturn] 0 0])).crashMessage = some "nil pointer dereference" := by
  decide!

/-! ## Compiler: what it appends to the buffer -/

theorem overwrite_at (new : List Nat) :
    ∀ (pre old post : List Nat), old.length = new.length →
      overwrite (pre ++ old ++ post) pre.length new = some (pre ++ new ++ post) := by
  induction new with
  | nil =>
    intro pre old post h
    have : old = [] := List.length_eq_zero.mp h
    subst this
    rfl
  | cons b bs ih =>
    intro pre old post h
    cases old with
    | nil => simp at h
    | cons o os =>
      have hlt : pre.length < (pre ++ (o :: os) ++ post).length := by
        simp only [List.length_append, List.length_cons]
        omega
      have hset : (pre ++ (o :: os) ++ post).set pre.length b = (pre ++ [b]) ++ os ++ post := by
        rw [List.append_assoc, List.set_append_right _ _ (Nat.le_refl _), Nat.sub_self]
        simp
      rw [overwrite, if_pos hlt, hset]
      have := ih (pre ++ [b]) os post (by simpa using h)
      rw [List.length_append, List.length_singleton] at this
      rw [this]
      simp

/-- Backpatching: `replaceOperand` at the position of an instruction with a
2-byte operand rewrites that operand and nothing else. -/
theorem replaceOperand_at (pre post : List Nat) (op a b t : Nat) (name : String)
    (hdef : definitions op = some ⟨name, [2]⟩) (c : Compiler)
    (hc : c.instructions = pre ++ [op, a, b] ++ post) :
    replaceOperand pre.length t c
      = .ok () { c with instructions := pre ++ [op, t / 256 % 256, t % 256] ++ post } := by
  have hget : (pre ++ [op, a, b] ++ post).get? pre.length = some op := by
    rw [List.append_assoc]
    exact get?_append_cons pre op _
  unfold replaceOperand
  simp only [hc, hget, Make_wide op name t hdef, replaceInstruction]
  rw [overwrite_at [op, t / 256 % 256, t % 256] pre [op, a, b] post rfl]

theorem appends_pure {α : Type} (a : α) : Appends (pure a : CompilerM α) := by
  intro c b c1 h
  rw [compilerM_pure_apply, compiler.Result.ok.injEq] at h
  exact ⟨[], by rw [← h.2, List.append_nil]⟩

theorem appends_bind {α β : Type} (x : CompilerM α) (f : α → CompilerM β) (hx : Appends x)
    (hf : ∀ a, Appends (f a)) : Appends (x >>= f) := by
  intro c b c2 h
  rw [compilerM_bind_apply] at h
  cases hxc : x c with
  | ok a c1 =>
    rw [hxc] at h
    obtain ⟨L1, e1⟩ := hx c a c1 hxc
    obtain ⟨L2, e2⟩ := hf a c1 b c2 h
    exact ⟨L1 ++ L2, by rw [e2, e1, List.append_assoc]⟩
  | error msg c1 => rw [hxc] at h; exact compiler.Result.noConfusion h
  | crash msg => rw [hxc] at h; exact compiler.Result.noConfusion h

theorem appends_fail {α : Type} (msg : String) : Appends (compiler.fail msg : CompilerM α) :=
  fun _ _ _ h => compiler.Result.noConfusion h

theorem appends_of_same {α : Type} (x : CompilerM α)
    (h : ∀ c a c1, x c = .ok a c1 → c1.instructions = c.instructions) : Appends x :=
  fun c a c1 hx => ⟨[], by rw [h c a c1 hx, List.append_nil]⟩

theorem appends_emit (op : Opcode) (operands : List Nat) : Appends (emit op operands) := by
  intro c a c1 h
  unfold emit at h
  cases hm : Make op operands with
  | none => rw [hm] at h; exact compiler.Result.noConfusion h
  | some ins =>
    rw [hm, compiler.Result.ok.injEq] at h
    exact ⟨ins, by rw [← h.2]⟩

theorem appends_addConstant (o : Object) : Appends (addConstant o) :=
  appends_of_same _ (fun c a c1 h => by
    unfold addConstant at h
    rw [compiler.Result.ok.injEq] at h
    rw [← h.2])

theorem appends_define (name : String) : Appends (define name) :=
  appends_of_same _ (fun c a c1 h => by
    unfold define at h
    rw [compiler.Result.ok.injEq] at h
    rw [← h.2])

theorem appends_resolve (name : String) : Appends (resolve name) :=
  appends_of_same _ (fun c a c1 h => by
    unfold resolve at h
    rw [compiler.Result.ok.injEq] at h
    rw [← h.2])

theorem appends_ite {α : Type} (p : Prop) [Decidable p] (x y : CompilerM α) (hx : Appends x)
    (hy : Appends y) : Appends (if p then x else y) := by
  by_cases h : p
  · rw [if_pos h]; exact hx
  · rw [if_neg h]; exact hy

theorem appends_discard {α : Type} (x : CompilerM α) (hx : Appends x) :
    Appends (do let _ ← x; pure PUnit.unit : CompilerM PUnit) :=
  appends_bind _ _ hx (fun _ => appends_pure _)

theorem appends_emitSet (sym : Symbol) : Appends (emitSet sym) := by
  unfold emitSet
  exact appends_ite _ _ _ (appends_discard _ (appends_emit _ _))
    (appends_ite _ _ _ (appends_discard _ (appends_emit _ _)) (appends_pure _))

theorem appends_emitGet (sym : Symbol) : Appends (emitGet sym) := by
  unfold emitGet
  exact appends_ite _ _ _ (appends_discard _ (appends_emit _ _))
    (appends_ite _ _ _ (appends_discard _ (appends_emit _ _)) (appends_pure _))

theorem compile_if_unfold (cond cons : Node) (alt : Option Node) (c : Compiler) :
    Compile (.IfExpression cond cons alt) c
      = (match Compile cond c with
        | .ok _ c1 =>
          match Compile cons { c1 with instructions := c1.instructions
                                 ++ [OpJumpNotTruthy, 39, 15] } with
          | .ok _ c3 =>
            match replaceOperand c1.instructions.length (c3.instructions.length + 3)
                { c3 with instructions := c3.instructions ++ [OpJump, 39, 15] } with
            | .ok _ c5 =>
              match CompileAlternative alt c5 with
              | .ok _ c6 => replaceOperand c3.instructions.length c6.instructions.length c6
              | .error msg c6 => .error msg c6
              | .crash msg => .crash msg
            | .error msg c5 => .error msg c5
            | .crash msg => .crash msg
          | .error msg c3 => .error msg c3
          | .crash msg => .crash msg
        | .error msg c1 => .error msg c1
        | .crash msg => .crash msg) := by
  rw [Compile]
  simp only [compilerM_bind_apply, lenInstructions,
    emit_apply _ _ _ _ (Make_wide OpJumpNotTruthy "OpJumpNotTruthy" 9999 rfl),
    emit_apply _ _ _ _ (Make_wide OpJump "OpJump" 9999 rfl)]
  cases h1 : Compile cond c with
  | ok a c1 =>
    simp only []
    cases h2 : Compile cons { c1 with instructions := c1.instructions
                                 ++ [OpJumpNotTruthy, 39, 15] } with
    | ok a3 c3 =>
      simp only [List.length_append, List.length_cons, List.length_nil, Nat.zero_add,
        Nat.reduceAdd, Nat.reduceDiv, Nat.reduceMod]
      generalize replaceOperand c1.instructions.length (c3.instructions.length + 3)
        { c3 with instructions := c3.instructions ++ [OpJump, 39, 15] } = r
      cases r with
      | ok a5 c5 =>
        simp only []
        cases CompileAlternative alt c5 <;> rfl
      | error msg c5 => rfl
      | crash msg => rfl
    | error msg c3 => rfl
    | crash msg => rfl
  | error msg c1 => rfl
  | crash msg => rfl

theorem compile_while_unfold (cond body : Node) (c : Compiler) :
    Compile (.WhileStatement cond body) c
      = (match Compile cond c with
        | .ok _ c1 =>
          match Compile body { c1 with instructions := c1.instructions
                                 ++ [OpJumpNotTruthy, 39, 15] } with
          | .ok _ c3 =>
            replaceOperand c1.instructions.length (c3.instructions.length + 3)
              { c3 with instructions := c3.instructions
                  ++ [OpJump, c.instructions.length / 256 % 256, c.instructions.length % 256] }
          | .error msg c3 => .error msg c3
          | .crash msg => .crash msg
        | .error msg c1 => .error msg c1
        | .crash msg => .crash msg) := by
  rw [Compile]
  simp only [compilerM_bind_apply, lenInstructions,
    emit_apply _ _ _ _ (Make_wide OpJumpNotTruthy "OpJumpNotTruthy" 9999 rfl),
    emit_apply _ _ _ _ (Make_wide OpJump "OpJump" _ rfl)]
  cases h1 : Compile cond c with
  | ok a c1 =>
    simp only []
    cases h2 : Compile body { c1 with instructions := c1.instructions
                                 ++ [OpJumpNotTruthy, 39, 15] } with
    | ok a3 c3 =>
      simp only [List.length_append, List.length_cons, List.length_nil, Nat.zero_add,
        Nat.reduceAdd, Nat.reduceDiv, Nat.reduceMod]
    | error msg c3 => rfl
    | crash msg => rfl
  | error msg c1 => rfl
  | crash msg => rfl

/-- The shape of a compiled `if`: the lowering of the condition, the
conditional jump over the consequence and the jump after it, the lowering of
the consequence, the jump over the alternative, and the lowering of the
alternative. -/
theorem compile_if_shape (cond cons : Node) (alt : Option Node) (c c' : Compiler)
    (hC : Appends (Compile cond)) (hK : Appends (Compile cons))
    (hA : Appends (CompileAlternative alt))
    (h : Compile (.IfExpression cond cons alt) c = .ok () c') :
    ∃ (c1 c3 c6 : Compiler) (C K A : List Nat),
      Compile cond c = .ok () c1 ∧ c1.instructions = c.instructions ++ C
      ∧ Compile cons { c1 with instructions := c1.instructions ++ [OpJumpNotTruthy, 39, 15] }
          = .ok () c3
      ∧ c3.instructions = c.instructions ++ C ++ [OpJumpNotTruthy, 39, 15] ++ K
      ∧ CompileAlternative alt
          { c3 with instructions := c.instructions ++ C
              ++ [OpJumpNotTruthy,
                  (c.instructions.length + C.length + 3 + K.length + 3) / 256 % 256,
                  (c.instructions.length + C.length + 3 + K.length + 3) % 256]
              ++ (K ++ [OpJump, 39, 15]) } = .ok () c6
      ∧ c6.instructions = c.instructions ++ C
              ++ [OpJumpNotTruthy,
                  (c.instructions.length + C.length + 3 + K.length + 3) / 256 % 256,
                  (c.instructions.length + C.length + 3 + K.length + 3) % 256]
              ++ (K ++ [OpJump, 39, 15]) ++ A
      ∧ c' = { c6 with instructions := c.instructions ++ C
              ++ [OpJumpNotTruthy,
                  (c.instructions.length + C.length + 3 + K.length + 3) / 256 % 256,
                  (c.instructions.length + C.length + 3 + K.length + 3) % 256]
              ++ K
              ++ [OpJump,
                  (c.instructions.length + C.length + 3 + K.length + 3 + A.length) / 256 % 256,
                  (c.instructions.length + C.length + 3 + K.length + 3 + A.length) % 256]
              ++ A } := by
  rw [compile_if_unfold] at h
  cases h1 : Compile cond c with
  | error msg c1 => rw [h1] at h; exact compiler.Result.noConfusion h
  | crash msg => rw [h1] at h; exact compiler.Result.noConfusion h
  | ok u1 c1 =>
    obtain ⟨C, e1⟩ := hC c u1 c1 h1
    rw [h1] at h
    simp only [] at h
    cases h2 : Compile cons { c1 with instructions := c1.instructions
                                 ++ [OpJumpNotTruthy, 39, 15] } with
    | error msg c3 => rw [h2] at h; exact compiler.Result.noConfusion h
    | crash msg => rw [h2] at h; exact compiler.Result.noConfusion h
    | ok u3 c3 =>
      obtain ⟨K, e2⟩ := hK _ u3 c3 h2
      have e2' : c3.instructions = c.instructions ++ C ++ [OpJumpNotTruthy, 39, 15] ++ K := by
        rw [e2, e1]
      rw [h2] at h
      simp only [] at h
      have hpos : c1.instructions.length = (c.instructions ++ C).length := by rw [e1]
      have ht : c3.instructions.length + 3
          = c.instructions.length + C.length + 3 + K.length + 3 := by
        rw [e2']
        simp only [List.length_append, List.length_cons, List.length_nil]
      have hr1 := replaceOperand_at (c.instructions ++ C) (K ++ [OpJump, 39, 15])
        OpJumpNotTruthy 39 15 (c.instructions.length + C.length + 3 + K.length + 3)
        "OpJumpNotTruthy" rfl
        { c3 with instructions := c3.instructions ++ [OpJump, 39, 15] }
        (by show c3.instructions ++ [OpJump, 39, 15] = _
            rw [e2', List.append_assoc _ K])
      rw [hpos, ht, hr1] at h
      simp only [] at h
      cases h3 : CompileAlternative alt
          { c3 with instructions := c.instructions ++ C
              ++ [OpJumpNotTruthy,
                  (c.instructions.length + C.length + 3 + K.length + 3) / 256 % 256,
                  (c.instructions.length + C.length + 3 + K.length + 3) % 256]
              ++ (K ++ [OpJump, 39, 15]) } with
      | error msg c6 => rw [h3] at h; exact compiler.Result.noConfusion h
      | crash msg => rw [h3] at h; exact compiler.Result.noConfusion h
      | ok u6 c6 =>
        obtain ⟨A, e3⟩ := hA _ u6 c6 h3
        rw [h3] at h
        simp only [] at h
        have hpos2 : c3.instructions.length
            = (c.instructions ++ C
              ++ [OpJumpNotTruthy,
                  (c.instructions.length + C.length + 3 + K.length + 3) / 256 % 256,
                  (c.instructions.length + C.length + 3 + K.length + 3) % 256]
              ++ K).length := by
          rw [e2']
          simp only [List.length_append, List.length_cons, List.length_nil]
        have ht2 : c6.instructions.length
            = c.instructions.length + C.length + 3 + K.length + 3 + A.length := by
          rw [e3]
          simp only [List.length_append, List.length_cons, List.length_nil]
          omega
        have hr2 := replaceOperand_at (c.instructions ++ C
              ++ [OpJumpNotTruthy,
                  (c.instructions.length + C.length + 3 + K.length + 3) / 256 % 256,
                  (c.instructions.length + C.length + 3 + K.length + 3) % 256]
              ++ K) A OpJump 39 15
          (c.instructions.length + C.length + 3 + K.length + 3 + A.length) "OpJump" rfl c6
          (by rw [e3]; simp only [List.append_assoc])
        rw [hpos2, ht2, hr2, compiler.Result.ok.injEq] at h
        exact ⟨c1, c3, c6, C, K, A, rfl, e1, h2, e2', h3, e3, h.2.symm⟩

theorem appends_if (cond cons : Node) (alt : Option Node)
    (hC : Appends (Compile cond)) (hK : Appends (Compile cons))
    (hA : Appends (CompileAlternative alt)) :
    Appends (Compile (.IfExpression cond cons alt)) := by
  intro c u c' h
  obtain ⟨c1, c3, c6, C, K, A, _, _, _, _, _, _, e⟩ := compile_if_shape cond cons alt c c' hC hK hA h
  rw [e]
  exact ⟨_, by simp only [List.append_assoc]; rfl⟩

theorem appends_while (cond body : Node)
    (hC : Appends (Compile cond)) (hB : Appends (Compile body)) :
    Appends (Compile (.WhileStatement cond body)) := by
  intro c u c' h
  rw [compile_while_unfold] at h
  cases h1 : Compile cond c with
  | error msg c1 => rw [h1] at h; exact compiler.Result.noConfusion h
  | crash msg => rw [h1] at h; exact compiler.Result.noConfusion h
  | ok u1 c1 =>
    obtain ⟨C, e1⟩ := hC c u1 c1 h1
    rw [h1] at h
    simp only [] at h
    cases h2 : Compile body { c1 with instructions := c1.instructions
                                 ++ [OpJumpNotTruthy, 39, 15] } with
    | error msg c3 => rw [h2] at h; exact compiler.Result.noConfusion h
    | crash msg => rw [h2] at h; exact compiler.Result.noConfusion h
    | ok u3 c3 =>
      obtain ⟨B, e2⟩ := hB _ u3 c3 h2
      have e2' : c3.instructions = c.instructions ++ C ++ [OpJumpNotTruthy, 39, 15] ++ B := by
        rw [e2, e1]
      rw [h2] at h
      simp only [] at h
      have hpos : c1.instructions.length = (c.instructions ++ C).length := by rw [e1]
      have hr1 := replaceOperand_at (c.instructions ++ C)
        (B ++ [OpJump, c.instructions.length / 256 % 256, c.instructions.length % 256])
        OpJumpNotTruthy 39 15 (c3.instructions.length + 3) "OpJumpNotTruthy" rfl
        { c3 with instructions := c3.instructions
            ++ [OpJump, c.instructions.length / 256 % 256, c.instructions.length % 256] }
        (by show c3.instructions ++ [OpJump, _, _] = _
            rw [e2', List.append_assoc _ B])
      rw [hpos, hr1, compiler.Result.ok.injEq] at h
      rw [← h.2]
      exact ⟨_, by simp only [List.append_assoc]; rfl⟩

mutual
/-- Compiling a tree that contains no function only appends to the buffer. -/
theorem compile_appends : ∀ (n : Node), noFunction n = true → Appends (Compile n)
  | .Program stmts, hn => by
    rw [Compile]
    exact compileAll_appends stmts (by simpa [noFunction] using hn)
  | .ExpressionStatement e, hn => by
    rw [Compile]
    exact appends_bind _ _ (compile_appends e (by simpa [noFunction] using hn))
      (fun _ => appends_discard _ (appends_emit _ _))
  | .IntegerLiteral v, _ => by
    rw [Compile]
    exact appends_bind _ _ (appends_addConstant _) (fun _ => appends_discard _ (appends_emit _ _))
  | .Boolean v, _ => by
    rw [Compile]
    exact appends_ite _ _ _ (appends_discard _ (appends_emit _ _))
      (appends_discard _ (appends_emit _ _))
  | .PrefixExpression op right, hn => by
    rw [Compile]
    exact appends_bind _ _ (compile_appends right (by simpa [noFunction] using hn))
      (fun _ => appends_ite _ _ _ (appends_discard _ (appends_emit _ _))
        (appends_ite _ _ _ (appends_discard _ (appends_emit _ _)) (appends_fail _)))
  | .InfixExpression left op right, hn => by
    have hl : noFunction left = true := by
      simp only [noFunction, Bool.and_eq_true] at hn
      exact hn.1
    have hr : noFunction right = true := by
      simp only [noFunction, Bool.and_eq_true] at hn
      exact hn.2
    rw [Compile]
    refine appends_ite _ _ _ ?_ ?_
    · exact appends_bind _ _ (compile_appends right hr) (fun _ =>
        appends_bind _ _ (compile_appends left hl) (fun _ =>
          appends_ite _ _ _ (appends_discard _ (appends_emit _ _))
            (appends_discard _ (appends_emit _ _))))
    · exact appends_bind _ _ (compile_appends left hl) (fun _ =>
        appends_bind _ _ (compile_appends right hr) (fun _ =>
          appends_ite _ _ _ (appends_discard _ (appends_emit _ _))
          (appends_ite _ _ _ (appends_discard _ (appends_emit _ _))
          (appends_ite _ _ _ (appends_discard _ (appends_emit _ _))
          (appends_ite _ _ _ (appends_discard _ (appends_emit _ _))
          (appends_ite _ _ _ (appends_discard _ (appends_emit _ _))
          (appends_ite _ _ _ (appends_discard _ (appends_emit _ _))
          (appends_ite _ _ _ (appends_discard _ (appends_emit _ _))
          (appends_ite _ _ _ (appends_discard _ (appends_emit _ _))
            (appends_fail _)))))))))) 
  | .LetStatement name value, hn => by
    rw [Compile]
    exact appends_bind _ _ (compile_appends value (by simpa [noFunction] using hn))
      (fun _ => appends_bind _ _ (appends_define _) (fun _ => appends_emitSet _))
  | .Identifier name, _ => by
    rw [Compile]
    exact appends_bind _ _ (appends_resolve _) (fun r =>
      appends_ite _ _ _ (appends_fail _) (appends_emitGet _))
  | .AssignmentStatement name value, hn => by
    rw [Compile]
    exact appends_bind _ _ (compile_appends value (by simpa [noFunction] using hn))
      (fun _ => appends_bind _ _ (appends_resolve _) (fun r =>
        appends_ite _ _ _ (appends_fail _) (appends_emitSet _)))
  | .BlockStatement stmts, hn => by
    rw [Compile]
    exact compileAll_appends stmts (by simpa [noFunction] using hn)
  | .IfExpression cond cons alt, hn => by
    simp only [noFunction, Bool.and_eq_true] at hn
    exact appends_if cond cons alt (compile_appends cond hn.1.1) (compile_appends cons hn.1.2)
      (compileAlt_appends alt hn.2)
  | .WhileStatement cond body, hn => by
    simp only [noFunction, Bool.and_eq_true] at hn
    exact appends_while cond body (compile_appends cond hn.1) (compile_appends body hn.2)
  | .FunctionLiteral _ _, hn => by simp [noFunction] at hn
  | .FunctionStatement _ _ _, hn => by simp [noFunction] at hn
  | .CallExpression fn args, hn => by
    simp only [noFunction, Bool.and_eq_true] at hn
    rw [Compile]
    exact appends_bind _ _ (compile_appends fn hn.1) (fun _ =>
      appends_bind _ _ (compileAll_appends args hn.2) (fun _ =>
        appends_discard _ (appends_emit _ _)))
  | .ReturnStatement none, _ => by
    rw [Compile]
    exact appends_discard _ (appends_emit _ _)
  | .ReturnStatement (some v), hn => by
    rw [Compile]
    exact appends_bind _ _ (compile_appends v (by simpa [noFunction, noFunctionAlt] using hn))
      (fun _ => appends_discard _ (appends_emit _ _))
  | .PrintStatement value, hn => by
    rw [Compile]
    exact appends_bind _ _ (compile_appends value (by simpa [noFunction] using hn))
      (fun _ => appends_discard _ (appends_emit _ _))
  | .Nil, _ => by
    rw [Compile]
    exact appends_fail _
/-- Compiling a list of trees that contain no function only appends. -/
theorem compileAll_appends :
    ∀ (ns : List Node), noFunctionAll ns = true → Appends (CompileAll ns)
  | [], _ => by
    rw [CompileAll]
    exact appends_pure _
  | s :: ss, hn => by
    simp only [noFunctionAll, Bool.and_eq_true] at hn
    rw [CompileAll]
    exact appends_bind _ _ (compile_appends s hn.1) (fun _ => compileAll_appends ss hn.2)
/-- Compiling an alternative that contains no function only appends. -/
theorem compileAlt_appends :
    ∀ (a : Option Node), noFunctionAlt a = true → Appends (CompileAlternative a)
  | none, _ => by
    rw [CompileAlternative]
    exact appends_pure _
  | some a, hn => by
    rw [CompileAlternative]
    exact compile_appends a (by simpa [noFunctionAlt] using hn)
end

/-! ## Claim on the lowering of `if` -/

/-- C23. If-lowering shape.  For an `if` that contains no function, compiled
without error from a compiler whose buffer has length `p`, the buffer after is
the buffer before followed by `C ++ [OpJumpNotTruthy t1] ++ K ++ [OpJump t2] ++ A`,
where `C`, `K` and `A` are the bytes appended by compiling the condition, the
consequence and the alternative (in the states the compiler is in when it
reaches them), `t1 = p + |C| + 3 + |K| + 3` is the offset right after the
`OpJump` instruction and `t2 = t1 + |A|` the offset right after `A`; the
operands are the 2-byte big-endian forms of `t1` and `t2`, which read back as
`t1` and `t2` as long as `t2` fits 2 bytes.  With no alternative `A` is empty
and `t2 = t1`: the `OpJump` is still there and targets the next instruction. -/
theorem C23_if_lowering_shape (cond cons : Node) (alt : Option Node) (c c' : Compiler)
    (hn : noFunction (.IfExpression cond cons alt) = true)
    (h : Compile (.IfExpression cond cons alt) c = .ok () c') :
    ∃ (c1 c3 c6 : Compiler) (C K A : List Nat) (t1 t2 : Nat),
      t1 = c.instructions.length + C.length + 3 + K.length + 3 ∧ t2 = t1 + A.length
      ∧ Compile cond c = .ok () c1 ∧ c1.instructions = c.instructions ++ C
      ∧ Compile cons { c1 with instructions := c1.instructions ++ [OpJumpNotTruthy, 39, 15] }
          = .ok () c3
      ∧ c3.instructions = c1.instructions ++ [OpJumpNotTruthy, 39, 15] ++ K
      ∧ CompileAlternative alt
          { c3 with instructions := c.instructions ++ C ++ (OpJumpNotTruthy :: bigEndian 2 t1)
              ++ K ++ [OpJump, 39, 15] } = .ok () c6
      ∧ c6.instructions = c.instructions ++ C ++ (OpJumpNotTruthy :: bigEndian 2 t1)
              ++ K ++ [OpJump, 39, 15] ++ A
      ∧ c'.instructions = c.instructions ++ C ++ (OpJumpNotTruthy :: bigEndian 2 t1)
              ++ K ++ (OpJump :: bigEndian 2 t2) ++ A
      ∧ c'.constants = c6.constants ∧ c'.symTable = c6.symTable
      ∧ (alt = none → A = [] ∧ t2 = t1)
      ∧ (t2 < 65536 →
          ReadOperands ⟨"OpJumpNotTruthy", [2]⟩ (bigEndian 2 t1) = some ([t1], 2)
          ∧ ReadOperands ⟨"OpJump", [2]⟩ (bigEndian 2 t2) = some ([t2], 2)) := by
  have hn' := hn
  simp only [noFunction, Bool.and_eq_true] at hn'
  obtain ⟨c1, c3, c6, C, K, A, h1, e1, h2, e2, h3, e3, e⟩ := compile_if_shape cond cons alt c c'
    (compile_appends cond hn'.1.1) (compile_appends cons hn'.1.2) (compileAlt_appends alt hn'.2) h
  refine ⟨c1, c3, c6, C, K, A, _, _, rfl, rfl, h1, e1, h2, ?_, ?_, ?_, ?_, ?_, ?_, ?_, ?_⟩
  · rw [e2, e1]
  · rw [bigEndian_two]
    simpa only [List.append_assoc, List.cons_append, List.nil_append] using h3
  · rw [bigEndian_two, e3]
    simp only [List.append_assoc, List.cons_append, List.nil_append]
  · rw [e, bigEndian_two, bigEndian_two]
  · rw [e]
  · rw [e]
  · intro ha
    subst ha
    rw [CompileAlternative, compilerM_pure_apply, compiler.Result.ok.injEq] at h3
    rw [← h3.2] at e3
    have hA : A = [] := by
      have := congrArg List.length e3
      simp only [List.length_append] at this
      exact List.length_eq_zero.mp (by omega)
    exact ⟨hA, by rw [hA]; rfl⟩
  · intro ht
    have h1' : c.instructions.length + C.length + 3 + K.length + 3 < 65536 := by omega
    constructor
    · have := (make_read_round_trip OpJumpNotTruthy
        [c.instructions.length + C.length + 3 + K.length + 3] ⟨"OpJumpNotTruthy", [2]⟩
        ⟨rfl, List.Forall₂.cons (by simpa using h1') List.Forall₂.nil⟩)
      obtain ⟨bytes, _, _, hb, _, hr⟩ := this
      have := hr []
      rw [List.append_nil, hb] at this
      simpa using this
    · have := (make_read_round_trip OpJump
        [c.instructions.length + C.length + 3 + K.length + 3 + A.length] ⟨"OpJump", [2]⟩
        ⟨rfl, List.Forall₂.cons (by simpa using ht) List.Forall₂.nil⟩)
      obtain ⟨bytes, _, _, hb, _, hr⟩ := this
      have := hr []
      rw [List.append_nil, hb] at this
      simpa using this

/-- C23 at `if (true) { 1 }` compiled with a fresh compiler: the stream is
`OpTrue; OpJumpNotTruthy 11; OpConstant 0; OpPop; OpJump 11`. -/
theorem C23_if_lowering_shape_witness :
    Compile (.IfExpression (.Boolean true)
        (.BlockStatement [.ExpressionStatement (.IntegerLiteral 1)]) none) compiler.New
      = .ok () { instructions := [OpTrue, OpJumpNotTruthy, 0, 11, OpConstant, 0, 0, OpPop,
                   OpJump, 0, 11],
                 constants := [.Integer 1], symTable := .root [] 0 }
    ∧ ∃ (C K A : List Nat) (t1 t2 : Nat),
        t1 = 0 + C.length + 3 + K.length + 3 ∧ t2 = t1 + A.length
        ∧ [OpTrue, OpJumpNotTruthy, 0, 11, OpConstant, 0, 0, OpPop, OpJump, 0, 11]
          = [] ++ C ++ (OpJumpNotTruthy :: bigEndian 2 t1) ++ K ++ (OpJump :: bigEndian 2 t2)
              ++ A
        ∧ A = [] ∧ t2 = t1 := by
  have hc : Compile (.IfExpression (.Boolean true)
        (.BlockStatement [.ExpressionStatement (.IntegerLiteral 1)]) none) compiler.New
      = .ok () { instructions := [OpTrue, OpJumpNotTruthy, 0, 11, OpConstant, 0, 0, OpPop,
                   OpJump, 0, 11],
                 constants := [.Integer 1], symTable := .root [] 0 } := by decide!
  obtain ⟨c1, c3, c6, C, K, A, t1, t2, e1, e2, _, _, _, _, _, _, e, _, _, hnone, _⟩ :=
    C23_if_lowering_shape (.Boolean true)
      (.BlockStatement [.ExpressionStatement (.IntegerLiteral 1)]) none compiler.New _ rfl hc
  exact ⟨hc, C, K, A, t1, t2, e1, e2, e, (hnone rfl).1, (hnone rfl).2⟩

/-! ## Machine: the states a run passes through -/

theorem visits_sp_le (fuel : Nat) (m m1 : VM) (hv : Visits fuel m m1) :
    m.sp ≤ StackSize → m1.sp ≤ StackSize := by
  induction hv with
  | start fuel m => exact id
  | after fuel m op goOn m1 hget he =>
    intro hm
    have hk := keeps_execute (Run fuel) (keeps_Run fuel) op { m with ip := m.ip + 1 } hm
    rw [he] at hk
    exact hk.1
  | failed fuel m op msg m1 hget he =>
    intro hm
    have hk := keeps_execute (Run fuel) (keeps_Run fuel) op { m with ip := m.ip + 1 } hm
    rw [he] at hk
    exact hk
  | next fuel m op m1 m2 hget he _ ih =>
    intro hm
    have hk := keeps_execute (Run fuel) (keeps_Run fuel) op { m with ip := m.ip + 1 } hm
    rw [he] at hk
    exact ih hk.1
  | call fuel m argc fnCode nl np m2 hop harg hsp hlt hfn _ ih =>
    intro hm
    exact ih hm

/-- C22. The stack pointer stays in range.  A fresh machine has `sp = 0`;
every state a run passes through from a state with `sp <= 2048` (the state
after each instruction it executes, the nested runs of calls included) has
`sp <= 2048`, and `sp` is a natural number throughout because each decrement
in the source is guarded: popping the empty stack returns `Null` and leaves
`sp` at 0, and `OpCall` indexes the stack at `sp - argc - 1` before it resets
`sp` to that value plus one for the result.  A run that returns, with or
without an error, returns with `sp <= 2048`. -/
theorem C22_stack_pointer_in_range :
    (∀ (ins : Instructions) (constants : List Object), (vm.New ins constants).sp = 0)
    ∧ (∀ (fuel : Nat) (m m1 : VM), m.sp ≤ StackSize → Visits fuel m m1 → m1.sp ≤ StackSize)
    ∧ (∀ (fuel : Nat) (ins : Instructions) (constants : List Object) (m1 : VM),
        Visits fuel (vm.New ins constants) m1 → m1.sp ≤ StackSize)
    ∧ (∀ (fuel : Nat) (m : VM), m.sp ≤ StackSize →
        match Run fuel m with
        | .ok _ m1 => m1.sp ≤ StackSize
        | .error _ m1 => m1.sp ≤ StackSize
        | _ => True)
    ∧ (∀ m : VM, m.sp = 0 → pop m = .ok (some .Null) m)
    ∧ (∀ (fuel : Nat) (m m1 : VM) (argc : Nat) (fnCode : List Nat) (nl np : Nat),
        m.instructions.get? m.ip = some argc → argc + 1 ≤ m.sp → m.sp ≤ StackSize →
        m.stack (m.sp - argc - 1) = some (.CompiledFunction fnCode nl np) →
        Run fuel { m with ip := 0, instructions := fnCode } = .ok () m1 →
        ∃ m2, execute (Run fuel) OpCall m = .ok true m2 ∧ m2.sp = m.sp - argc
          ∧ m2.sp ≤ StackSize) := by
  refine ⟨fun _ _ => rfl, fun fuel m m1 hm hv => visits_sp_le fuel m m1 hv hm,
    fun fuel ins constants m1 hv => visits_sp_le fuel _ m1 hv (Nat.zero_le _), ?_, pop_empty, ?_⟩
  · intro fuel m hm
    have hk := keeps_Run fuel m hm
    cases hr : Run fuel m with
    | ok a m1 => rw [hr] at hk; exact hk.1
    | error msg m1 => rw [hr] at hk; exact hk
    | crash msg => trivial
    | outOfFuel => trivial
  · intro fuel m m1 argc fnCode nl np harg hsp hle hfn hrun
    have h1 : m1.sp ≤ StackSize :=
      run_sp_le fuel { m with ip := 0, instructions := fnCode } m1 hle hrun
    obtain ⟨m2, he, h2, _⟩ := call_returns (Run fuel) m m1 argc fnCode nl np harg hsp hle hfn
      hrun h1
    exact ⟨m2, he, h2, by rw [h2]; omega⟩

/-- C22 at the stream `OpTrue`: the run passes through the state with
`sp = 1`. -/
theorem C22_stack_pointer_in_range_witness :
    ∃ m1, Visits 1 (vm.New [OpTrue] []) m1 ∧ m1.sp = 1 ∧ m1.sp ≤ StackSize := by
  have hv : Visits 1 (vm.New [OpTrue] [])
      { (vm.New [OpTrue] []) with
        ip := 1, stack := Function.update (fun _ => none) 0 (some (.Boolean true)), sp := 1 } :=
    Visits.after 0 (vm.New [OpTrue] []) OpTrue true _ rfl rfl
  exact ⟨_, hv, rfl, C22_stack_pointer_in_range.2.2.1 1 [OpTrue] [] _ hv⟩

/-! ## Claim on the parser -/

section

open parser

/-! ## Lexer: the tokens of a text of let statements -/

theorem lexer.lexerAfter_succ (T : Tables) (input : List Char) (k : Nat) :
    lexerAfter T input (k + 1) = (NextToken T (lexerAfter T input k)).2 := by
  rw [lexerAfter]

theorem lexer.before_New (input : List Char) : Before (lexer.New input) [] input := by
  cases input with
  | nil =>
    refine ⟨⟨?_, ?_, [], [], ?_, ?_⟩, ?_⟩ <;> simp [lexer.New, readRune, utf8.byteLen]
  | cons c post =>
    have hc := Char.utf8Size_pos c
    have hnot : ¬ (0 ≥ utf8.byteLen (c :: post)) := by
      simp only [utf8.byteLen]
      omega
    show AtChar _ [] c post
    unfold lexer.New readRune
    simp only [hnot, if_false, utf8.DecodeRuneInString, if_true]
    by_cases hnl : c = Char.ofNat 0x0A
    · rw [if_pos hnl]
      refine ⟨rfl, rfl, by simp [utf8.byteLen], rfl, ?_, ?_⟩
      · simp [hnl, newline]
      · simp [columnAfter, hnl, newline]
    · rw [if_neg hnl]
      refine ⟨rfl, rfl, by simp [utf8.byteLen], rfl, ?_, ?_⟩
      · show 1 = 1 + List.count newline ([] ++ [c])
        have h0 : List.count newline [c] = 0 :=
          List.count_eq_zero.mpr (fun hm => hnl (List.mem_singleton.mp hm).symm)
        rw [List.nil_append, h0]
      · have hb : (c != Char.ofNat 10) = true := by simpa using hnl
        simp [columnAfter, newline, List.takeWhile, hb]

theorem lexer.before_readRune (l : Lexer) (pre : List Char) (c : Char) (post : List Char)
    (h : AtChar l pre c post) : Before (readRune l) (pre ++ [c]) post := by
  cases post with
  | nil =>
    refine ⟨lexer.atEnd_of_last l pre c h, ?_⟩
    rw [lexer.readRune_input, h.1]
  | cons d post => exact lexer.readRune_step l pre c d post h

theorem lexer.before_ch_nil (l : Lexer) (pre : List Char) (h : Before l pre []) :
    l.ch = Char.ofNat 0 := h.1.1

theorem lexer.before_input (l : Lexer) (pre rest : List Char) (h : Before l pre rest) :
    l.input = pre ++ rest := by
  cases rest with
  | nil => rw [h.2, List.append_nil]
  | cons c post => exact h.1

/-- The loop reads exactly the code points that satisfy its condition. -/
theorem lexer.readWhile_before (p : Char → Bool) (hp : p (Char.ofNat 0) = false)
    (rest : List Char) (hrest : ∀ d post, rest = d :: post → p d = false) :
    ∀ (mid pre : List Char) (l : Lexer) (n : Nat), Before l pre (mid ++ rest) →
      (∀ x ∈ mid, p x = true) → mid.length < n → Before (readWhile p n l) (pre ++ mid) rest := by
  intro mid
  induction mid with
  | nil =>
    intro pre l n h _ hn
    obtain ⟨m, rfl⟩ : ∃ m, n = m + 1 := ⟨n - 1, by simp at hn; omega⟩
    rw [List.append_nil]
    rw [List.nil_append] at h
    have hc : p l.ch = false := by
      cases rest with
      | nil => rw [lexer.before_ch_nil l pre h, hp]
      | cons d post =>
        rw [show l.ch = d from h.2.2.2.1]
        exact hrest d post rfl
    unfold readWhile
    rw [if_neg (by simp [hc])]
    exact h
  | cons c mid ih =>
    intro pre l n h hmid hn
    obtain ⟨m, rfl⟩ : ∃ m, n = m + 1 := ⟨n - 1, by simp at hn; omega⟩
    have hat : AtChar l pre c (mid ++ rest) := h
    have hc : p l.ch = true := by
      rw [show l.ch = c from hat.2.2.2.1]
      exact hmid c (List.mem_cons_self _ _)
    unfold readWhile
    rw [if_pos hc]
    have := ih (pre ++ [c]) (readRune l) m (lexer.before_readRune l pre c _ hat)
      (fun x hx => hmid x (List.mem_cons_of_mem _ hx)) (by simp at hn; omega)
    simpa using this

theorem unicode.space_not_letter (T : Tables) (hT : SeparateTables T) (c : Char)
    (h : IsSpace T c = true) : IsLetter T c = false := by
  unfold IsSpace at h
  unfold IsLetter
  by_cases hc : c.toNat ≤ MaxLatin1
  · rw [if_pos hc] at h
    rw [if_pos hc]
    simp only [Bool.or_eq_true, decide_eq_true_eq] at h
    simp only [Bool.or_eq_false_iff, Bool.and_eq_false_imp, decide_eq_true_eq, decide_eq_false_iff_not]
    omega
  · rw [if_neg hc] at h
    rw [if_neg hc]
    exact (hT c h).1

theorem unicode.space_not_digit (T : Tables) (hT : SeparateTables T) (c : Char)
    (h : IsSpace T c = true) : IsDigit T c = false := by
  unfold IsSpace at h
  unfold IsDigit
  by_cases hc : c.toNat ≤ MaxLatin1
  · rw [if_pos hc] at h
    rw [if_pos hc]
    simp only [Bool.or_eq_true, decide_eq_true_eq] at h
    simp only [Bool.and_eq_false_imp, decide_eq_true_eq, decide_eq_false_iff_not]
    omega
  · rw [if_neg hc] at h
    rw [if_neg hc]
    exact (hT c h).2

theorem unicode.space_not_underscore (T : Tables) (c : Char) (h : IsSpace T c = true) :
    c ≠ Char.ofNat 0x5F := by
  intro e
  rw [e] at h
  exact absurd h (by simp [IsSpace, MaxLatin1])

theorem unicode.digit_of_ascii (T : Tables) (c : Char)
    (h : 0x30 ≤ c.toNat ∧ c.toNat ≤ 0x39) :
    IsDigit T c = true ∧ IsSpace T c = false ∧ IsLetter T c = false := by
  have hc : c.toNat ≤ MaxLatin1 := by
    show c.toNat ≤ 0xFF
    omega
  unfold IsDigit IsSpace IsLetter
  rw [if_pos hc, if_pos hc, if_pos hc]
  refine ⟨?_, ?_, ?_⟩
  · simp only [Bool.and_eq_true, decide_eq_true_eq]
    exact h
  · simp only [Bool.or_eq_false_iff, decide_eq_false_iff_not]
    omega
  · simp only [Bool.or_eq_false_iff, Bool.and_eq_false_imp, decide_eq_true_eq, decide_eq_false_iff_not]
    omega

theorem unicode.space_not_ident (T : Tables) (hT : SeparateTables T) (c : Char)
    (h : IsSpace T c = true) :
    (isLetter T c || IsDigit T c || decide (c = Char.ofNat 0x5F)) = false := by
  rw [isLetter, unicode.space_not_letter T hT c h, unicode.space_not_digit T hT c h,
    decide_eq_false (unicode.space_not_underscore T c h)]
  rfl

theorem unicode.letter_not_space (T : Tables) (hT : SeparateTables T) (c : Char)
    (h : IsLetter T c = true ∨ c = Char.ofNat 0x5F) : IsSpace T c = false := by
  cases hs : IsSpace T c with
  | false => rfl
  | true =>
    rcases h with h | h
    · rw [unicode.space_not_letter T hT c hs] at h
      exact absurd h (by decide)
    · exact absurd h (unicode.space_not_underscore T c hs)

/-- On a letter or `_` the `switch` reads an identifier. -/
theorem lexer.scanToken_ident (T : Tables) (l : Lexer)
    (h : IsLetter T l.ch = true ∨ l.ch = Char.ofNat 0x5F) :
    scanToken T l = (⟨LookupIdent (readIdentifier T l).1, (readIdentifier T l).1,
        ⟨l.line, l.column, l.position⟩⟩, (readIdentifier T l).2) := by
  have hne : ∀ x : Char, IsLetter T x = false → x ≠ Char.ofNat 0x5F → l.ch ≠ x := by
    intro x hx hx2 e
    rcases h with h | h
    · rw [e, hx] at h
      exact absurd h (by decide)
    · exact hx2 (e.symm.trans h)
  have hl : (isLetter T l.ch || decide (l.ch = Char.ofNat 0x5F)) = true := by
    rcases h with h | h
    · simp [isLetter, h]
    · simp [h]
  have h1 := hne '=' rfl (by decide)
  have h2 := hne '+' rfl (by decide)
  have h3 := hne '-' rfl (by decide)
  have h4 := hne '*' rfl (by decide)
  have h5 := hne '/' rfl (by decide)
  have h6 := hne '!' rfl (by decide)
  have h7 := hne '<' rfl (by decide)
  have h8 := hne '>' rfl (by decide)
  have h9 := hne ',' rfl (by decide)
  have h10 := hne ';' rfl (by decide)
  have h11 := hne '(' rfl (by decide)
  have h12 := hne ')' rfl (by decide)
  have h13 := hne (Char.ofNat 0x7B) rfl (by decide)
  have h14 := hne (Char.ofNat 0x7D) rfl (by decide)
  have h15 := hne (Char.ofNat 0) rfl (by decide)
  unfold scanToken
  dsimp only
  rw [if_neg h1, if_neg h2, if_neg h3, if_neg h4, if_neg h5, if_neg h6, if_neg h7, if_neg h8,
    if_neg h9, if_neg h10, if_neg h11, if_neg h12, if_neg h13, if_neg h14, if_neg h15, if_pos hl]

/-- On an ASCII digit the `switch` reads a number. -/
theorem lexer.scanToken_number (T : Tables) (l : Lexer)
    (h : 0x30 ≤ l.ch.toNat ∧ l.ch.toNat ≤ 0x39) :
    scanToken T l = (⟨INT, (readNumber T l).1, ⟨l.line, l.column, l.position⟩⟩,
      (readNumber T l).2) := by
  have hne : ∀ x : Char, ¬ (0x30 ≤ x.toNat ∧ x.toNat ≤ 0x39) → l.ch ≠ x := by
    intro x hx e
    rw [e] at h
    exact hx h
  obtain ⟨hd, _, hlt⟩ := unicode.digit_of_ascii T l.ch h
  have hl : ¬ ((isLetter T l.ch || decide (l.ch = Char.ofNat 0x5F)) = true) := by
    rw [isLetter, hlt, decide_eq_false (hne (Char.ofNat 0x5F) (by decide))]
    decide
  have h1 := hne '=' (by decide)
  have h2 := hne '+' (by decide)
  have h3 := hne '-' (by decide)
  have h4 := hne '*' (by decide)
  have h5 := hne '/' (by decide)
  have h6 := hne '!' (by decide)
  have h7 := hne '<' (by decide)
  have h8 := hne '>' (by decide)
  have h9 := hne ',' (by decide)
  have h10 := hne ';' (by decide)
  have h11 := hne '(' (by decide)
  have h12 := hne ')' (by decide)
  have h13 := hne (Char.ofNat 0x7B) (by decide)
  have h14 := hne (Char.ofNat 0x7D) (by decide)
  have h15 := hne (Char.ofNat 0) (by decide)
  unfold scanToken
  dsimp only
  rw [if_neg h1, if_neg h2, if_neg h3, if_neg h4, if_neg h5, if_neg h6, if_neg h7, if_neg h8,
    if_neg h9, if_neg h10, if_neg h11, if_neg h12, if_neg h13, if_neg h14, if_neg h15, if_neg hl,
    if_pos hd]

/-- On `=` not followed by `=` the `switch` returns `ASSIGN`. -/
theorem lexer.scanToken_assign (T : Tables) (l : Lexer) (h : l.ch = '=')
    (hp : peekRune l ≠ '=') :
    scanToken T l = (⟨ASSIGN, "=", ⟨l.line, l.column, l.position⟩⟩, readRune l) := by
  unfold scanToken
  dsimp only
  rw [if_pos h, if_neg hp]

/-- On `;` the `switch` returns `SEMICOLON`. -/
theorem lexer.scanToken_semicolon (T : Tables) (l : Lexer) (h : l.ch = ';') :
    scanToken T l = (⟨SEMICOLON, ";", ⟨l.line, l.column, l.position⟩⟩, readRune l) := by
  have hne : ∀ x : Char, x ≠ ';' → l.ch ≠ x := by
    intro x hx e
    exact hx (e.symm.trans h)
  unfold scanToken
  dsimp only
  rw [if_neg (hne '=' (by decide)), if_neg (hne '+' (by decide)), if_neg (hne '-' (by decide)),
    if_neg (hne '*' (by decide)), if_neg (hne '/' (by decide)), if_neg (hne '!' (by decide)),
    if_neg (hne '<' (by decide)), if_neg (hne '>' (by decide)), if_neg (hne ',' (by decide)),
    if_pos h]

theorem lexer.skipWhitespace_before (T : Tables) (l : Lexer) (pre ws rest : List Char)
    (h : Before l pre (ws ++ rest)) (hws : isBlank T ws = true)
    (hrest : ∀ d post, rest = d :: post → IsSpace T d = false) :
    Before (skipWhitespace T l) (pre ++ ws) rest := by
  unfold skipWhitespace
  apply lexer.readWhile_before (IsSpace T) rfl rest hrest ws pre l _ h
  · intro x hx
    exact List.all_eq_true.mp hws x hx
  · rw [lexer.before_input l pre _ h]
    have := utf8.length_le_byteLen (pre ++ (ws ++ rest))
    simp only [List.length_append] at this
    omega

/-- The call of `NextToken` before white space and an identifier or keyword
followed by a code point that is not of an identifier. -/
theorem lexer.NextToken_ident (T : Tables) (hT : SeparateTables T) (l : Lexer)
    (pre ws : List Char) (c : Char) (body : List Char) (d : Char) (post text : List Char)
    (ht : text = ws ++ ((c :: body) ++ (d :: post)))
    (h : Before l pre text) (hws : isBlank T ws = true)
    (hc : IsLetter T c = true ∨ c = Char.ofNat 0x5F)
    (hbody : ∀ x ∈ body, (isLetter T x || IsDigit T x || decide (x = Char.ofNat 0x5F)) = true)
    (hd : (isLetter T d || IsDigit T d || decide (d = Char.ofNat 0x5F)) = false) :
    (NextToken T l).1.Typ = LookupIdent (String.mk (c :: body))
      ∧ (NextToken T l).1.Literal = String.mk (c :: body)
      ∧ Before (NextToken T l).2 (pre ++ ws ++ (c :: body)) (d :: post) := by
  subst ht
  have h1 : Before (skipWhitespace T l) (pre ++ ws) ((c :: body) ++ (d :: post)) :=
    lexer.skipWhitespace_before T l pre ws _ h hws (fun d' post' e => by
      have e2 : d' = c := by
        simp only [List.cons_append, List.cons.injEq] at e
        exact e.1.symm
      rw [e2]
      exact unicode.letter_not_space T hT c hc)
  have hat : AtChar (skipWhitespace T l) (pre ++ ws) c (body ++ d :: post) := h1
  have hch : (skipWhitespace T l).ch = c := hat.2.2.2.1
  have hsc := lexer.scanToken_ident T (skipWhitespace T l) (by rw [hch]; exact hc)
  have hpc : (isLetter T c || IsDigit T c || decide (c = Char.ofNat 0x5F)) = true := by
    rcases hc with hc | hc
    · simp [isLetter, hc]
    · simp [hc]
  have hlen : (c :: body).length < utf8.byteLen (skipWhitespace T l).input + 1 := by
    rw [hat.1]
    have := utf8.length_le_byteLen (pre ++ ws ++ c :: (body ++ d :: post))
    simp only [List.length_append, List.length_cons] at this ⊢
    omega
  have h2 : Before (readIdentifier T (skipWhitespace T l)).2 ((pre ++ ws) ++ (c :: body))
      (d :: post) := by
    unfold readIdentifier
    dsimp only
    exact lexer.readWhile_before
      (fun ch => isLetter T ch || IsDigit T ch || decide (ch = Char.ofNat 0x5F)) rfl (d :: post)
      (fun d' post' e => by
        simp only [List.cons.injEq] at e
        rw [← e.1]
        exact hd)
      (c :: body) (pre ++ ws) _ _ h1
      (fun x hx => by
        rcases List.mem_cons.mp hx with e | hx
        · rw [e]
          exact hpc
        · exact hbody x hx) hlen
  have hat2 : AtChar (readIdentifier T (skipWhitespace T l)).2 ((pre ++ ws) ++ (c :: body)) d post :=
    h2
  have hlit : (readIdentifier T (skipWhitespace T l)).1 = String.mk (c :: body) := by
    have e1 := hat2.1
    have e2 := hat2.2.1
    unfold readIdentifier at e1 e2 ⊢
    dsimp only at e1 e2 ⊢
    rw [e2, hat.2.1, e1,
      show pre ++ ws ++ c :: body ++ d :: post = (pre ++ ws) ++ ((c :: body) ++ (d :: post)) by
        simp,
      utf8.slice_at]
  unfold NextToken
  rw [hsc]
  dsimp only
  rw [hlit]
  exact ⟨rfl, rfl, h2⟩

/-- The call of `NextToken` before white space and a run of ASCII digits
followed by a code point that is not a digit. -/
theorem lexer.NextToken_number (T : Tables) (l : Lexer)
    (pre ws : List Char) (c : Char) (body : List Char) (d : Char) (post text : List Char)
    (ht : text = ws ++ ((c :: body) ++ (d :: post)))
    (h : Before l pre text) (hws : isBlank T ws = true)
    (hdig : ∀ x ∈ c :: body, 0x30 ≤ x.toNat ∧ x.toNat ≤ 0x39)
    (hd : IsDigit T d = false) :
    (NextToken T l).1.Typ = INT
      ∧ (NextToken T l).1.Literal = String.mk (c :: body)
      ∧ Before (NextToken T l).2 (pre ++ ws ++ (c :: body)) (d :: post) := by
  subst ht
  have hc := hdig c (List.mem_cons_self _ _)
  have h1 : Before (skipWhitespace T l) (pre ++ ws) ((c :: body) ++ (d :: post)) :=
    lexer.skipWhitespace_before T l pre ws _ h hws (fun d' post' e => by
      have e2 : d' = c := by
        simp only [List.cons_append, List.cons.injEq] at e
        exact e.1.symm
      rw [e2]
      exact (unicode.digit_of_ascii T c hc).2.1)
  have hat : AtChar (skipWhitespace T l) (pre ++ ws) c (body ++ d :: post) := h1
  have hch : (skipWhitespace T l).ch = c := hat.2.2.2.1
  have hsc := lexer.scanToken_number T (skipWhitespace T l) (by rw [hch]; exact hc)
  have hlen : (c :: body).length < utf8.byteLen (skipWhitespace T l).input + 1 := by
    rw [hat.1]
    have := utf8.length_le_byteLen (pre ++ ws ++ c :: (body ++ d :: post))
    simp only [List.length_append, List.length_cons] at this ⊢
    omega
  have h2 : Before (readNumber T (skipWhitespace T l)).2 ((pre ++ ws) ++ (c :: body))
      (d :: post) := by
    unfold readNumber
    dsimp only
    exact lexer.readWhile_before (IsDigit T) rfl (d :: post)
      (fun d' post' e => by
        simp only [List.cons.injEq] at e
        rw [← e.1]
        exact hd)
      (c :: body) (pre ++ ws) _ _ h1
      (fun x hx => (unicode.digit_of_ascii T x (hdig x hx)).1) hlen
  have hat2 : AtChar (readNumber T (skipWhitespace T l)).2 ((pre ++ ws) ++ (c :: body)) d post :=
    h2
  have hlit : (readNumber T (skipWhitespace T l)).1 = String.mk (c :: body) := by
    have e1 := hat2.1
    have e2 := hat2.2.1
    unfold readNumber at e1 e2 ⊢
    dsimp only at e1 e2 ⊢
    rw [e2, hat.2.1, e1,
      show pre ++ ws ++ c :: body ++ d :: post = (pre ++ ws) ++ ((c :: body) ++ (d :: post)) by
        simp,
      utf8.slice_at]
  unfold NextToken
  rw [hsc]
  dsimp only
  rw [hlit]
  exact ⟨rfl, rfl, h2⟩

/-- The call of `NextToken` before white space and `=` not followed by `=`. -/
theorem lexer.NextToken_assign (T : Tables) (l : Lexer) (pre ws rest text : List Char)
    (ht : text = ws ++ ('=' :: rest))
    (h : Before l pre text) (hws : isBlank T ws = true)
    (hrest : ∀ d post, rest = d :: post → d ≠ '=') :
    (NextToken T l).1.Typ = ASSIGN ∧ Before (NextToken T l).2 (pre ++ ws ++ ['=']) rest := by
  subst ht
  have h1 : Before (skipWhitespace T l) (pre ++ ws) ('=' :: rest) :=
    lexer.skipWhitespace_before T l pre ws _ h hws (fun d' post' e => by
      simp only [List.cons.injEq] at e
      rw [← e.1]
      rfl)
  have hat : AtChar (skipWhitespace T l) (pre ++ ws) '=' rest := h1
  have hpk : peekRune (skipWhitespace T l) ≠ '=' := by
    rw [lexer.peekRune_atChar _ _ _ _ hat]
    cases rest with
    | nil => decide
    | cons d post => exact hrest d post rfl
  unfold NextToken
  rw [lexer.scanToken_assign T _ hat.2.2.2.1 hpk]
  exact ⟨rfl, lexer.before_readRune _ _ _ _ hat⟩

/-- The call of `NextToken` before white space and `;`. -/
theorem lexer.NextToken_semicolon (T : Tables) (l : Lexer) (pre ws rest text : List Char)
    (ht : text = ws ++ (';' :: rest))
    (h : Before l pre text) (hws : isBlank T ws = true) :
    (NextToken T l).1.Typ = SEMICOLON ∧ Before (NextToken T l).2 (pre ++ ws ++ [';']) rest := by
  subst ht
  have h1 : Before (skipWhitespace T l) (pre ++ ws) (';' :: rest) :=
    lexer.skipWhitespace_before T l pre ws _ h hws (fun d' post' e => by
      simp only [List.cons.injEq] at e
      rw [← e.1]
      rfl)
  have hat : AtChar (skipWhitespace T l) (pre ++ ws) ';' rest := h1
  unfold NextToken
  rw [lexer.scanToken_semicolon T _ hat.2.2.2.1]
  exact ⟨rfl, lexer.before_readRune _ _ _ _ hat⟩

/-- The call of `NextToken` before white space at the end of the input. -/
theorem lexer.NextToken_end (T : Tables) (l : Lexer) (pre ws : List Char)
    (h : Before l pre ws) (hws : isBlank T ws = true) :
    (NextToken T l).1.Typ = EOF := by
  have h1 : Before (skipWhitespace T l) (pre ++ ws) [] :=
    lexer.skipWhitespace_before T l pre ws [] (by rw [List.append_nil]; exact h) hws
      (fun d' post' e => by cases e)
  unfold NextToken
  exact lexer.scanToken_eof T _ (lexer.before_ch_nil _ _ h1)

theorem lexer.nthToken_eq (T : Tables) (input : List Char) (k : Nat) :
    nthToken T input k = (NextToken T (lexerAfter T input k)).1 := by
  rw [nthToken]

theorem parser.parseInt64_digits (s : String) (h : (parseInt64 s).isSome = true) :
    s.data ≠ [] ∧ ∀ c ∈ s.data, 0x30 ≤ c.toNat ∧ c.toNat ≤ 0x39 := by
  unfold parseInt64 at h
  by_cases hc : s.data ≠ []
      ∧ s.data.all (fun c => decide (0x30 ≤ c.toNat) && decide (c.toNat ≤ 0x39)) = true
  · refine ⟨hc.1, fun c hm => ?_⟩
    have := List.all_eq_true.mp hc.2 c hm
    simpa using this
  · rw [if_neg hc] at h
    exact absurd h (by decide)

theorem parser.isIdentifier_cons (T : Tables) (c : Char) (body : List Char)
    (h : isIdentifier T (c :: body) = true) :
    (IsLetter T c = true ∨ c = Char.ofNat 0x5F)
      ∧ (∀ x ∈ body, (isLetter T x || IsDigit T x || decide (x = Char.ofNat 0x5F)) = true)
      ∧ LookupIdent (String.mk (c :: body)) = IDENT := by
  unfold isIdentifier at h
  simp only [Bool.and_eq_true, Bool.or_eq_true, beq_iff_eq, List.all_eq_true] at h
  refine ⟨h.1.1, fun x hx => ?_, h.2⟩
  have := h.1.2 x hx
  simpa [isLetter] using this

theorem List.head_cases (A : List Char) (x : Char) (B : List Char) (P : Char → Prop)
    (hA : ∀ a ∈ A, P a) (hx : P x) : ∃ d post, A ++ (x :: B) = d :: post ∧ P d := by
  cases A with
  | nil => exact ⟨x, B, rfl, hx⟩
  | cons a A => exact ⟨a, A ++ x :: B, rfl, hA a (List.mem_cons_self _ _)⟩

/-- The five tokens of a statement `let <identifier> = <integer literal>;`. -/
theorem lexer.tokens_of_let (T : Tables) (hT : SeparateTables T) (input : List Char)
    (s : LetSource) (tail : List Char) (j : Nat) (pre : List Char)
    (h : Before (lexerAfter T input j) pre (s.text tail)) (hwf : s.WellFormed T) :
    (nthToken T input j).Typ = LET
      ∧ (nthToken T input (j + 1)).Typ = IDENT
      ∧ (nthToken T input (j + 1)).Literal = String.mk s.name
      ∧ (nthToken T input (j + 2)).Typ = ASSIGN
      ∧ (nthToken T input (j + 3)).Typ = INT
      ∧ (nthToken T input (j + 3)).Literal = String.mk s.literal
      ∧ (nthToken T input (j + 4)).Typ = SEMICOLON
      ∧ ∃ pre5, Before (lexerAfter T input (j + 5)) pre5 tail := by
  obtain ⟨h0, h1, h1ne, h2, h3, h4, hid, hlit⟩ := hwf
  have b0 : ∀ a ∈ s.sp0, IsSpace T a = true := fun a ha => List.all_eq_true.mp h0 a ha
  have b1 : ∀ a ∈ s.sp1, IsSpace T a = true := fun a ha => List.all_eq_true.mp h1 a ha
  have b2 : ∀ a ∈ s.sp2, IsSpace T a = true := fun a ha => List.all_eq_true.mp h2 a ha
  have b3 : ∀ a ∈ s.sp3, IsSpace T a = true := fun a ha => List.all_eq_true.mp h3 a ha
  have b4 : ∀ a ∈ s.sp4, IsSpace T a = true := fun a ha => List.all_eq_true.mp h4 a ha
  obtain ⟨d1, sp1, e1⟩ := List.exists_cons_of_ne_nil h1ne
  obtain ⟨c, body, en⟩ : ∃ c body, s.name = c :: body := by
    cases hn : s.name with
    | nil =>
      rw [hn] at hid
      exact absurd (show false = true from hid) (by decide)
    | cons c body => exact ⟨c, body, rfl⟩
  rw [en] at hid
  obtain ⟨hc, hbody, hkw⟩ := parser.isIdentifier_cons T c body hid
  obtain ⟨hlne, hldig⟩ := parser.parseInt64_digits _ hlit
  obtain ⟨n, digits, el⟩ := List.exists_cons_of_ne_nil hlne
  have el2 : s.literal = n :: digits := el
  rw [el] at hldig
  -- the code points after the identifier, after `=` and after the literal
  obtain ⟨d2, post2, e2, hd2⟩ := List.head_cases s.sp2 '='
    (s.sp3 ++ (s.literal ++ (s.sp4 ++ (';' :: tail))))
    (fun d => (isLetter T d || IsDigit T d || decide (d = Char.ofNat 0x5F)) = false)
    (fun a ha => unicode.space_not_ident T hT a (b2 a ha)) rfl
  obtain ⟨d3, post3, e3, hd3⟩ := List.head_cases s.sp3 n (digits ++ (s.sp4 ++ (';' :: tail)))
    (fun d => d ≠ '=')
    (fun a ha e => by
      have := b3 a ha
      rw [e] at this
      exact absurd (show false = true from this) (by decide))
    (fun e => by
      have := hldig n (List.mem_cons_self _ _)
      rw [e] at this
      exact absurd this (by decide))
  obtain ⟨d4, post4, e4, hd4⟩ := List.head_cases s.sp4 ';' tail
    (fun d => IsDigit T d = false)
    (fun a ha => unicode.space_not_digit T hT a (b4 a ha)) rfl
  -- `let`
  obtain ⟨t0, _, a0⟩ := lexer.NextToken_ident T hT (lexerAfter T input j) pre s.sp0 'l' ['e', 't']
    d1 (sp1 ++ (s.name ++ (s.sp2 ++ ('=' :: (s.sp3 ++ (s.literal ++ (s.sp4 ++ (';' :: tail))))))))
    (s.text tail)
    (by
      unfold LetSource.text
      rw [e1]
      rfl)
    h h0 (Or.inl rfl)
    (fun x hx => by
      simp only [List.mem_cons, List.mem_singleton, List.not_mem_nil, or_false] at hx
      rcases hx with e | e <;> rw [e] <;> rfl)
    (unicode.space_not_ident T hT d1 (b1 d1 (by rw [e1]; exact List.mem_cons_self _ _)))
  rw [← lexer.lexerAfter_succ] at a0
  -- the identifier
  obtain ⟨t1, t1l, a1⟩ := lexer.NextToken_ident T hT (lexerAfter T input (j + 1)) _ s.sp1 c body
    d2 post2 _
    (by
      rw [← e2, ← en, e1]
      rfl)
    a0 h1 hc hbody hd2
  rw [← lexer.lexerAfter_succ] at a1
  -- `=`
  obtain ⟨t2, a2⟩ := lexer.NextToken_assign T (lexerAfter T input (j + 2)) _ s.sp2
    (s.sp3 ++ (s.literal ++ (s.sp4 ++ (';' :: tail)))) _ e2.symm a1 h2
    (fun d post e => by
      rw [el2, List.cons_append, e3] at e
      simp only [List.cons.injEq] at e
      rw [← e.1]
      exact hd3)
  rw [← lexer.lexerAfter_succ] at a2
  -- the literal
  obtain ⟨t3, t3l, a3⟩ := lexer.NextToken_number T (lexerAfter T input (j + 3)) _ s.sp3 n digits
    d4 post4 _
    (by
      rw [← e4, el2])
    a2 h3 hldig hd4
  rw [← lexer.lexerAfter_succ] at a3
  -- `;`
  obtain ⟨t4, a4⟩ := lexer.NextToken_semicolon T (lexerAfter T input (j + 4)) _ s.sp4 tail _
    e4.symm a3 h4
  rw [← lexer.lexerAfter_succ] at a4
  simp only [lexer.nthToken_eq]
  refine ⟨t0.trans (by decide), t1.trans hkw, ?_, t2, t3, ?_, t4, _, a4⟩
  · rw [en]
    exact t1l
  · rw [el2]
    exact t3l

/-- The tokens of a source text of let statements. -/
theorem parser.letTokens_sourceText (T : Tables) (hT : SeparateTables T) (input : List Char)
    (trailing : List Char) (htr : isBlank T trailing = true) :
    ∀ (stmts : List LetSource) (j : Nat) (pre : List Char),
      Before (lexerAfter T input j) pre (sourceText stmts trailing) →
      (∀ s ∈ stmts, s.WellFormed T) →
      LetTokens T input j (stmts.map fun s => (String.mk s.name, String.mk s.literal)) := by
  intro stmts
  induction stmts with
  | nil =>
    intro j pre h _
    show (nthToken T input j).Typ = EOF
    rw [lexer.nthToken_eq]
    exact lexer.NextToken_end T _ pre trailing h htr
  | cons s rest ih =>
    intro j pre h hwf
    obtain ⟨t0, t1, t1l, t2, t3, t3l, t4, pre5, a5⟩ := lexer.tokens_of_let T hT input s
      (sourceText rest trailing) j pre h (hwf s (List.mem_cons_self _ _))
    exact ⟨t0, t1, t1l, t2, t3, t3l, t4,
      ih (j + 5) pre5 a5 (fun x hx => hwf x (List.mem_cons_of_mem _ hx))⟩

theorem parserM_pure_apply {α : Type} (a : α) (p : Parser) :
    (pure a : ParserM α) p = .done a p := rfl

theorem parserM_bind_apply {α β : Type} (m : ParserM α) (f : α → ParserM β) (p : Parser) :
    (m >>= f) p = (match m p with
      | .done a p1 => f a p1
      | .outOfFuel => .outOfFuel) := rfl

theorem parser.New_at (T : Tables) (input : List Char) :
    parser.New T (lexer.New input) = parserAt T input 0 [] [] := by
  unfold parser.New parserAt nthToken
  rw [lexer.lexerAfter_succ, lexer.lexerAfter_succ, lexerAfter]

theorem parser.nextToken_at (T : Tables) (input : List Char) (j : Nat) (e : List String)
    (r : List RichError) :
    nextToken T (parserAt T input j e r) = .done () (parserAt T input (j + 1) e r) := by
  unfold nextToken parserAt nthToken
  rw [lexer.lexerAfter_succ T input (j + 2)]

theorem parser.expectPeek_at (T : Tables) (input : List Char) (j : Nat) (e : List String)
    (r : List RichError) (t : TokenType) (h : (nthToken T input (j + 1)).Typ = t) :
    expectPeek T t (parserAt T input j e r) = .done true (parserAt T input (j + 1) e r) := by
  unfold expectPeek
  rw [if_pos (show (parserAt T input j e r).peekToken.Typ = t from h)]
  simp only [parserM_bind_apply, parser.nextToken_at, parserM_pure_apply]

theorem parser.skipSemicolon_at (T : Tables) (input : List Char) (j : Nat) (e : List String)
    (r : List RichError) (h : (nthToken T input (j + 1)).Typ = SEMICOLON) :
    skipSemicolon T (parserAt T input j e r) = .done () (parserAt T input (j + 1) e r) := by
  unfold skipSemicolon
  rw [if_pos (show (parserAt T input j e r).peekToken.Typ = SEMICOLON from h)]
  rw [parser.nextToken_at]

theorem parser.parseExpression_int (T : Tables) (input : List Char) (j : Nat) (e : List String)
    (r : List RichError) (v : Int) (fuel prec : Nat)
    (h1 : (nthToken T input j).Typ = INT)
    (h2 : parseInt64 (nthToken T input j).Literal = some v)
    (h3 : (nthToken T input (j + 1)).Typ = SEMICOLON) :
    parseExpression T (fuel + 2) prec (parserAt T input j e r)
      = .done (some (.IntegerLiteral (nthToken T input j) v)) (parserAt T input j e r) := by
  have hcur : (parserAt T input j e r).curToken = nthToken T input j := rfl
  have hpk : (parserAt T input j e r).peekToken = nthToken T input (j + 1) := rfl
  have hp : parsePrefix T (fuel + 1) (parseExpression T (fuel + 1))
      (parseBlockStatement T (fuel + 1)) (parserAt T input j e r)
      = .done (some (.IntegerLiteral (nthToken T input j) v)) (parserAt T input j e r) := by
    unfold parsePrefix
    rw [hcur, h1, if_neg (show ¬ (INT = IDENT) by decide), if_pos (rfl : INT = INT)]
    unfold parseIntegerLiteral
    rw [hcur, h2]
  rw [parseExpression]
  dsimp only
  rw [hp]
  dsimp only
  rw [parseInfixLoop]
  dsimp only
  rw [hpk, h3, if_neg (fun h => h.1 rfl)]

theorem parser.parseStatement_let (T : Tables) (input : List Char) (j : Nat) (e : List String)
    (r : List RichError) (v : Int) (fuel : Nat)
    (h0 : (nthToken T input j).Typ = LET)
    (h1 : (nthToken T input (j + 1)).Typ = IDENT)
    (h2 : (nthToken T input (j + 2)).Typ = ASSIGN)
    (h3 : (nthToken T input (j + 3)).Typ = INT)
    (h4 : parseInt64 (nthToken T input (j + 3)).Literal = some v)
    (h5 : (nthToken T input (j + 4)).Typ = SEMICOLON) :
    parseStatement T (fuel + 3) (parserAt T input j e r)
      = .done (some (.LetStatement (nthToken T input j)
          ⟨nthToken T input (j + 1), (nthToken T input (j + 1)).Literal⟩
          (.IntegerLiteral (nthToken T input (j + 3)) v))) (parserAt T input (j + 4) e r) := by
  have hcur : (parserAt T input j e r).curToken = nthToken T input j := rfl
  rw [parseStatement]
  unfold parseStatementWith
  rw [hcur, if_pos h0]
  unfold parseLetStatement
  simp only [parserM_bind_apply, parser.expectPeek_at T input j e r IDENT h1,
    parser.expectPeek_at T input (j + 1) e r ASSIGN h2, parser.nextToken_at,
    parser.parseExpression_int T input (j + 3) e r v fuel LOWEST h3 h4 h5,
    parser.skipSemicolon_at T input (j + 3) e r h5, parserM_pure_apply, Bool.not_true,
    Bool.false_eq_true, if_false]
  rfl

theorem token.LookupIdent_let (s : String) (h : LookupIdent s = LET) : s = "let" := by
  unfold LookupIdent at h
  cases hl : keywords.lookup s with
  | none =>
    rw [hl] at h
    exact absurd h (by decide)
  | some tok =>
    rw [hl] at h
    dsimp only at h
    rw [h] at hl
    have hm := lookup_mem keywords s LET hl
    simp only [keywords, List.mem_cons, Prod.mk.injEq, List.mem_singleton, List.not_mem_nil] at hm
    rcases hm with h | h | h | h | h | h | h | h | h | h
    · exact h.1
    all_goals first
      | exact absurd h.2 (by decide)
      | exact absurd h id

theorem lexer.scanToken_let (T : Tables) (l : Lexer) (h : (scanToken T l).1.Typ = LET) :
    (scanToken T l).1.Literal = "let" := by
  revert h
  unfold scanToken
  dsimp only
  repeat' refine ite_elim (fun r : Token × Lexer =>
      r.1.Typ = LET → r.1.Literal = "let") _ _ _ (fun _ => ?_) (fun _ => ?_)
  all_goals first
    | exact token.LookupIdent_let _
    | (intro h; dsimp only at h; exact absurd h (by decide))

theorem lexer.nthToken_let (T : Tables) (input : List Char) (k : Nat)
    (h : (nthToken T input k).Typ = LET) : (nthToken T input k).Literal = "let" :=
  lexer.scanToken_let T _ h

/-- The statements a run of the program loop appends on a text of `let`
statements. -/
theorem parser.parseProgramLoop_lets (T : Tables) (input : List Char) (fuel : Nat) :
    ∀ (nls : List (String × String)) (j n : Nat) (acc : List Parsed),
      LetTokens T input j nls → (∀ nl ∈ nls, (parseInt64 nl.2).isSome = true) → nls.length < n →
      ∃ stmts, parseProgramLoop T (fuel + 3) n acc (parserAt T input j [] [])
          = .done (acc ++ stmts) (parserAt T input (j + 5 * nls.length) [] [])
        ∧ List.Forall₂ (fun s (nl : String × String) => ∃ tok name value,
            s = Parsed.LetStatement tok name value ∧ tok.Literal = "let"
              ∧ name.Value = nl.1 ∧ name.Token.Literal = nl.1) stmts nls := by
  intro nls
  induction nls with
  | nil =>
    intro j n acc h _ hn
    obtain ⟨m, rfl⟩ : ∃ m, n = m + 1 := ⟨n - 1, by simp at hn; omega⟩
    refine ⟨[], ?_, List.Forall₂.nil⟩
    rw [parseProgramLoop]
    dsimp only
    rw [if_pos (show (parserAt T input j [] []).curToken.Typ = EOF from h)]
    simp
  | cons nl rest ih =>
    intro j n acc h hfit hn
    obtain ⟨m, rfl⟩ : ∃ m, n = m + 1 := ⟨n - 1, by simp at hn; omega⟩
    obtain ⟨h0, h1, h1l, h2, h3, h3l, h4, hrest⟩ := h
    have hv := hfit nl (List.mem_cons_self _ _)
    obtain ⟨v, hv⟩ := Option.isSome_iff_exists.mp hv
    rw [← h3l] at hv
    obtain ⟨stmts, e, hall⟩ := ih (j + 5) m
      (acc ++ [.LetStatement (nthToken T input j)
          ⟨nthToken T input (j + 1), (nthToken T input (j + 1)).Literal⟩
          (.IntegerLiteral (nthToken T input (j + 3)) v)]) hrest
      (fun x hx => hfit x (List.mem_cons_of_mem _ hx)) (by simp at hn; omega)
    refine ⟨Parsed.LetStatement (nthToken T input j)
        ⟨nthToken T input (j + 1), (nthToken T input (j + 1)).Literal⟩
        (.IntegerLiteral (nthToken T input (j + 3)) v) :: stmts, ?_,
      List.Forall₂.cons ⟨nthToken T input j,
        ⟨nthToken T input (j + 1), (nthToken T input (j + 1)).Literal⟩,
        .IntegerLiteral (nthToken T input (j + 3)) v, rfl, lexer.nthToken_let T input j h0,
        h1l, h1l⟩ hall⟩
    rw [parseProgramLoop]
    dsimp only
    rw [if_neg (show ¬ (parserAt T input j [] []).curToken.Typ = EOF from fun hc => by
      rw [show (parserAt T input j [] []).curToken = nthToken T input j from rfl, h0] at hc
      exact absurd hc (by decide))]
    simp only [parserM_bind_apply, parser.parseStatement_let T input j [] [] v fuel h0 h1 h2 h3 hv h4,
      parser.nextToken_at]
    rw [e]
    simp only [List.append_assoc, List.singleton_append, List.length_cons]
    rw [show j + 5 + 5 * rest.length = j + 5 * (rest.length + 1) by omega]

theorem List.forall2_at {α β : Type} (R : α → β → Prop) (l1 : List α) (l2 : List β)
    (h : List.Forall₂ R l1 l2) :
    ∀ (i : Nat) (b : β), l2.get? i = some b → ∃ a, l1.get? i = some a ∧ R a b := by
  induction h with
  | nil =>
    intro i b hb
    simp at hb
  | cons hab _ ih =>
    intro i b hb
    cases i with
    | zero =>
      simp only [List.get?_cons_zero, Option.some.injEq] at hb
      subst hb
      exact ⟨_, rfl, hab⟩
    | succ i => exact ih i b hb

/-- On a text whose tokens are those of k statements
`let <identifier> = <integer literal>;` with literals that fit 64 bits signed,
`ParseProgram` returns the k Let statements and records no errors. -/
theorem parser.parseProgram_lets (T : Tables) (input : List Char) (nls : List (String × String))
    (fuel : Nat) (htok : LetTokens T input 0 nls)
    (hfit : ∀ nl ∈ nls, (parseInt64 nl.2).isSome = true) (hfuel : nls.length + 3 ≤ fuel) :
    ∃ stmts p, ParseProgram T fuel (parser.New T (lexer.New input)) = .done (.Program stmts) p
      ∧ p.Errors = [] ∧ p.RichErrors = []
      ∧ stmts.length = nls.length
      ∧ ∀ (i : Nat) (nl : String × String), nls.get? i = some nl → ∃ tok name value,
          stmts.get? i = some (Parsed.LetStatement tok name value)
            ∧ (Parsed.LetStatement tok name value).TokenLiteral = "let"
            ∧ name.Value = nl.1 ∧ name.TokenLiteral = nl.1 := by
  obtain ⟨f, rfl⟩ : ∃ f, fuel = f + 3 := ⟨fuel - 3, by omega⟩
  obtain ⟨stmts, e, hall⟩ := parser.parseProgramLoop_lets T input f nls 0 (f + 3) [] htok hfit
    (by omega)
  refine ⟨stmts, parserAt T input (0 + 5 * nls.length) [] [], ?_, rfl, rfl, hall.length_eq, ?_⟩
  · unfold ParseProgram
    rw [parser.New_at, e]
    rfl
  · intro i nl hi
    obtain ⟨s, hs, tok, name, value, rfl, h1, h2, h3⟩ := List.forall2_at _ _ _ hall i nl hi
    exact ⟨tok, name, value, hs, h1, h2, h3⟩

/-- C21 (amended). For every source text made of k >= 0 statements of the form
`let <identifier> = <integer literal>;` (white space as the lexer skips it
around the tokens, at least one code point of it after `let`; an identifier
that is not a keyword) whose integer literals are decimal numerals that fit 64
bits signed, `ParseProgram` returns, records no errors, and its program has
exactly k statements, the i-th being a Let statement whose TokenLiteral is `let`
and whose name has both Value and TokenLiteral equal to the i-th identifier.
The range tables of Go's `unicode` package are a parameter, of which the
statement uses that white space above Latin-1 is neither letter nor digit. -/
theorem C21_let_statements (T : Tables) (stmts : List LetSource) (trailing : List Char)
    (fuel : Nat) (hT : SeparateTables T) (hwf : ∀ s ∈ stmts, s.WellFormed T)
    (htr : isBlank T trailing = true) (hfuel : stmts.length + 3 ≤ fuel) :
    ∃ prog p,
      ParseProgram T fuel (parser.New T (lexer.New (sourceText stmts trailing)))
          = .done (.Program prog) p
        ∧ p.Errors = [] ∧ p.RichErrors = []
        ∧ prog.length = stmts.length
        ∧ ∀ (i : Nat) (s : LetSource), stmts.get? i = some s → ∃ tok name value,
            prog.get? i = some (Parsed.LetStatement tok name value)
              ∧ (Parsed.LetStatement tok name value).TokenLiteral = "let"
              ∧ name.Value = String.mk s.name ∧ name.TokenLiteral = String.mk s.name := by
  have htok := parser.letTokens_sourceText T hT (sourceText stmts trailing) trailing htr stmts 0 []
    (lexer.before_New _) hwf
  obtain ⟨prog, p, e, he, hr, hlen, hall⟩ := parser.parseProgram_lets T
    (sourceText stmts trailing) (stmts.map fun s => (String.mk s.name, String.mk s.literal)) fuel
    htok
    (fun nl hnl => by
      obtain ⟨s, hs, rfl⟩ := List.mem_map.mp hnl
      exact (hwf s hs).2.2.2.2.2.2.2)
    (by rw [List.length_map]; exact hfuel)
  refine ⟨prog, p, e, he, hr, by rw [hlen, List.length_map], fun i s hs => ?_⟩
  have hs2 : stmts[i]? = some s := by
    rw [← List.get?_eq_getElem?]
    exact hs
  exact hall i (String.mk s.name, String.mk s.literal) (by
    rw [List.get?_eq_getElem?, List.getElem?_map, hs2]
    rfl)

/-- C21 (amended) at the text of the test `TestLetStatements`: the three
statements `let x = 5;`, `let y = 10;`, `let foobar = 838383;`, each after a
line feed, and a line feed at the end. -/
theorem C21_let_statements_witness :
    sourceText
        [⟨"x".data, "5".data, "\n".data, " ".data, " ".data, " ".data, []⟩,
          ⟨"y".data, "10".data, "\n".data, " ".data, " ".data, " ".data, []⟩,
          ⟨"foobar".data, "838383".data, "\n".data, " ".data, " ".data, " ".data, []⟩] "\n".data
        = "\nlet x = 5;\nlet y = 10;\nlet foobar = 838383;\n".data
      ∧ ∃ prog p,
        ParseProgram emptyTables 6 (parser.New emptyTables (lexer.New (sourceText
            [⟨"x".data, "5".data, "\n".data, " ".data, " ".data, " ".data, []⟩,
              ⟨"y".data, "10".data, "\n".data, " ".data, " ".data, " ".data, []⟩,
              ⟨"foobar".data, "838383".data, "\n".data, " ".data, " ".data, " ".data, []⟩]
            "\n".data)))
          = .done (.Program prog) p
        ∧ p.Errors = [] ∧ p.RichErrors = []
        ∧ prog.length = 3
        ∧ ∀ (i : Nat) (s : LetSource),
            [(⟨"x".data, "5".data, "\n".data, " ".data, " ".data, " ".data, []⟩ : LetSource),
              ⟨"y".data, "10".data, "\n".data, " ".data, " ".data, " ".data, []⟩,
              ⟨"foobar".data, "838383".data, "\n".data, " ".data, " ".data, " ".data, []⟩].get? i
              = some s →
            ∃ tok name value,
              prog.get? i = some (Parsed.LetStatement tok name value)
                ∧ (Parsed.LetStatement tok name value).TokenLiteral = "let"
                ∧ name.Value = String.mk s.name ∧ name.TokenLiteral = String.mk s.name :=
  ⟨by decide,
    C21_let_statements emptyTables
      [⟨"x".data, "5".data, "\n".data, " ".data, " ".data, " ".data, []⟩,
        ⟨"y".data, "10".data, "\n".data, " ".data, " ".data, " ".data, []⟩,
        ⟨"foobar".data, "838383".data, "\n".data, " ".data, " ".data, " ".data, []⟩] "\n".data 6
      (fun _ h => absurd (show false = true from h) (by decide)) (by decide!) (by decide!)
      (by decide)⟩

/-- C21, the claim as stated fails at `let x = 9223372036854775808;`, a
statement of the form `let <identifier> = <integer literal>;` (the lexer
returns `LET`, `IDENT`, `ASSIGN`, `INT`, `SEMICOLON` and `EOF`) whose literal
does not fit 64 bits signed: the integer literal parselet records an error (at
line 1, column 9) and the program has no statement. -/
theorem C21_literal_overflow :
    sourceText [⟨"x".data, "9223372036854775808".data, [], " ".data, " ".data, " ".data, []⟩] []
        = "let x = 9223372036854775808;".data
      ∧ LetTokens emptyTables "let x = 9223372036854775808;".data 0
          [("x", "9223372036854775808")]
      ∧ parser.Result.errors (ParseProgram emptyTables 6 (parser.New emptyTables
          (lexer.New "let x = 9223372036854775808;".data)))
        = some (["malformed literal: could not parse 9223372036854775808 as integer"],
            [⟨"malformed literal: could not parse 9223372036854775808 as integer", ⟨1, 9, 8⟩⟩])
      ∧ parser.Result.statements (ParseProgram emptyTables 6 (parser.New emptyTables
          (lexer.New "let x = 9223372036854775808;".data))) = some 0 := by
  decide!

end

end Mingo
